import Mathlib

/-!
# forkDB (MiniDB) record manager: a shallow embedding

The definitions follow `src/src/record_manager.cc`, `sql_statement.h`,
`catalog_manager.h`, `block_info.h`, `block_handle.h`, `block_handle.cc` and
`commons.h`.

Conventions of the embedding.

* C++ `int` is `Int`; sizes that are never negative (attribute lengths, key
  lengths) are `Nat`. No arithmetic of the record manager comes near the
  32-bit range for the block and record numbers considered, so `int`
  arithmetic is not wrapped.
* A block frame (`BlockInfo::data_`, 4096 bytes) is its three header integers
  `prev`, `next`, `count` (bytes 0..11) and its payload, a map from the byte
  offset relative to `GetContentAddress()` (byte 12) to the byte stored there.
  The payload map is total and does not alias the header: an access outside
  the 4084 payload bytes (a record count that is negative or above
  `max_count`, a record longer than `record_length`) is outside the model.
* Undefined behaviour that the record manager can reach on its own data (a
  dereferenced `NULL` block, a vector subscript out of range, a read of the
  uninitialised `lastub`, a division by zero) is the outcome `undefined`.
* The buffer manager (`BlockHandle`/`BufferManager::GetFileBlock`) is seen
  through `DB.blocks`: asking twice for a block number gives the same frame.
  `WriteBlock`, `WriteToDisk` and `WriteArchiveFile` only persist and do not
  appear.
-/

namespace MiniDB

/-- One byte of memory, as a number; every decoder reduces it modulo 256. -/
abbrev Byte := Nat

/-! ## commons.h -/

def T_INT : Int := 0
def T_FLOAT : Int := 1
def T_CHAR : Int := 2

def SIGN_EQ : Int := 0
def SIGN_NE : Int := 1
def SIGN_LT : Int := 2
def SIGN_GT : Int := 3
def SIGN_LE : Int := 4
def SIGN_GE : Int := 5

/-! ## Memory helpers -/

/-- The four bytes of a 32-bit `int`, little-endian (`memcpy(key_, &a, 4)`). -/
def int32Bytes (a : Int) : List Byte :=
  let u := (a % 4294967296).toNat
  [u % 256, u / 256 % 256, u / 65536 % 256, u / 16777216 % 256]

/-- The 32-bit word held in the first four bytes of a buffer. -/
def word32 (k : List Byte) : Nat :=
  k.getD 0 0 % 256 + 256 * (k.getD 1 0 % 256) + 65536 * (k.getD 2 0 % 256)
    + 16777216 * (k.getD 3 0 % 256)

/-- Signed reading of the first four bytes: `*(int *)key_`. -/
def asInt (k : List Byte) : Int :=
  if word32 k < 2147483648 then (word32 k : Int) else (word32 k : Int) - 4294967296

/-- IEEE-754 binary32: the word is a NaN. -/
def floatIsNaN (w : Nat) : Bool :=
  (w / 8388608 % 256 == 255) && (w % 8388608 != 0)

/-- IEEE-754 binary32: an integer ordered like the float (both zeros are 0). -/
def floatOrd (w : Nat) : Int :=
  if w / 2147483648 % 2 = 0 then ((w % 2147483648 : Nat) : Int)
  else - ((w % 2147483648 : Nat) : Int)

def floatLt (a b : Nat) : Bool :=
  !floatIsNaN a && !floatIsNaN b && decide (floatOrd a < floatOrd b)

def floatEq (a b : Nat) : Bool :=
  !floatIsNaN a && !floatIsNaN b && decide (floatOrd a = floatOrd b)

/-- The bytes `f i, f (i + 1), ...`, `n` of them. -/
def tabulate (f : Nat → Byte) : Nat → Nat → List Byte
  | _, 0 => []
  | i, n + 1 => f i :: tabulate f (i + 1) n

/-- Reads `n` payload bytes starting at offset `off`. -/
def readBytes (c : Int → Byte) (off : Int) (n : Nat) : List Byte :=
  tabulate (fun i => c (off + (i : Int))) 0 n

/-- The payload after `memcpy(content + off, src, n)`. -/
def memcpy (c : Int → Byte) (off : Int) (src : Nat → Byte) (n : Nat) : Int → Byte :=
  fun i => if off ≤ i ∧ i < off + (n : Int) then src (i - off).toNat else c i

/-- The result of `strncmp(a, b, n)`: bytes are compared as unsigned chars,
the comparison stops at the first difference or after a zero byte. -/
def strncmp : List Byte → List Byte → Nat → Int
  | _, _, 0 => 0
  | a, b, n + 1 =>
    let x := a.headD 0 % 256
    let y := b.headD 0 % 256
    if x ≠ y then (x : Int) - (y : Int)
    else if x = 0 then 0
    else strncmp a.tail b.tail n

/-! ## libc conversions -/

def isSpace (c : Byte) : Bool := c == 32 || (decide (9 ≤ c) && decide (c ≤ 13))

def atoiDigits : List Byte → Int → Int
  | [], acc => acc
  | c :: cs, acc =>
    if 48 ≤ c ∧ c ≤ 57 then atoiDigits cs (acc * 10 + ((c : Int) - 48)) else acc

def atoiSign : List Byte → Int
  | 45 :: cs => - atoiDigits cs 0
  | 43 :: cs => atoiDigits cs 0
  | cs => atoiDigits cs 0

/-- The function `atoi` of libc: leading white space, an optional sign, decimal
digits. A value outside the `int` range is undefined in C; here it is the
mathematical value, which `int32Bytes` then reduces modulo 2^32. -/
def atoi : List Byte → Int
  | [] => 0
  | c :: cs => if isSpace c then atoi cs else atoiSign (c :: cs)

/-- A C string as the conversions see it through `c_str()`: the characters, the
terminating zero, and whatever memory lies past the terminator. -/
structure CStr where
  chars : List Byte
  beyond : Nat → Byte

/-- The byte at index `i` from the start of the string. -/
def CStr.mem (s : CStr) (i : Nat) : Byte :=
  if i < s.chars.length then s.chars.getD i 0
  else if i = s.chars.length then 0
  else s.beyond (i - s.chars.length - 1)

/-! ## sql_statement.h: TKey -/

structure TKey where
  key_type : Int
  length : Nat
  key : List Byte
  deriving DecidableEq

/-- The constructor `TKey(keytype, length)`. The fresh buffer is indeterminate
in C++; it is observable only for a key type outside 0, 1, 2, which `ReadValue`
leaves unwritten, and is filled with zeros here. -/
def TKey.new (keytype : Int) (length : Nat) : TKey :=
  let len := if keytype = 2 then length else 4
  { key_type := keytype, length := len, key := List.replicate len 0 }

/-- The statement `memcpy(key_, src, length_)`. -/
def TKey.fill (k : TKey) (src : Nat → Byte) : TKey :=
  { k with key := tabulate src 0 k.length }

/-- The method `TKey::ReadValue`. The conversion `atof` of libc followed by the
narrowing to `float` is the parameter `atof`, which gives the binary32 word. -/
def TKey.ReadValue (atof : List Byte → Nat) (k : TKey) (content : CStr) : TKey :=
  if k.key_type = 0 then k.fill (fun i => (int32Bytes (atoi content.chars)).getD i 0)
  else if k.key_type = 1 then
    k.fill (fun i => (int32Bytes ((atof content.chars : Nat) : Int)).getD i 0)
  else if k.key_type = 2 then k.fill content.mem
  else k

/-- The operator `<` of TKey: the switch is on the type of the argument `t1`. -/
def TKey.lt (a t1 : TKey) : Bool :=
  if t1.key_type = 0 then decide (asInt a.key < asInt t1.key)
  else if t1.key_type = 1 then floatLt (word32 a.key) (word32 t1.key)
  else if t1.key_type = 2 then decide (strncmp a.key t1.key a.length < 0)
  else false

/-- The operator `>` of TKey. -/
def TKey.gt (a t1 : TKey) : Bool :=
  if t1.key_type = 0 then decide (asInt a.key > asInt t1.key)
  else if t1.key_type = 1 then floatLt (word32 t1.key) (word32 a.key)
  else if t1.key_type = 2 then decide (strncmp a.key t1.key a.length > 0)
  else false

/-- The operator `<=` of TKey: `!(operator>(t1))`. -/
def TKey.le (a t1 : TKey) : Bool := !(a.gt t1)

/-- The operator `>=` of TKey: `!(operator<(t1))`. -/
def TKey.ge (a t1 : TKey) : Bool := !(a.lt t1)

/-- The operator `==` of TKey. -/
def TKey.eq (a t1 : TKey) : Bool :=
  if t1.key_type = 0 then decide (asInt a.key = asInt t1.key)
  else if t1.key_type = 1 then floatEq (word32 a.key) (word32 t1.key)
  else if t1.key_type = 2 then decide (strncmp a.key t1.key a.length = 0)
  else false

/-- The operator `!=` of TKey. -/
def TKey.ne (a t1 : TKey) : Bool :=
  if t1.key_type = 0 then decide (asInt a.key ≠ asInt t1.key)
  else if t1.key_type = 1 then !floatEq (word32 a.key) (word32 t1.key)
  else if t1.key_type = 2 then decide (strncmp a.key t1.key a.length ≠ 0)
  else false

/-! ## sql_statement.h: statements -/

structure SQLValue where
  data_type : Int
  value : CStr

structure SQLInsert where
  values : List SQLValue

structure SQLWhere where
  key : String
  sign_type : Int
  value : CStr

structure SQLSelect where
  wheres : List SQLWhere

structure SQLDelete where
  wheres : List SQLWhere

structure SQLKeyValue where
  key : String
  value : CStr

structure SQLUpdate where
  wheres : List SQLWhere
  keyvalues : List SQLKeyValue

/-! ## catalog_manager.h -/

structure Attribute where
  attr_name : String
  data_type : Int
  length : Nat
  attr_type : Int
  deriving DecidableEq

structure Index where
  max_count : Int
  key_len : Nat
  key_type : Int
  rank : Int
  rubbish : Int
  root : Int
  leaf_head : Int
  key_count : Int
  level : Int
  node_count : Int
  attr_name : String
  name : String
  deriving DecidableEq

structure Table where
  tb_name : String := ""
  record_length : Int
  first_block_num : Int
  first_rubbish_num : Int
  block_count : Int
  ats : List Attribute
  ids : List Index
  deriving DecidableEq

/-- Modelled from the spec: `Table::GetAttributeIndex` is declared in
catalog_manager.h and defined outside src; it is the position of the first
attribute with the given name, and -1 when there is none. -/
def Table.GetAttributeIndex (tbl : Table) (name : String) : Int :=
  match tbl.ats.findIdx? (fun a => a.attr_name == name) with
  | some i => (i : Int)
  | none => -1

/-! ## block_info.h -/

structure BlockInfo where
  prev : Int
  next : Int
  count : Int
  content : Int → Byte

/-! ## The B+ tree of an index -/

/-- Modelled from the spec: the B+ tree (index_manager.h, not in src) as the
ordered key to locator map of section 4.3, kept as the list of its leaf
entries in key order. -/
structure BPlusTree where
  entries : List (TKey × Int)

/-- Modelled from the spec: `GetVal(key)` is the locator stored for an equal
key, or -1 (NOT_FOUND). -/
def BPlusTree.GetVal (t : BPlusTree) (key : TKey) : Int :=
  match t.entries.find? (fun e => e.1.eq key) with
  | some e => e.2
  | none => -1

/-- Modelled from the spec: the encoding of a locator by `Add` of the B+ tree
(index_manager.h, not in src), `(block << 16) | offset` as a 32-bit `int`. -/
def locator (block offset : Int) : Int :=
  (Int.lor (block * 65536) offset + 2147483648) % 4294967296 - 2147483648

/-- Modelled from the spec: the insertion of an entry before the first entry
with a greater key. -/
def BPlusTree.insertEntry (e : TKey × Int) : List (TKey × Int) → List (TKey × Int)
  | [] => [e]
  | x :: xs => if e.1.lt x.1 then e :: x :: xs else x :: BPlusTree.insertEntry e xs

/-- Modelled from the spec: `Add(key, block, offset)` inserts the key with its
locator, preserving the key order. -/
def BPlusTree.Add (t : BPlusTree) (key : TKey) (block offset : Int) : BPlusTree :=
  { entries := BPlusTree.insertEntry (key, locator block offset) t.entries }

/-- Modelled from the spec: `Remove(key)` removes the entry of an equal key. -/
def BPlusTree.Remove (t : BPlusTree) (key : TKey) : BPlusTree :=
  { entries := t.entries.eraseP (fun e => e.1.eq key) }

/-! ## The state the record manager works on -/

/-- One table of the selected database: its catalog entry, the blocks of its
record file by block number, and the tree of each of its indexes by position in
`ids`. -/
structure DB where
  tbl : Table
  blocks : Int → BlockInfo
  trees : Nat → BPlusTree

def DB.setBlock (s : DB) (n : Int) (f : BlockInfo → BlockInfo) : DB :=
  { s with blocks := fun m => if m = n then f (s.blocks n) else s.blocks m }

def DB.setTree (s : DB) (i : Nat) (f : BPlusTree → BPlusTree) : DB :=
  { s with trees := fun m => if m = i then f (s.trees i) else s.trees m }

inductive Exception where
  | PrimaryKeyConflict
  | TableNotExist
  deriving DecidableEq

/-- How a statement ends: it returns, it throws (with the state at the throw),
it runs into undefined behaviour, or the model ran out of fuel. -/
inductive Outcome (α : Type) where
  | done (a : α)
  | thrown (e : Exception) (s : DB)
  | undefined
  | timeout

/-- A vector subscript `v[i]`; out of range is undefined behaviour. -/
def at? {α : Type} (l : List α) (i : Int) : Option α :=
  if i < 0 then none else l[i.toNat]?

/-- The value left in `idx` by `for (i...) if (p(v[i])) idx = i;` started at
index `i` with `idx = acc`. -/
def lastIdx {α : Type} (p : α → Bool) : List α → Int → Int → Int
  | [], _, acc => acc
  | a :: as, i, acc => lastIdx p as (i + 1) (if p a then i else acc)

/-! ## record_manager.cc -/

def GetBlockInfo (s : DB) (block_num : Int) : Option BlockInfo :=
  if block_num = -1 then none else some (s.blocks block_num)

/-- The loop of `GetRecord`: one key per attribute, read at the running
offset. The key buffer has `length_` bytes and receives `length` bytes. -/
def GetRecord.keys (c : Int → Byte) : List Attribute → Int → List TKey
  | [], _ => []
  | a :: as, off =>
    let tmp := TKey.new a.data_type a.length
    { tmp with key := readBytes c off a.length ++ tmp.key.drop a.length }
      :: GetRecord.keys c as (off + (a.length : Int))

def GetRecord (s : DB) (block_num offset : Int) : Option (List TKey) :=
  match GetBlockInfo s block_num with
  | none => none
  | some bp => some (GetRecord.keys bp.content s.tbl.ats (offset * s.tbl.record_length))

def SatisfyWhere (atof : List Byte → Nat) (tbl : Table) (keys : List TKey)
    (w : SQLWhere) : Option Bool :=
  let idx := lastIdx (fun a => a.attr_name == w.key) tbl.ats 0 (-1)
  match at? tbl.ats idx, at? keys idx with
  | some a, some k =>
    let tmp := (TKey.new a.data_type a.length).ReadValue atof w.value
    if w.sign_type = SIGN_EQ then some (k.eq tmp)
    else if w.sign_type = SIGN_NE then some (k.ne tmp)
    else if w.sign_type = SIGN_LT then some (k.lt tmp)
    else if w.sign_type = SIGN_GT then some (k.gt tmp)
    else if w.sign_type = SIGN_LE then some (k.le tmp)
    else if w.sign_type = SIGN_GE then some (k.ge tmp)
    else some false
  | _, _ => none

/-- The loop `for (k...) if (!SatisfyWhere(...)) sats = false;`: every
predicate is evaluated. -/
def satsAll (atof : List Byte → Nat) (tbl : Table) (keys : List TKey) :
    List SQLWhere → Option Bool
  | [] => some true
  | w :: ws =>
    match SatisfyWhere atof tbl keys w, satsAll atof tbl keys ws with
    | some a, some b => some (a && b)
    | _, _ => none

def DeleteRecord (s : DB) (block_num offset : Int) : Option DB :=
  match GetBlockInfo s block_num with
  | none => none
  | some _ =>
    let R := s.tbl.record_length
    let s1 := s.setBlock block_num (fun b =>
      { b with
        content := memcpy b.content (offset * R)
          (fun i => b.content ((b.count - 1) * R + (i : Int))) R.toNat
        count := b.count - 1 })
    if (s1.blocks block_num).count = 0 then
      let prevnum := (s1.blocks block_num).prev
      let nextnum := (s1.blocks block_num).next
      let s2 := if prevnum ≠ -1 then s1.setBlock prevnum (fun b => { b with next := nextnum })
                else s1
      let s3 := if nextnum ≠ -1 then s2.setBlock nextnum (fun b => { b with prev := prevnum })
                else s2
      let firstrubbish := s3.tbl.first_rubbish_num
      let s4 := s3.setBlock block_num (fun b => { b with next := -1, prev := -1 })
      let s5 :=
        if firstrubbish ≠ -1 then
          (s4.setBlock firstrubbish (fun b => { b with prev := block_num })).setBlock
            block_num (fun b => { b with next := firstrubbish })
        else s4
      some { s5 with tbl := { s5.tbl with first_rubbish_num := block_num } }
    else some s1

/-- The loop of `UpdateRecord` from attribute `i` on, `content` at `off`. -/
def UpdateRecord.loop (indices : List Int) (values : List TKey) :
    List Attribute → Int → Int → (Int → Byte) → Option (Int → Byte)
  | [], _, _, c => some c
  | a :: as, i, off, c =>
    match indices.indexOf? i with
    | none => UpdateRecord.loop indices values as (i + 1) (off + (a.length : Int)) c
    | some k =>
      match values[k]? with
      | none => none
      | some v =>
        UpdateRecord.loop indices values as (i + 1) (off + (a.length : Int))
          (memcpy c off (fun i => v.key.getD i 0) v.length)

def UpdateRecord (s : DB) (block_num offset : Int) (indices : List Int)
    (values : List TKey) : Option DB :=
  match GetBlockInfo s block_num with
  | none => none
  | some bp =>
    match UpdateRecord.loop indices values s.tbl.ats 0 (offset * s.tbl.record_length)
        bp.content with
    | none => none
    | some c => some (s.setBlock block_num (fun b => { b with content := c }))

/-! ### Insert -/

/-- The first loop of `Insert`: value `i` becomes a key of the type given in the
statement and of the length of attribute `i`; `none` when `ats()[i]` is out of
range. -/
def Insert.tkey_values (atof : List Byte → Nat) :
    List SQLValue → List Attribute → Option (List TKey)
  | [], _ => some []
  | _ :: _, [] => none
  | v :: vs, a :: as =>
    match Insert.tkey_values atof vs as with
    | none => none
    | some ks => some ((TKey.new v.data_type a.length).ReadValue atof v.value :: ks)

/-- The value of `pk_index` after the first loop of `Insert`. -/
def Insert.pk_index (st : SQLInsert) (tbl : Table) : Int :=
  lastIdx (fun a => decide (a.attr_type = 1)) (tbl.ats.take st.values.length) 0 (-1)

/-- The inner loop of the primary-key scan over the slots `js` of one block:
`some true` when a record with an equal key is met. -/
def pkConflictIn (s : DB) (block_num pk_index : Int) (key : TKey) :
    List Nat → Option Bool
  | [] => some false
  | j :: js =>
    match GetRecord s block_num (j : Int) with
    | none => none
    | some tkey_value =>
      match at? tkey_value pk_index with
      | none => none
      | some k => if k.eq key then some true else pkConflictIn s block_num pk_index key js

/-- The loop `for (i = 0; i < block_count; ++i)` of the primary-key scan, with
`n` iterations left and the walk at `block_num`. -/
def pkScan (s : DB) (pk_index : Int) (key : TKey) : Nat → Int → Outcome Unit
  | 0, _ => Outcome.done ()
  | n + 1, block_num =>
    match GetBlockInfo s block_num with
    | none => Outcome.undefined
    | some bp =>
      match pkConflictIn s block_num pk_index key (List.range bp.count.toNat) with
      | none => Outcome.undefined
      | some true => Outcome.thrown Exception.PrimaryKeyConflict s
      | some false => pkScan s pk_index key n bp.next

/-- The primary-key check of `Insert` and of `Update`. -/
def pkCheck (s : DB) (pk_index : Int) (key : Option TKey) : Outcome Unit :=
  match key with
  | none => Outcome.undefined
  | some k =>
    if s.tbl.ids.length ≠ 0 then
      if (s.trees 0).GetVal k ≠ -1 then Outcome.thrown Exception.PrimaryKeyConflict s
      else Outcome.done ()
    else pkScan s pk_index k s.tbl.block_count.toNat s.tbl.first_block_num

/-- How the loop `while (ub != -1)` of `Insert` ends. -/
inductive Useful where
  | room (ub : Int)
  | full (lastub : Option Int)
  | timeout

/-- The search of `Insert` for a block of the live list that is not full;
`lastub` is `none` while the variable is uninitialised. -/
def Insert.findUseful (s : DB) (max_count : Int) : Nat → Int → Option Int → Useful
  | 0, ub, lastub => if ub = -1 then Useful.full lastub else Useful.timeout
  | fuel + 1, ub, lastub =>
    if ub = -1 then Useful.full lastub
    else if (s.blocks ub).count = max_count then
      Insert.findUseful s max_count fuel (s.blocks ub).next (some ub)
    else Useful.room ub

/-- The loop that copies the keys of the new record to `content`. -/
def writeKeys (c : Int → Byte) : List TKey → Int → (Int → Byte)
  | [], _ => c
  | k :: ks, off =>
    writeKeys (memcpy c off (fun i => k.key.getD i 0) k.length) ks (off + (k.length : Int))

/-- The index update of `Insert`: the loop over `i < ats().size()` from `i`,
with `n` iterations left; `nameOf` is `attr_name` in the first copy of the loop
and `name` in the second. -/
def Insert.indexAdd (nameOf : Index → String) (tkey_values : List TKey)
    (blocknum offset : Int) (s : DB) : Nat → Nat → Option DB
  | 0, _ => some s
  | n + 1, i =>
    match s.tbl.ids[0]?, s.tbl.ids[i]? with
    | some i0, some ii =>
      if i0.attr_name = nameOf ii then
        match tkey_values[i]? with
        | none => none
        | some k => some (s.setTree 0 (fun t => t.Add k blocknum offset))
      else Insert.indexAdd nameOf tkey_values blocknum offset s n (i + 1)
    | _, _ => none

def Insert.updateIndex (nameOf : Index → String) (tkey_values : List TKey)
    (blocknum offset : Int) (s : DB) : Outcome DB :=
  if s.tbl.ids.length ≠ 0 then
    match Insert.indexAdd nameOf tkey_values blocknum offset s s.tbl.ats.length 0 with
    | none => Outcome.undefined
    | some s1 => Outcome.done s1
  else Outcome.done s

/-- Placement (a) of `Insert`, lines 91-103: the record goes to slot
`recordCount` of the live block `ub`, which is not full. -/
def Insert.intoUseful (tkey_values : List TKey) (s : DB) (ub : Int) : DB :=
  s.setBlock ub (fun b =>
    { b with
      content := writeKeys b.content tkey_values (b.count * s.tbl.record_length)
      count := 1 + b.count })

/-- Placement (b) of `Insert`, lines 122-143: the head `frb` of the free list
takes the record and is linked after `lastub`. -/
def Insert.intoRubbish (tkey_values : List TKey) (s : DB) (lastub : Int) : DB :=
  let frb := s.tbl.first_rubbish_num
  let s1 := s.setBlock frb (fun b =>
    { b with content := writeKeys b.content tkey_values 0, count := 1 })
  let s2 := s1.setBlock lastub (fun b => { b with next := frb })
  let s3 : DB := { s2 with tbl := { s2.tbl with first_rubbish_num := (s2.blocks frb).next } }
  s3.setBlock frb (fun b => { b with prev := lastub, next := -1 })

/-- Placement (c) of `Insert`, lines 146-169: a new block, numbered
`block_count`, becomes the head of the live list. -/
def Insert.intoNew (tkey_values : List TKey) (s : DB) : DB :=
  let next_block := s.tbl.first_block_num
  let s1 :=
    if s.tbl.first_block_num ≠ -1 then
      s.setBlock s.tbl.first_block_num (fun b => { b with prev := s.tbl.block_count })
    else s
  let s2 : DB := { s1 with tbl := { s1.tbl with first_block_num := s.tbl.block_count } }
  let s3 := s2.setBlock s2.tbl.first_block_num (fun b =>
    { b with
      prev := -1
      next := next_block
      count := 1
      content := writeKeys b.content tkey_values 0 })
  { s3 with tbl := { s3.tbl with block_count := s3.tbl.block_count + 1 } }

/-- The placement of `Insert` (lines 76-170): the state after the record is
written, with the locator `(blocknum, offset)` of the record and whether the
first copy of the index loop applies. -/
def Insert.place (fuel : Nat) (tkey_values : List TKey) (s : DB) :
    Outcome (DB × Int × Int × Bool) :=
  let max_count := Int.tdiv (4096 - 12) s.tbl.record_length
  match Insert.findUseful s max_count fuel s.tbl.first_block_num none with
  | Useful.timeout => Outcome.timeout
  | Useful.room ub =>
    let s1 := Insert.intoUseful tkey_values s ub
    Outcome.done (s1, ub, (s1.blocks ub).count - 1, true)
  | Useful.full lastub =>
    if s.tbl.first_rubbish_num ≠ -1 then
      match lastub with
      | none => Outcome.undefined
      | some lastub =>
        Outcome.done (Insert.intoRubbish tkey_values s lastub, s.tbl.first_rubbish_num, 0, false)
    else
      match GetBlockInfo s s.tbl.block_count with
      | none => Outcome.undefined
      | some _ => Outcome.done (Insert.intoNew tkey_values s, s.tbl.block_count, 0, false)

/-- The body of `RecordManager::Insert`, after the table has been looked up:
the state after the statement with the values the source holds in `blocknum`
and `offset`. `fuel` bounds the iterations of the loop `while (ub != -1)`. -/
def Insert.run (atof : List Byte → Nat) (fuel : Nat) (st : SQLInsert) (s : DB) :
    Outcome (DB × Int × Int) :=
  if s.tbl.record_length = 0 then Outcome.undefined
  else
    match Insert.tkey_values atof st.values s.tbl.ats with
    | none => Outcome.undefined
    | some tkey_values =>
      let pk_index := Insert.pk_index st s.tbl
      let check :=
        if pk_index ≠ -1 then pkCheck s pk_index (at? tkey_values pk_index)
        else Outcome.done ()
      match check with
      | Outcome.thrown e s1 => Outcome.thrown e s1
      | Outcome.undefined => Outcome.undefined
      | Outcome.timeout => Outcome.timeout
      | Outcome.done _ =>
        match Insert.place fuel tkey_values s with
        | Outcome.thrown e s1 => Outcome.thrown e s1
        | Outcome.undefined => Outcome.undefined
        | Outcome.timeout => Outcome.timeout
        | Outcome.done (s1, blocknum, offset, first) =>
          match Insert.updateIndex (if first then Index.attr_name else Index.name)
              tkey_values blocknum offset s1 with
          | Outcome.done s2 => Outcome.done (s2, blocknum, offset)
          | Outcome.thrown e s2 => Outcome.thrown e s2
          | Outcome.undefined => Outcome.undefined
          | Outcome.timeout => Outcome.timeout

/-- The function `RecordManager::Insert` on the table `s` that its lookup has
found (lines 29-184); the lookup and its exception are in
`RecordManager.Insert`. -/
def Insert (atof : List Byte → Nat) (fuel : Nat) (st : SQLInsert) (s : DB) : Outcome DB :=
  match Insert.run atof fuel st s with
  | Outcome.done (s1, _, _) => Outcome.done s1
  | Outcome.thrown e s1 => Outcome.thrown e s1
  | Outcome.undefined => Outcome.undefined
  | Outcome.timeout => Outcome.timeout

/-- How a statement that looks its table up ends: it throws because there is
no such table, before it has a table to work on, or it ends on the table found
as `Outcome` says. -/
inductive StatementOutcome where
  | noTable (e : Exception)
  | onTable (o : Outcome DB)

/-- The function `RecordManager::Insert` from its first line. The argument
`tbl` is the pointer that `cm_->GetDB(db_name_)->GetTable(tb_name)` returns
(both functions are defined outside src): `none` for NULL, and else the table
with its blocks and trees. Lines 24-27: `if (tbl == NULL) throw
TableNotExistException();`. -/
def RecordManager.Insert (atof : List Byte → Nat) (fuel : Nat) (st : SQLInsert)
    (tbl : Option DB) : StatementOutcome :=
  match tbl with
  | none => StatementOutcome.noTable Exception.TableNotExist
  | some s => StatementOutcome.onTable (MiniDB.Insert atof fuel st s)

/-! ### Select -/

/-- The search of `Select` for an index on an attribute that an equality
predicate names: the last pair `(index_idx, where_idx)` that matches. -/
def Select.findIndex (ids : List Index) (wheres : List SQLWhere) : Option (Nat × Nat) :=
  (List.range ids.length).foldl (fun acc i =>
    (List.range wheres.length).foldl (fun acc j =>
      match ids[i]?, wheres[j]? with
      | some idx, some w =>
        if idx.attr_name = w.key ∧ w.sign_type = SIGN_EQ then some (i, j) else acc
      | _, _ => acc) acc) none

/-- The inner loop of the full scan of `Select` over the slots `js` of one
block: the records that satisfy every predicate, in slot order. -/
def Select.records (atof : List Byte → Nat) (s : DB) (wheres : List SQLWhere)
    (block_num : Int) : List Nat → Option (List (List TKey))
  | [] => some []
  | j :: js =>
    match GetRecord s block_num (j : Int) with
    | none => none
    | some tkey_value =>
      match satsAll atof s.tbl tkey_value wheres with
      | none => none
      | some sats =>
        match Select.records atof s wheres block_num js with
        | none => none
        | some rest => some (if sats then tkey_value :: rest else rest)

/-- The loop `for (i = 0; i < block_count; ++i)` of the full scan. -/
def Select.scan (atof : List Byte → Nat) (s : DB) (wheres : List SQLWhere) :
    Nat → Int → Outcome (List (List TKey))
  | 0, _ => Outcome.done []
  | n + 1, block_num =>
    match GetBlockInfo s block_num with
    | none => Outcome.undefined
    | some bp =>
      match Select.records atof s wheres block_num (List.range bp.count.toNat) with
      | none => Outcome.undefined
      | some rows =>
        match Select.scan atof s wheres n bp.next with
        | Outcome.done rest => Outcome.done (rows ++ rest)
        | o => o

/-- The decoding `(v >> 16) & 0xffff` of a locator. -/
def locatorBlock (v : Int) : Int := Int.land (Int.shiftRight v 16) 65535

/-- The decoding `v & 0xffff` of a locator. -/
def locatorOffset (v : Int) : Int := Int.land v 65535

/-- The function `RecordManager::Select`: the rows it prints. -/
def Select (atof : List Byte → Nat) (st : SQLSelect) (s : DB) : Outcome (List (List TKey)) :=
  match Select.findIndex s.tbl.ids st.wheres with
  | none => Select.scan atof s st.wheres s.tbl.block_count.toNat s.tbl.first_block_num
  | some (index_idx, where_idx) =>
    match s.tbl.ids[index_idx]?, st.wheres[where_idx]? with
    | some idx, some w =>
      let dest_key := (TKey.new idx.key_type idx.key_len).ReadValue atof w.value
      let v := (s.trees index_idx).GetVal dest_key
      if v ≠ -1 then
        match GetRecord s (locatorBlock v) (locatorOffset v) with
        | none => Outcome.undefined
        | some tkey_value =>
          match satsAll atof s.tbl tkey_value st.wheres with
          | none => Outcome.undefined
          | some sats => Outcome.done (if sats then [tkey_value] else [])
      else Outcome.done []
    | _, _ => Outcome.undefined

/-! ### Delete -/

/-- The search of `Delete` for an index: `index_idx` is set by every predicate
on an indexed attribute, `has_index` and `where_idx` only by an equality. The
result is `(index_idx, where_idx)`, `where_idx` being set exactly when
`has_index` is. -/
def Delete.findIndex (ids : List Index) (wheres : List SQLWhere) :
    Option Nat × Option Nat :=
  (List.range ids.length).foldl (fun acc i =>
    (List.range wheres.length).foldl (fun acc j =>
      match ids[i]?, wheres[j]? with
      | some idx, some w =>
        if idx.attr_name = w.key then
          (some i, if w.sign_type = SIGN_EQ then some j else acc.2)
        else acc
      | _, _ => acc) acc) (none, none)

/-- The removal of the key of a deleted record from the index `index_idx`. -/
def Delete.removeKey (s : DB) (index_idx : Option Nat) (tkey_value : List TKey) : Option DB :=
  match index_idx with
  | none => none
  | some ix =>
    match s.tbl.ids[ix]? with
    | none => none
    | some index =>
      let idx := lastIdx (fun a => a.attr_name == index.attr_name) s.tbl.ats 0 (-1)
      match at? tkey_value idx with
      | none => none
      | some k => some (s.setTree ix (fun t => t.Remove k))

/-- The inner loop of the full scan of `Delete` over the slots `js` fixed by
the record count read before the loop. -/
def Delete.records (atof : List Byte → Nat) (wheres : List SQLWhere)
    (index_idx : Option Nat) (block_num : Int) : List Nat → DB → Outcome DB
  | [], s => Outcome.done s
  | j :: js, s =>
    match GetRecord s block_num (j : Int) with
    | none => Outcome.undefined
    | some tkey_value =>
      match satsAll atof s.tbl tkey_value wheres with
      | none => Outcome.undefined
      | some false => Delete.records atof wheres index_idx block_num js s
      | some true =>
        match DeleteRecord s block_num (j : Int) with
        | none => Outcome.undefined
        | some s1 =>
          if s1.tbl.ids.length ≠ 0 then
            match Delete.removeKey s1 index_idx tkey_value with
            | none => Outcome.undefined
            | some s2 => Delete.records atof wheres index_idx block_num js s2
          else Delete.records atof wheres index_idx block_num js s1

/-- The loop `for (i = 0; i < block_count; ++i)` of the full scan of `Delete`;
the walk goes on from the `next` field the block has after its records were
handled. -/
def Delete.scan (atof : List Byte → Nat) (wheres : List SQLWhere) (index_idx : Option Nat) :
    Nat → Int → DB → Outcome DB
  | 0, _, s => Outcome.done s
  | n + 1, block_num, s =>
    match GetBlockInfo s block_num with
    | none => Outcome.undefined
    | some bp =>
      match Delete.records atof wheres index_idx block_num (List.range bp.count.toNat) s with
      | Outcome.done s1 => Delete.scan atof wheres index_idx n (s1.blocks block_num).next s1
      | o => o

/-- The function `RecordManager::Delete`. -/
def Delete (atof : List Byte → Nat) (st : SQLDelete) (s : DB) : Outcome DB :=
  match Delete.findIndex s.tbl.ids st.wheres with
  | (index_idx, none) =>
    Delete.scan atof st.wheres index_idx s.tbl.block_count.toNat s.tbl.first_block_num s
  | (none, some _) => Outcome.undefined
  | (some index_idx, some where_idx) =>
    match s.tbl.ids[index_idx]?, st.wheres[where_idx]? with
    | some idx, some w =>
      let dest_key := (TKey.new idx.key_type idx.key_len).ReadValue atof w.value
      let v := (s.trees index_idx).GetVal dest_key
      if v ≠ -1 then
        match GetRecord s (locatorBlock v) (locatorOffset v) with
        | none => Outcome.undefined
        | some tkey_value =>
          match satsAll atof s.tbl tkey_value st.wheres with
          | none => Outcome.undefined
          | some false => Outcome.done s
          | some true =>
            match DeleteRecord s (locatorBlock v) (locatorOffset v) with
            | none => Outcome.undefined
            | some s1 => Outcome.done (s1.setTree index_idx (fun t => t.Remove dest_key))
      else Outcome.done s
    | _, _ => Outcome.undefined

/-! ### Update -/

/-- The second loop of `Update`: for assignment `i` on, the attribute positions
`indices`, the new keys `values` and `affect_index`. -/
def Update.assignments (atof : List Byte → Nat) (tbl : Table) (pk_index : Int) :
    List SQLKeyValue → Int → Int → Option (List Int × List TKey × Int)
  | [], _, affect => some ([], [], affect)
  | kv :: kvs, i, affect =>
    let index := tbl.GetAttributeIndex kv.key
    match at? tbl.ats index with
    | none => none
    | some a =>
      let value := (TKey.new a.data_type a.length).ReadValue atof kv.value
      match Update.assignments atof tbl pk_index kvs (i + 1)
          (if index = pk_index then i else affect) with
      | none => none
      | some (indices, values, aff) => some (index :: indices, value :: values, aff)

/-- The index maintenance of `Update` around `UpdateRecord`, on the tree of the
first index. -/
def Update.indexKey (s : DB) (tkey_value : List TKey) : Option TKey :=
  match s.tbl.ids[0]? with
  | none => none
  | some index =>
    at? tkey_value (lastIdx (fun a => a.attr_name == index.attr_name) s.tbl.ats 0 (-1))

/-- The inner loop of `Update` over the slots `js` of one block. -/
def Update.records (atof : List Byte → Nat) (wheres : List SQLWhere) (indices : List Int)
    (values : List TKey) (block_num : Int) : List Nat → DB → Outcome DB
  | [], s => Outcome.done s
  | j :: js, s =>
    match GetRecord s block_num (j : Int) with
    | none => Outcome.undefined
    | some tkey_value =>
      match satsAll atof s.tbl tkey_value wheres with
      | none => Outcome.undefined
      | some false => Update.records atof wheres indices values block_num js s
      | some true =>
        if s.tbl.ids.length ≠ 0 then
          match Update.indexKey s tkey_value with
          | none => Outcome.undefined
          | some old =>
            let s1 := s.setTree 0 (fun t => t.Remove old)
            match UpdateRecord s1 block_num (j : Int) indices values with
            | none => Outcome.undefined
            | some s2 =>
              match GetRecord s2 block_num (j : Int) with
              | none => Outcome.undefined
              | some tkey_value2 =>
                match Update.indexKey s2 tkey_value2 with
                | none => Outcome.undefined
                | some new =>
                  Update.records atof wheres indices values block_num js
                    (s2.setTree 0 (fun t => t.Add new block_num (j : Int)))
        else
          match UpdateRecord s block_num (j : Int) indices values with
          | none => Outcome.undefined
          | some s2 => Update.records atof wheres indices values block_num js s2

/-- The loop `for (i = 0; i < block_count; ++i)` of `Update`. -/
def Update.scan (atof : List Byte → Nat) (wheres : List SQLWhere) (indices : List Int)
    (values : List TKey) : Nat → Int → DB → Outcome DB
  | 0, _, s => Outcome.done s
  | n + 1, block_num, s =>
    match GetBlockInfo s block_num with
    | none => Outcome.undefined
    | some bp =>
      match Update.records atof wheres indices values block_num
          (List.range bp.count.toNat) s with
      | Outcome.done s1 => Update.scan atof wheres indices values n (s1.blocks block_num).next s1
      | o => o

/-- The function `RecordManager::Update`. -/
def Update (atof : List Byte → Nat) (st : SQLUpdate) (s : DB) : Outcome DB :=
  let pk_index := lastIdx (fun a => decide (a.attr_type = 1)) s.tbl.ats 0 (-1)
  match Update.assignments atof s.tbl pk_index st.keyvalues 0 (-1) with
  | none => Outcome.undefined
  | some (indices, values, affect_index) =>
    let check :=
      if affect_index ≠ -1 then pkCheck s pk_index (at? values affect_index)
      else Outcome.done ()
    match check with
    | Outcome.thrown e s1 => Outcome.thrown e s1
    | Outcome.undefined => Outcome.undefined
    | Outcome.timeout => Outcome.timeout
    | Outcome.done _ =>
      Update.scan atof st.wheres indices values s.tbl.block_count.toNat
        s.tbl.first_block_num s

/-! ## Vocabulary of the specification -/

/-- The constant `max_count` of `Insert`: `(4096 - 12) / record_length`. -/
def Table.max_count (tbl : Table) : Int := Int.tdiv (4096 - 12) tbl.record_length

/-- The blocks met by following `next` pointers from `b`, at most `n` of them,
up to the terminator -1. -/
def walk (s : DB) : Nat → Int → List Int
  | 0, _ => []
  | n + 1, b => if b = -1 then [] else b :: walk s n (s.blocks b).next

/-- The record stored in slot `j` of block `b`, read as `GetRecord` reads it. -/
def slotKeys (s : DB) (b : Int) (j : Int) : List TKey :=
  GetRecord.keys (s.blocks b).content s.tbl.ats (j * s.tbl.record_length)

/-- The empty table: no block allocated, both lists empty. -/
def DB.isEmptyTable (s : DB) : Prop :=
  s.tbl.first_block_num = -1 ∧ s.tbl.first_rubbish_num = -1 ∧ s.tbl.block_count = 0

instance (s : DB) : Decidable s.isEmptyTable := by
  unfold DB.isEmptyTable; infer_instance

/-- The states reached from `s0` by statements `Insert` that return. -/
inductive InsertReachable (atof : List Byte → Nat) (s0 : DB) : DB → Prop where
  | init : InsertReachable atof s0 s0
  | step {s s1 : DB} (fuel : Nat) (st : SQLInsert) :
      InsertReachable atof s0 s → Insert atof fuel st s = Outcome.done s1 →
      InsertReachable atof s0 s1

/-- The state `s` is reached from `s0` by exactly `n` statements `Insert` that
return, and no other statement. -/
inductive InsertsN (atof : List Byte → Nat) (s0 : DB) : Nat → DB → Prop where
  | zero : InsertsN atof s0 0 s0
  | succ {n : Nat} {s s1 : DB} (fuel : Nat) (st : SQLInsert) :
      InsertsN atof s0 n s → Insert atof fuel st s = Outcome.done s1 →
      InsertsN atof s0 (n + 1) s1

/-- The states reached from `s0` by statements `Insert` that return and write
their record into a block other than `b`. -/
inductive InsertsAvoiding (atof : List Byte → Nat) (b : Int) (s0 : DB) : DB → Prop where
  | init : InsertsAvoiding atof b s0 s0
  | step {s s1 : DB} {blocknum offset : Int} (fuel : Nat) (st : SQLInsert) :
      InsertsAvoiding atof b s0 s →
      Insert.run atof fuel st s = Outcome.done (s1, blocknum, offset) →
      blocknum ≠ b → InsertsAvoiding atof b s0 s1

/-- The number of bytes the keys of a record take. -/
def keysLength (ks : List TKey) : Nat := (ks.map (fun k => k.length)).sum

/-- The number of bytes the attributes of a table take. -/
def attrsLength (ats : List Attribute) : Nat := (ats.map (fun a => a.length)).sum

/-- A key and an attribute fit: same type, and the key holds exactly the bytes
of the attribute. -/
def keyFits (k : TKey) (a : Attribute) : Prop :=
  k.key_type = a.data_type ∧ k.length = a.length ∧ k.key.length = a.length

/-- The shape of a table that has only seen statements `Insert`: no index, an
empty free list, and the blocks `0 .. block_count - 1` linked as the live list
`block_count - 1, ..., 1, 0`, each holding at least one record. -/
def InsertShape (s : DB) : Prop :=
  s.tbl.ids = [] ∧ s.tbl.first_rubbish_num = -1 ∧ 0 ≤ s.tbl.block_count ∧
  s.tbl.first_block_num = s.tbl.block_count - 1 ∧
  ∀ i : Int, 0 ≤ i → i < s.tbl.block_count →
    (s.blocks i).next = i - 1 ∧ 1 ≤ (s.blocks i).count

/-- In a table of that shape after `n` inserts, every block but the head is
full, the head holds between 1 and `max_count` records, and the records add up
to `n`. -/
def InsertFill (s : DB) (n : Nat) : Prop :=
  (∀ i : Int, 0 ≤ i → i < s.tbl.block_count - 1 → (s.blocks i).count = s.tbl.max_count) ∧
  (0 < s.tbl.block_count → (s.blocks (s.tbl.block_count - 1)).count ≤ s.tbl.max_count) ∧
  (n : Int) = if s.tbl.block_count = 0 then 0
    else (s.tbl.block_count - 1) * s.tbl.max_count + (s.blocks (s.tbl.block_count - 1)).count

/-- The state a statement left, or `d` when it did not return. -/
def Outcome.stateD (o : Outcome DB) (d : DB) : DB :=
  match o with
  | Outcome.done s => s
  | _ => d

/-- A stand-in for the float conversion of libc in the concrete examples, none
of which converts a float. -/
def atof0 : List Byte → Nat := fun _ => 0

/-- A string whose terminator is followed by zero bytes. -/
def cstr (chars : List Byte) : CStr := { chars := chars, beyond := fun _ => 0 }

/-- A block full of zero bytes. -/
def blankBlock : BlockInfo := { prev := 0, next := 0, count := 0, content := fun _ => 0 }

/-- The schema `t (id int primary key, name char(8))` of scenario 1. -/
def atsIdName : List Attribute :=
  [{ attr_name := "id", data_type := 0, length := 4, attr_type := 1 },
   { attr_name := "name", data_type := 2, length := 8, attr_type := 0 }]

/-- The empty table `t (id int primary key, name char(8))`, 12 bytes a record,
340 records a block. -/
def emptyIdName : DB :=
  { tbl := { record_length := 12, first_block_num := -1, first_rubbish_num := -1,
             block_count := 0, ats := atsIdName, ids := [] }
    blocks := fun _ => blankBlock
    trees := fun _ => { entries := [] } }

/-- The statement `INSERT INTO t VALUES (id, name)`. -/
def insertIdName (id name : List Byte) : SQLInsert :=
  { values := [{ data_type := 0, value := cstr id }, { data_type := 2, value := cstr name }] }

/-- The bytes of "alice". -/
def alice : List Byte := [97, 108, 105, 99, 101]

/-- The bytes of "bob". -/
def bob : List Byte := [98, 111, 98]

/-- The bytes of "carol". -/
def carol : List Byte := [99, 97, 114, 111, 108]

/-- The table of scenario 1 after `INSERT INTO t VALUES (1, "alice")`. -/
def tAlice : DB := (Insert atof0 1 (insertIdName [49] alice) emptyIdName).stateD emptyIdName

/-- Then `INSERT INTO t VALUES (2, "bob")`. -/
def tAliceBob : DB := (Insert atof0 2 (insertIdName [50] bob) tAlice).stateD emptyIdName

/-- Then `INSERT INTO t VALUES (3, "carol")`. -/
def tAliceBobCarol : DB :=
  (Insert atof0 2 (insertIdName [51] carol) tAliceBob).stateD emptyIdName

/-- The schema `u (id int, pad char(2038))`, without a primary key: 2042 bytes
a record, two records a block. -/
def atsIdPad : List Attribute :=
  [{ attr_name := "id", data_type := 0, length := 4, attr_type := 0 },
   { attr_name := "pad", data_type := 2, length := 2038, attr_type := 0 }]

/-- The empty table `u (id int, pad char(2038))`. -/
def emptyIdPad : DB :=
  { tbl := { record_length := 2042, first_block_num := -1, first_rubbish_num := -1,
             block_count := 0, ats := atsIdPad, ids := [] }
    blocks := fun _ => blankBlock
    trees := fun _ => { entries := [] } }

/-- The statement `INSERT INTO u VALUES (id, "")`. -/
def insertIdPad (id : List Byte) : SQLInsert :=
  { values := [{ data_type := 0, value := cstr id }, { data_type := 2, value := cstr [] }] }

/-- The table `u` after the rows 1, 2, 3: block 0 holds rows 1 and 2, block 1,
the head of the live list, holds row 3. -/
def uThree : DB :=
  ((Insert atof0 3 (insertIdPad [51])
    ((Insert atof0 3 (insertIdPad [50])
      ((Insert atof0 3 (insertIdPad [49]) emptyIdPad).stateD emptyIdPad)).stateD
        emptyIdPad)).stateD emptyIdPad)

/-- The state a call of `DeleteRecord` left, or `d` when it is undefined. -/
def stateOr (o : Option DB) (d : DB) : DB :=
  match o with
  | some s => s
  | none => d

/-- The table `u` after row 1 was removed from block 0. -/
def uThreeLessOne : DB := stateOr (DeleteRecord uThree 0 0) emptyIdPad

/-- The table `u` after row 2, the last record of block 0, was removed too:
block 0 is on the free list. -/
def uThreeLessTwo : DB := stateOr (DeleteRecord uThreeLessOne 0 0) emptyIdPad

/-- The state, block number and offset that `Insert.run` returned, or `d`. -/
def runD (o : Outcome (DB × Int × Int)) (d : DB) : DB × Int × Int :=
  match o with
  | Outcome.done r => r
  | _ => (d, -1, -1)

/-- The table `u` after row 4 was inserted while block 0 is on the free list. -/
def uFour : DB := (runD (Insert.run atof0 3 (insertIdPad [52]) uThreeLessTwo) emptyIdPad).1

/-- The statement `DELETE FROM t WHERE id = 1`. -/
def deleteIdOne : SQLDelete :=
  { wheres := [{ key := "id", sign_type := SIGN_EQ, value := cstr [49] }] }

/-- The table of scenario 1 after `INSERT INTO t VALUES (1, "alice")` and
`DELETE FROM t WHERE id = 1`. -/
def tAliceDeleted : DB := (Delete atof0 deleteIdOne tAlice).stateD emptyIdName

/-- The statement `UPDATE t SET id = 7 WHERE id > 0`. -/
def updateIdSeven : SQLUpdate :=
  { wheres := [{ key := "id", sign_type := SIGN_GT, value := cstr [48] }]
    keyvalues := [{ key := "id", value := cstr [55] }] }

/-- The table with the rows (1, "alice"), (2, "bob") after
`UPDATE t SET id = 7 WHERE id > 0`. -/
def tUpdated : DB := (Update atof0 updateIdSeven tAliceBob).stateD emptyIdName

/-- The statement `DELETE FROM t WHERE id <> 2`. -/
def deleteIdNotTwo : SQLDelete :=
  { wheres := [{ key := "id", sign_type := SIGN_NE, value := cstr [50] }] }

/-- The table with the rows 1, 2, 3 after `DELETE FROM t WHERE id <> 2`. -/
def tDeletedNotTwo : DB := (Delete atof0 deleteIdNotTwo tAliceBobCarol).stateD emptyIdName

/-- The statement `DELETE FROM u WHERE id < 3`. -/
def deleteIdBelowThree : SQLDelete :=
  { wheres := [{ key := "id", sign_type := SIGN_LT, value := cstr [51] }] }

/-- The table `u` with the rows 1, 2, 3 after `DELETE FROM u WHERE id < 3`:
block 1 is the live list, block 0 the free list. -/
def uDeletedBelowThree : DB := (Delete atof0 deleteIdBelowThree uThree).stateD emptyIdPad

/-- The schema `w (id int primary key, pad char(2038))`: two records a block. -/
def atsPkPad : List Attribute :=
  [{ attr_name := "id", data_type := 0, length := 4, attr_type := 1 },
   { attr_name := "pad", data_type := 2, length := 2038, attr_type := 0 }]

/-- The empty table `w (id int primary key, pad char(2038))`. -/
def emptyPkPad : DB :=
  { tbl := { record_length := 2042, first_block_num := -1, first_rubbish_num := -1,
             block_count := 0, ats := atsPkPad, ids := [] }
    blocks := fun _ => blankBlock
    trees := fun _ => { entries := [] } }

/-- The table `w` after the rows 1 and 2 were inserted: block 0 is full. -/
def wTwo : DB :=
  (Insert atof0 3 (insertIdPad [50])
    ((Insert atof0 3 (insertIdPad [49]) emptyPkPad).stateD emptyPkPad)).stateD emptyPkPad

/-- The table `w` after the rows 1, 2, 3 were inserted: row 3 is alone in
block 1, the head of the live list, and block 0 follows. -/
def wThree : DB := (Insert atof0 3 (insertIdPad [51]) wTwo).stateD emptyPkPad

/-- The statement `DELETE FROM w WHERE id = 3`. -/
def deleteIdThree : SQLDelete :=
  { wheres := [{ key := "id", sign_type := SIGN_EQ, value := cstr [51] }] }

/-! ## Vocabulary for the comparison of keys -/

/-- The C string a buffer holds: its bytes before the first zero byte. -/
def cString (l : List Byte) : List Byte := l.takeWhile (fun c => decide (c ≠ 0))

/-- Bytewise lexicographic order of two byte sequences: a proper prefix comes
first. -/
def lexLt : List Byte → List Byte → Bool
  | [], [] => false
  | [], _ :: _ => true
  | _ :: _, [] => false
  | x :: xs, y :: ys => decide (x < y) || (decide (x = y) && lexLt xs ys)

/-- The key of type `int` that holds `x`. -/
def intKey (x : Int) : TKey := { key_type := 0, length := 4, key := int32Bytes x }

/-- The string "a" converted to a key of type `char(3)` when the byte after
its terminator is 1. -/
def charKeyA : TKey :=
  (TKey.new 2 3).ReadValue (fun _ => 0) { chars := [97], beyond := fun _ => 1 }

/-- The string "a" converted to a key of type `char(3)` when the byte after
its terminator is 2. -/
def charKeyB : TKey :=
  (TKey.new 2 3).ReadValue (fun _ => 0) { chars := [97], beyond := fun _ => 2 }

/-- The record (1, "alice") as `GetRecord` returns it from the table `t`. -/
def rowAlice : List TKey :=
  [{ key_type := 0, length := 4, key := [1, 0, 0, 0] },
   { key_type := 2, length := 8, key := [97, 108, 105, 99, 101, 0, 0, 0] }]

/-- The predicate `id <= 1`. -/
def whereIdLeOne : SQLWhere := { key := "id", sign_type := SIGN_LE, value := cstr [49] }

/-- The statement `UPDATE t SET id = 2 WHERE id = 1`. -/
def updateIdTwo : SQLUpdate :=
  { wheres := [{ key := "id", sign_type := SIGN_EQ, value := cstr [49] }]
    keyvalues := [{ key := "id", value := cstr [50] }] }

/-- The int key of the value "97": the bytes 97, 0, 0, 0. -/
def intKey97 : TKey :=
  (TKey.new 0 4).ReadValue (fun _ => 0) { chars := [57, 55], beyond := fun _ => 0 }

/-- The char(4) key of the string "a" read from memory that holds bytes 1 after
the terminator: the bytes 97, 0, 1, 1. -/
def charKeyA4 : TKey :=
  (TKey.new 2 4).ReadValue (fun _ => 0) { chars := [97], beyond := fun _ => 1 }


/-! ## Linked lists of blocks -/

/-- The blocks linked by `next` pointers from `b` up to the terminator -1 are
exactly the blocks of `l`, in that order. -/
def chainFrom (s : DB) : Int → List Int → Prop
  | b, [] => b = -1
  | b, x :: l => b ≠ -1 ∧ x = b ∧ chainFrom s (s.blocks b).next l

/-- The table `u` with the rows 1, 2, 3, 4: both blocks are full. -/
def uFull : DB := (Insert atof0 3 (insertIdPad [52]) uThree).stateD emptyIdPad

/-- The table `u` after a fifth row went to the new block 2. -/
def uFive : DB := (Insert atof0 3 (insertIdPad [53]) uFull).stateD emptyIdPad

/-- The table `u` with the rows 1, 2, 3, 4 after `DELETE FROM u WHERE id < 3`:
block 1, full, is the live list and block 0 the free list. -/
def uFullDeleted : DB := (Delete atof0 deleteIdBelowThree uFull).stateD emptyIdPad

/-- Then `INSERT INTO u VALUES (5, "")`. -/
def uRefilled : DB := (Insert atof0 3 (insertIdPad [53]) uFullDeleted).stateD emptyIdPad

/-- The statement `INSERT INTO t VALUES (1)`: one value for two attributes. -/
def insertShort : SQLInsert := { values := [{ data_type := 0, value := cstr [49] }] }

/-- The table of scenario 1 after `INSERT INTO t VALUES (1)`. -/
def tShort : DB := (Insert atof0 1 insertShort emptyIdName).stateD emptyIdName

/-- The statement `INSERT INTO t VALUES ("alice", 1)`: a char value for the int
attribute `id` and an int value for the char attribute `name`. -/
def insertMistyped : SQLInsert :=
  { values := [{ data_type := 2, value := cstr alice }, { data_type := 0, value := cstr [49] }] }

/-- The table of scenario 1 after `INSERT INTO t VALUES ("alice", 1)`. -/
def tMistyped : DB := (Insert atof0 1 insertMistyped emptyIdName).stateD emptyIdName

/-- The table `u` with the rows 1, 2, 3 after `DeleteRecord(1, 0)` removed row
3, the only record of the head block 1. -/
def uThreeLessThree : DB := stateOr (DeleteRecord uThree 1 0) emptyIdPad

/-- The table `u` after `INSERT INTO u VALUES (1, "")`. -/
def vOne : DB := (Insert atof0 3 (insertIdPad [49]) emptyIdPad).stateD emptyIdPad

/-- Then `DELETE FROM u WHERE id = 1`: block 0 is empty. -/
def vEmptied : DB := (Delete atof0 deleteIdOne vOne).stateD emptyIdPad

/-- Then `INSERT INTO u VALUES (2, "")`. -/
def vTwo : DB := (Insert atof0 3 (insertIdPad [50]) vEmptied).stateD emptyIdPad

/-- Then `INSERT INTO u VALUES (3, "")`: block 0 is full. -/
def vTwoThree : DB := (Insert atof0 3 (insertIdPad [51]) vTwo).stateD emptyIdPad

/-- Then `INSERT INTO u VALUES (4, "")`. -/
def vFour : DB := (Insert atof0 3 (insertIdPad [52]) vTwoThree).stateD emptyIdPad

/-- The statement `DELETE FROM u WHERE id = 4`. -/
def deleteIdFour : SQLDelete :=
  { wheres := [{ key := "id", sign_type := SIGN_EQ, value := cstr [52] }] }

/-- Then `DELETE FROM u WHERE id = 4`. -/
def vCyclic : DB := (Delete atof0 deleteIdFour vFour).stateD emptyIdPad

/-- Then `INSERT INTO u VALUES (5, "")`. -/
def vFive : DB := (Insert atof0 3 (insertIdPad [53]) vCyclic).stateD emptyIdPad

/-- Then `INSERT INTO u VALUES (6, "")`: block 0 is full again. -/
def vFiveSix : DB := (Insert atof0 3 (insertIdPad [54]) vFive).stateD emptyIdPad

/-- The schema `x (id int, name char(8))`, without a primary key. -/
def atsPlain : List Attribute :=
  [{ attr_name := "id", data_type := 0, length := 4, attr_type := 0 },
   { attr_name := "name", data_type := 2, length := 8, attr_type := 0 }]

/-- The index `idx_name` on the attribute `name` of `x`, as the constructor
`Index(name, attr_name, keytype, keylen, rank)` makes it. -/
def idxName : Index :=
  { max_count := 0, key_len := 8, key_type := 2, rank := 4, rubbish := -1, root := -1,
    leaf_head := -1, key_count := 0, level := -1, node_count := 0, attr_name := "name",
    name := "idx_name" }

/-- The empty table `x` with the index `idx_name`. -/
def xEmpty : DB :=
  { tbl := { record_length := 12, first_block_num := -1, first_rubbish_num := -1,
             block_count := 0, ats := atsPlain, ids := [idxName] }
    blocks := fun _ => blankBlock
    trees := fun _ => { entries := [] } }

/-- The key of the char(8) value "alice". -/
def keyAlice : TKey := { key_type := 2, length := 8, key := [97, 108, 105, 99, 101, 0, 0, 0] }

/-- The key of the char(8) value "bob". -/
def keyBob : TKey := { key_type := 2, length := 8, key := [98, 111, 98, 0, 0, 0, 0, 0] }

/-- The table `x` holding the row (1, "alice") in slot 0 of block 0, with the
index `idx_name` holding the entry of that row. -/
def xAlice : DB :=
  { tbl := { record_length := 12, first_block_num := 0, first_rubbish_num := -1,
             block_count := 1, ats := atsPlain, ids := [idxName] }
    blocks := fun m =>
      if m = 0 then
        { prev := -1, next := -1, count := 1,
          content := writeKeys (fun _ => 0)
            [{ key_type := 0, length := 4, key := [1, 0, 0, 0] }, keyAlice] 0 }
      else blankBlock
    trees := fun _ => { entries := [(keyAlice, locator 0 0)] } }

/-- The table `x` after `INSERT INTO x VALUES (2, "bob")`. -/
def xAliceBob : DB := (Insert atof0 2 (insertIdName [50] bob) xAlice).stateD xEmpty

/-- The object `BlockInfo` as `BlockHandle` sees it: the fields `block_num_`,
`dirty_`, `age_` and `next_` (a pointer, `none` for NULL). Its buffer `data_`
is the record `BlockInfo` above. -/
structure Frame where
  block_num : Int
  dirty : Bool
  age : Int
  next : Option Nat
  deriving DecidableEq

/-- The constructor `BlockInfo(int num)`. -/
def Frame.new (num : Int) : Frame := { block_num := num, dirty := false, age := 0, next := none }

/-- The class `BlockHandle` with the memory its pointers point into: `heap`
maps an address to the object `BlockInfo` stored there, and `brk` is the
address the next `new BlockInfo` returns, different from every address returned
before. -/
structure BlockHandle where
  first_block : Option Nat
  bsize : Int
  bcount : Int
  path : String
  heap : Nat → Frame
  brk : Nat

def BlockHandle.setFrame (h : BlockHandle) (p : Nat) (f : Frame → Frame) : BlockHandle :=
  { h with heap := fun q => if q = p then f (h.heap p) else h.heap q }

/-- The loop of `BlockHandle::Add` with `current` at a frame; `fuel` bounds its
iterations, `none` when they do not suffice. -/
def BlockHandle.Add.loop : Nat → BlockHandle → Nat → Option (BlockHandle × Nat)
  | 0, h, current => if h.bcount < h.bsize then none else some (h, current)
  | fuel + 1, h, current =>
    if h.bcount < h.bsize then
      let adder := h.brk
      let h1 : BlockHandle := { h with heap := fun q => if q = adder then Frame.new 0 else h.heap q,
                                       brk := h.brk + 1 }
      let h2 := h1.setFrame adder (fun b => { b with next := (h1.heap current).next })
      let h3 := h2.setFrame current (fun b => { b with next := some adder })
      BlockHandle.Add.loop fuel { h3 with bcount := h3.bcount + 1 } adder
    else some (h, current)

/-- The function `BlockHandle::Add`: the handle afterwards and the pointer
returned; `none` when `current->next()` dereferences NULL. -/
def BlockHandle.Add (h : BlockHandle) (block : Option Nat) :
    Option (BlockHandle × Option Nat) :=
  match block with
  | none => if h.bcount < h.bsize then none else some (h, none)
  | some current =>
    match BlockHandle.Add.loop (h.bsize - h.bcount).toNat h current with
    | none => none
    | some (h1, last) => some (h1, some last)

/-- The constructor `BlockHandle(std::string p)` in a memory with nothing
allocated. -/
def BlockHandle.new (p : String) : Option BlockHandle :=
  let h : BlockHandle :=
    { first_block := some 0, bsize := 300, bcount := 0, path := p,
      heap := fun _ => Frame.new 0, brk := 1 }
  match h.Add h.first_block with
  | none => none
  | some (h1, _) => some h1

/-- The function `BlockHandle::GetUsableBlock`: the pointer returned and the
handle afterwards; `none` when it dereferences NULL. -/
def BlockHandle.GetUsableBlock (h : BlockHandle) : Option (Option Nat × BlockHandle) :=
  if h.bcount = 0 then some (none, h)
  else
    match h.first_block with
    | none => none
    | some fb =>
      match (h.heap fb).next with
      | none => none
      | some p =>
        let h1 := h.setFrame fb (fun b => { b with next := (h.heap p).next })
        let h2 : BlockHandle := { h1 with bcount := h1.bcount - 1 }
        let h3 := h2.setFrame p (fun b => { b with age := 0 })
        some (some p, h3.setFrame p (fun b => { b with next := none }))

/-- The function `BlockHandle::FreeBlock`; `none` when it dereferences NULL. -/
def BlockHandle.FreeBlock (h : BlockHandle) (block : Option Nat) : Option BlockHandle :=
  match block with
  | none => none
  | some b =>
    if h.bcount = 0 then
      let h1 : BlockHandle := { h with first_block := some b }
      let h2 := h1.setFrame b (fun x => { x with next := some b })
      some { h2 with bcount := h2.bcount + 1 }
    else
      match h.first_block with
      | none => none
      | some fb =>
        let h1 := h.setFrame b (fun x => { x with next := (h.heap fb).next })
        let h2 := h1.setFrame fb (fun x => { x with next := some b })
        some { h2 with bcount := h2.bcount + 1 }

/-- The pointers that `n` successive calls of `GetUsableBlock` return, first
call first, and the handle after them. -/
def BlockHandle.GetUsableBlocks : Nat → BlockHandle → Option (List (Option Nat) × BlockHandle)
  | 0, h => some ([], h)
  | n + 1, h =>
    match h.GetUsableBlock with
    | none => none
    | some (p, h1) =>
      match BlockHandle.GetUsableBlocks n h1 with
      | none => none
      | some (ps, h2) => some (p :: ps, h2)

/-- The pool of a handle made with `N` frames, at the addresses 1 to `N`, after
the first `j` of them were taken: `N - j` frames are available, and the frames
`j + 1, ..., N` are linked in that order behind the frame at address 0. -/
def BlockHandle.poolAfter (N : Nat) (h : BlockHandle) (j : Nat) : Prop :=
  h.bcount = (N : Int) - (j : Int) ∧ h.first_block = some 0 ∧
  (h.heap 0).next = (if j < N then some (j + 1) else none) ∧
  (∀ i, j < i → i < N → (h.heap i).next = some (i + 1)) ∧
  (j < N → (h.heap N).next = none)

/-- A handle whose pool is empty: the frame at address 0 is the head, no frame
is linked behind it. -/
def handleEmpty : BlockHandle :=
  { first_block := some 0, bsize := 300, bcount := 0, path := "db",
    heap := fun _ => Frame.new 0, brk := 1 }

/-- A handle with one available frame, at address 1, behind the head at
address 0. -/
def handleOne : BlockHandle :=
  { first_block := some 0, bsize := 300, bcount := 1, path := "db",
    heap := fun q => if q = 0 then { Frame.new 0 with next := some 1 } else Frame.new 0,
    brk := 2 }

/-- The method `BlockInfo::set_dirty(bool dt)`: `dirty_ = true`, whatever the
argument. The accessor `dirty()` is the field `dirty`. -/
def Frame.set_dirty (f : Frame) (_dt : Bool) : Frame := { f with dirty := true }

/-! ## block_info.h: the header of a block, byte by byte -/

/-- The store `*(int *)(data_ + off) = num` into the buffer `data_`, a map from
byte offsets to bytes: the four bytes of the 32-bit `int`, little-endian. -/
def storeInt (data : Nat → Byte) (off : Nat) (num : Int) : Nat → Byte :=
  fun i => if off ≤ i ∧ i < off + 4 then (int32Bytes num).getD (i - off) 0 else data i

/-- The load `*(int *)(data_ + off)`. -/
def loadInt (data : Nat → Byte) (off : Nat) : Int :=
  asInt [data off, data (off + 1), data (off + 2), data (off + 3)]

def BlockInfo.SetPrevBlockNum (data : Nat → Byte) (num : Int) : Nat → Byte :=
  storeInt data 0 num

def BlockInfo.GetPrevBlockNum (data : Nat → Byte) : Int := loadInt data 0

def BlockInfo.SetNextBlockNum (data : Nat → Byte) (num : Int) : Nat → Byte :=
  storeInt data 4 num

def BlockInfo.GetNextBlockNum (data : Nat → Byte) : Int := loadInt data 4

def BlockInfo.SetRecordCount (data : Nat → Byte) (count : Int) : Nat → Byte :=
  storeInt data 8 count

/-- The method `DecreaseRecordCount`: `*(int *)(data_ + 8) = *(int *)(data_ + 8) - 1`. -/
def BlockInfo.DecreaseRecordCount (data : Nat → Byte) : Nat → Byte :=
  storeInt data 8 (loadInt data 8 - 1)

def BlockInfo.GetRecordCount (data : Nat → Byte) : Int := loadInt data 8

/-- The method `GetContentAddress`, as an offset into `data_`. -/
def BlockInfo.GetContentAddress : Nat := 12

/-- A buffer of a block with the header (-1, 5, 3), little-endian, and a
payload of bytes 7. -/
def headerBytes : Nat → Byte :=
  fun i => if i < 4 then 255 else if i = 4 then 5 else if i = 8 then 3
    else if i < 12 then 0 else 7


/-! ## catalog_manager.h: the catalog and its serialization -/

structure Database where
  db_name : String
  tbs : List Table
  deriving DecidableEq

structure CatalogManager where
  path : String
  dbs : List Database
  deriving DecidableEq

/-- A value stored in an archive: an `int` or a `std::string`. -/
inductive Item where
  | int (n : Int)
  | str (s : String)
  deriving DecidableEq

/-- Modelled from the spec: the archive of Boost.Serialization, a library
outside src, whose encoding the specification leaves to the implementation. An
archive is the sequence of the values stored in it; `loading` is true for an
input archive (`binary_iarchive`) and false for an output archive
(`binary_oarchive`). -/
structure Archive where
  loading : Bool
  items : List Item
  deriving DecidableEq

/-- Modelled from the spec: `ar & x` for an `int` member. An output archive
appends the value; an input archive gives the next value, which replaces the
member; `none` when the next value is not an `int` (an archive exception). -/
def Archive.int (ar : Archive) (x : Int) : Option (Int × Archive) :=
  if ar.loading then
    match ar.items with
    | Item.int n :: rest => some (n, { ar with items := rest })
    | _ => none
  else some (x, { ar with items := ar.items ++ [Item.int x] })

/-- Modelled from the spec: `ar & x` for a `std::string` member. -/
def Archive.str (ar : Archive) (x : String) : Option (String × Archive) :=
  if ar.loading then
    match ar.items with
    | Item.str s :: rest => some (s, { ar with items := rest })
    | _ => none
  else some (x, { ar with items := ar.items ++ [Item.str x] })

/-- Modelled from the spec: the items of a vector written to an output
archive, each by the `serialize` of its class. -/
def Archive.saveItems {α : Type} (elem : Archive → α → Option (α × Archive)) :
    List α → Archive → Option (List α × Archive)
  | [], ar => some ([], ar)
  | x :: xs, ar =>
    match elem ar x with
    | none => none
    | some (y, ar1) =>
      match Archive.saveItems elem xs ar1 with
      | none => none
      | some (ys, ar2) => some (y :: ys, ar2)

/-- Modelled from the spec: `n` items of a vector read from an input archive,
each into a default-constructed object `dflt` by the `serialize` of its class. -/
def Archive.loadItems {α : Type} (elem : Archive → α → Option (α × Archive)) (dflt : α) :
    Nat → Archive → Option (List α × Archive)
  | 0, ar => some ([], ar)
  | n + 1, ar =>
    match elem ar dflt with
    | none => none
    | some (y, ar1) =>
      match Archive.loadItems elem dflt n ar1 with
      | none => none
      | some (ys, ar2) => some (y :: ys, ar2)

/-- Modelled from the spec: `ar & v` for a `std::vector` member
(boost/serialization/vector.hpp): the number of items, then the items. -/
def Archive.vector {α : Type} (elem : Archive → α → Option (α × Archive)) (dflt : α)
    (ar : Archive) (xs : List α) : Option (List α × Archive) :=
  match ar.int (xs.length : Int) with
  | none => none
  | some (n, ar1) =>
    if ar.loading then Archive.loadItems elem dflt n.toNat ar1
    else Archive.saveItems elem xs ar1

/-- The default constructor `Attribute()`; the length -1 is 0 here. -/
def Attribute.default : Attribute :=
  { attr_name := "", data_type := -1, length := 0, attr_type := 0 }

/-- The default constructor `Index()`, which initialises no `int` member: they
are 0 here. -/
def Index.default : Index :=
  { max_count := 0, key_len := 0, key_type := 0, rank := 0, rubbish := 0, root := 0,
    leaf_head := 0, key_count := 0, level := 0, node_count := 0, attr_name := "", name := "" }

/-- The default constructor `Table()`. -/
def Table.default : Table :=
  { tb_name := "", record_length := -1, first_block_num := -1, first_rubbish_num := -1,
    block_count := 0, ats := [], ids := [] }

/-- The default constructor `Database()`. -/
def Database.default : Database := { db_name := "", tbs := [] }

/-- The function `Attribute::serialize`. -/
def Attribute.serialize (ar : Archive) (a : Attribute) : Option (Attribute × Archive) :=
  match ar.str a.attr_name with
  | none => none
  | some (attr_name, ar) =>
  match ar.int a.data_type with
  | none => none
  | some (data_type, ar) =>
  match ar.int (a.length : Int) with
  | none => none
  | some (length, ar) =>
  match ar.int a.attr_type with
  | none => none
  | some (attr_type, ar) =>
    some ({ attr_name := attr_name, data_type := data_type, length := length.toNat,
            attr_type := attr_type }, ar)

/-- The function `Index::serialize`. -/
def Index.serialize (ar : Archive) (x : Index) : Option (Index × Archive) :=
  match ar.int x.max_count with
  | none => none
  | some (max_count, ar) =>
  match ar.str x.attr_name with
  | none => none
  | some (attr_name, ar) =>
  match ar.str x.name with
  | none => none
  | some (name, ar) =>
  match ar.int (x.key_len : Int) with
  | none => none
  | some (key_len, ar) =>
  match ar.int x.key_type with
  | none => none
  | some (key_type, ar) =>
  match ar.int x.rank with
  | none => none
  | some (rank, ar) =>
  match ar.int x.rubbish with
  | none => none
  | some (rubbish, ar) =>
  match ar.int x.root with
  | none => none
  | some (root, ar) =>
  match ar.int x.leaf_head with
  | none => none
  | some (leaf_head, ar) =>
  match ar.int x.key_count with
  | none => none
  | some (key_count, ar) =>
  match ar.int x.level with
  | none => none
  | some (level, ar) =>
  match ar.int x.node_count with
  | none => none
  | some (node_count, ar) =>
    some ({ max_count := max_count, key_len := key_len.toNat, key_type := key_type,
            rank := rank, rubbish := rubbish, root := root, leaf_head := leaf_head,
            key_count := key_count, level := level, node_count := node_count,
            attr_name := attr_name, name := name }, ar)

/-- The function `Table::serialize`. -/
def Table.serialize (ar : Archive) (t : Table) : Option (Table × Archive) :=
  match ar.str t.tb_name with
  | none => none
  | some (tb_name, ar) =>
  match ar.int t.record_length with
  | none => none
  | some (record_length, ar) =>
  match ar.int t.first_block_num with
  | none => none
  | some (first_block_num, ar) =>
  match ar.int t.first_rubbish_num with
  | none => none
  | some (first_rubbish_num, ar) =>
  match ar.int t.block_count with
  | none => none
  | some (block_count, ar) =>
  match ar.vector Attribute.serialize Attribute.default t.ats with
  | none => none
  | some (ats, ar) =>
  match ar.vector Index.serialize Index.default t.ids with
  | none => none
  | some (ids, ar) =>
    some ({ tb_name := tb_name, record_length := record_length,
            first_block_num := first_block_num, first_rubbish_num := first_rubbish_num,
            block_count := block_count, ats := ats, ids := ids }, ar)

/-- The function `Database::serialize`. -/
def Database.serialize (ar : Archive) (d : Database) : Option (Database × Archive) :=
  match ar.str d.db_name with
  | none => none
  | some (db_name, ar) =>
  match ar.vector Table.serialize Table.default d.tbs with
  | none => none
  | some (tbs, ar) => some ({ db_name := db_name, tbs := tbs }, ar)

/-- The function `CatalogManager::serialize`: `path_` is not archived. -/
def CatalogManager.serialize (ar : Archive) (cm : CatalogManager) :
    Option (CatalogManager × Archive) :=
  match ar.vector Database.serialize Database.default cm.dbs with
  | none => none
  | some (dbs, ar) => some ({ cm with dbs := dbs }, ar)

/-- The values `l` are what `ser` appends to an output archive for `x`, and
from an input archive that starts with `l` it reads `x` back, into any
object, and consumes exactly `l`. -/
def RoundTrips {α : Type} (ser : Archive → α → Option (α × Archive)) (x : α)
    (l : List Item) : Prop :=
  (∀ pre, ser { loading := false, items := pre } x
      = some (x, { loading := false, items := pre ++ l })) ∧
  (∀ rest x0, ser { loading := true, items := l ++ rest } x0
      = some (x, { loading := true, items := rest }))

/-! ## Basic facts about the state -/

@[simp] theorem setBlock_tbl (s : DB) (n : Int) (f : BlockInfo → BlockInfo) :
    (s.setBlock n f).tbl = s.tbl := rfl

@[simp] theorem setBlock_trees (s : DB) (n : Int) (f : BlockInfo → BlockInfo) :
    (s.setBlock n f).trees = s.trees := rfl

@[simp] theorem setBlock_blocks_same (s : DB) (n : Int) (f : BlockInfo → BlockInfo) :
    (s.setBlock n f).blocks n = f (s.blocks n) := by
  simp [DB.setBlock]

theorem setBlock_blocks_other (s : DB) (n m : Int) (f : BlockInfo → BlockInfo) (h : m ≠ n) :
    (s.setBlock n f).blocks m = s.blocks m := by
  simp [DB.setBlock, h]

theorem setBlock_blocks (s : DB) (n m : Int) (f : BlockInfo → BlockInfo) :
    (s.setBlock n f).blocks m = if m = n then f (s.blocks n) else s.blocks m := rfl

@[simp] theorem setTree_tbl (s : DB) (i : Nat) (f : BPlusTree → BPlusTree) :
    (s.setTree i f).tbl = s.tbl := rfl

@[simp] theorem setTree_blocks (s : DB) (i : Nat) (f : BPlusTree → BPlusTree) :
    (s.setTree i f).blocks = s.blocks := rfl

theorem GetBlockInfo_of_ne {s : DB} {b : Int} (h : b ≠ -1) :
    GetBlockInfo s b = some (s.blocks b) := by
  simp [GetBlockInfo, h]

theorem GetBlockInfo_neg_one (s : DB) : GetBlockInfo s (-1) = none := by
  simp [GetBlockInfo]

theorem GetRecord_of_ne {s : DB} {b : Int} (j : Int) (h : b ≠ -1) :
    GetRecord s b j = some (slotKeys s b j) := by
  simp [GetRecord, GetBlockInfo, h, slotKeys]

/-! ## What a returning Insert went through -/

theorem Insert.updateIndex_done {nameOf : Index → String} {ks : List TKey} {b o : Int}
    {s s1 : DB} (h : Insert.updateIndex nameOf ks b o s = Outcome.done s1) :
    s1.tbl = s.tbl ∧ s1.blocks = s.blocks := by
  unfold Insert.updateIndex at h
  split at h
  · split at h
    · cases h
    · rename_i s2 hadd
      cases h
      have key : ∀ (n i : Nat), Insert.indexAdd nameOf ks b o s n i = some s1 →
          s1.tbl = s.tbl ∧ s1.blocks = s.blocks := by
        intro n
        induction n with
        | zero => intro i h; simp [Insert.indexAdd] at h; subst h; exact ⟨rfl, rfl⟩
        | succ n ih =>
          intro i h
          unfold Insert.indexAdd at h
          split at h
          · split at h
            · split at h
              · cases h
              · cases h; exact ⟨rfl, rfl⟩
            · exact ih _ h
          · cases h
      exact key _ _ hadd
  · cases h; exact ⟨rfl, rfl⟩

theorem Insert.run_done {atof : List Byte → Nat} {fuel : Nat} {st : SQLInsert} {s s1 : DB}
    {blocknum offset : Int}
    (h : Insert.run atof fuel st s = Outcome.done (s1, blocknum, offset)) :
    s.tbl.record_length ≠ 0 ∧
    ∃ ks, Insert.tkey_values atof st.values s.tbl.ats = some ks ∧
      (Insert.pk_index st s.tbl ≠ -1 →
        pkCheck s (Insert.pk_index st s.tbl) (at? ks (Insert.pk_index st s.tbl))
          = Outcome.done ()) ∧
      ∃ s2 first, Insert.place fuel ks s = Outcome.done (s2, blocknum, offset, first) ∧
        s1.tbl = s2.tbl ∧ s1.blocks = s2.blocks := by
  unfold Insert.run at h
  split at h
  · cases h
  · rename_i hR
    split at h
    · cases h
    · rename_i ks hks
      refine ⟨hR, ks, hks, ?_⟩
      simp only at h
      split at h
      · cases h
      · cases h
      · cases h
      · rename_i u hcheck
        split at h
        · cases h
        · cases h
        · cases h
        · rename_i s2 b o first hplace
          split at h
          · rename_i s3 hidx
            cases h
            have := Insert.updateIndex_done hidx
            refine ⟨?_, s2, first, hplace, this.1, this.2⟩
            intro hpk
            rw [if_pos hpk] at hcheck
            cases u
            exact hcheck
          · cases h
          · cases h
          · cases h

theorem Insert_done {atof : List Byte → Nat} {fuel : Nat} {st : SQLInsert} {s s1 : DB}
    (h : Insert atof fuel st s = Outcome.done s1) :
    ∃ blocknum offset, Insert.run atof fuel st s = Outcome.done (s1, blocknum, offset) := by
  unfold Insert at h
  split at h
  · rename_i s2 b o hrun
    cases h
    exact ⟨b, o, hrun⟩
  · cases h
  · cases h
  · cases h

/-! ## The three placements -/

theorem Insert.place_done {fuel : Nat} {ks : List TKey} {s s2 : DB} {b o : Int} {first : Bool}
    (h : Insert.place fuel ks s = Outcome.done (s2, b, o, first)) :
    (Insert.findUseful s s.tbl.max_count fuel s.tbl.first_block_num none = Useful.room b ∧
        s2 = Insert.intoUseful ks s b ∧ o = (s.blocks b).count) ∨
    (∃ lastub, Insert.findUseful s s.tbl.max_count fuel s.tbl.first_block_num none
          = Useful.full (some lastub) ∧
        s.tbl.first_rubbish_num ≠ -1 ∧ b = s.tbl.first_rubbish_num ∧
        s2 = Insert.intoRubbish ks s lastub ∧ o = 0) ∨
    (∃ lastub, Insert.findUseful s s.tbl.max_count fuel s.tbl.first_block_num none
          = Useful.full lastub ∧
        s.tbl.first_rubbish_num = -1 ∧ b = s.tbl.block_count ∧
        s2 = Insert.intoNew ks s ∧ o = 0) := by
  unfold Insert.place at h
  simp only at h
  split at h
  · cases h
  · rename_i ub hf
    cases h
    left
    refine ⟨hf, rfl, ?_⟩
    simp [Insert.intoUseful]
  · rename_i lastub hf
    split at h
    · rename_i hfrb
      split at h
      · cases h
      · rename_i lu
        cases h
        right; left
        exact ⟨lu, hf, hfrb, rfl, rfl, rfl⟩
    · rename_i hfrb
      split at h
      · cases h
      · cases h
        right; right
        refine ⟨lastub, hf, ?_, rfl, rfl, rfl⟩
        by_contra hne
        exact hfrb hne

theorem Insert.intoUseful_tbl (ks : List TKey) (s : DB) (ub : Int) :
    (Insert.intoUseful ks s ub).tbl = s.tbl := rfl

theorem Insert.intoRubbish_block_count (ks : List TKey) (s : DB) (lastub : Int) :
    (Insert.intoRubbish ks s lastub).tbl.block_count = s.tbl.block_count := rfl

theorem pkScan_ne_timeout (s : DB) (pk_index : Int) (key : TKey) :
    ∀ (n : Nat) (b : Int), pkScan s pk_index key n b ≠ Outcome.timeout := by
  intro n
  induction n with
  | zero => intro b h; simp [pkScan] at h
  | succ n ih =>
    intro b h
    unfold pkScan at h
    split at h
    · cases h
    · split at h
      · cases h
      · cases h
      · exact ih _ h

theorem pkCheck_ne_timeout (s : DB) (pk_index : Int) (key : Option TKey) :
    pkCheck s pk_index key ≠ Outcome.timeout := by
  intro h
  unfold pkCheck at h
  split at h
  · cases h
  · split at h
    · split at h <;> cases h
    · exact pkScan_ne_timeout _ _ _ _ _ h

theorem Insert.updateIndex_ne_timeout (nameOf : Index → String) (ks : List TKey) (b o : Int)
    (s : DB) : Insert.updateIndex nameOf ks b o s ≠ Outcome.timeout := by
  intro h
  unfold Insert.updateIndex at h
  split at h
  · split at h <;> cases h
  · cases h

/-- A statement `Insert` runs out of fuel only in the search for a block with
room. -/
theorem Insert.run_timeout {atof : List Byte → Nat} {fuel : Nat} {st : SQLInsert} {s : DB}
    (h : Insert.run atof fuel st s = Outcome.timeout) :
    Insert.findUseful s s.tbl.max_count fuel s.tbl.first_block_num none = Useful.timeout := by
  unfold Insert.run at h
  split at h
  · cases h
  · split at h
    · cases h
    · simp only at h
      split at h
      · cases h
      · cases h
      · rename_i hc
        split at hc
        · exact absurd hc (pkCheck_ne_timeout _ _ _)
        · cases hc
      · split at h
        · cases h
        · cases h
        · rename_i hp
          unfold Insert.place at hp
          simp only at hp
          split at hp
          · assumption
          · cases hp
          · split at hp
            · split at hp <;> cases hp
            · split at hp <;> cases hp
        · rename_i hu
          split at h
          · cases h
          · cases h
          · cases h
          · rename_i hu2
            exact absurd hu2 (Insert.updateIndex_ne_timeout _ _ _ _ _)

theorem Insert_timeout {atof : List Byte → Nat} {fuel : Nat} {st : SQLInsert} {s : DB}
    (h : Insert atof fuel st s = Outcome.timeout) :
    Insert.run atof fuel st s = Outcome.timeout := by
  unfold Insert at h
  split at h
  · cases h
  · cases h
  · cases h
  · assumption

/-- The search for a block with room finds the first block of the walk whose
record count is below `max_count` when no block before it is above. -/
theorem Insert.findUseful_of_walk (s : DB) (max_count b : Int) :
    ∀ (n fuel : Nat) (b0 : Int) (lastub : Option Int), n ≤ fuel →
      (walk s n b0).find? (fun x => decide ((s.blocks x).count < max_count)) = some b →
      (∀ x ∈ walk s n b0, (s.blocks x).count ≤ max_count) →
      Insert.findUseful s max_count fuel b0 lastub = Useful.room b := by
  intro n
  induction n with
  | zero => intro fuel b0 lastub _ hf; simp [walk] at hf
  | succ n ih =>
    intro fuel b0 lastub hle hf hI
    obtain ⟨fuel', rfl⟩ : ∃ f, fuel = f + 1 := ⟨fuel - 1, by omega⟩
    unfold walk at hf hI
    by_cases hb : b0 = -1
    · simp [hb] at hf
    · rw [if_neg hb] at hf hI
      unfold Insert.findUseful
      rw [if_neg hb]
      by_cases hc : (s.blocks b0).count < max_count
      · have hne : (s.blocks b0).count ≠ max_count := by omega
        rw [if_neg hne]
        simp [List.find?, hc] at hf
        rw [hf]
      · have hle2 := hI b0 (List.mem_cons_self _ _)
        have heq : (s.blocks b0).count = max_count := by omega
        rw [if_pos heq]
        simp [List.find?, hc] at hf
        apply ih fuel' _ _ (by omega) hf
        intro x hx
        exact hI x (List.mem_cons_of_mem _ hx)

/-! ## Bytes of a record -/

theorem memcpy_outside (c : Int → Byte) (off : Int) (src : Nat → Byte) (n : Nat) (i : Int)
    (h : i < off ∨ off + (n : Int) ≤ i) : memcpy c off src n i = c i := by
  unfold memcpy
  rw [if_neg]
  omega

theorem memcpy_inside (c : Int → Byte) (off : Int) (src : Nat → Byte) (n k : Nat)
    (h : k < n) : memcpy c off src n (off + (k : Int)) = src k := by
  unfold memcpy
  rw [if_pos (by omega)]
  congr 1
  omega

theorem writeKeys_outside (ks : List TKey) :
    ∀ (c : Int → Byte) (off : Int) (i : Int),
      (i < off ∨ off + (keysLength ks : Int) ≤ i) → writeKeys c ks off i = c i := by
  induction ks with
  | nil => intro c off i _; rfl
  | cons k ks ih =>
    intro c off i h
    simp only [writeKeys]
    have hk : keysLength (k :: ks) = k.length + keysLength ks := by
      simp [keysLength]
    rw [hk] at h
    push_cast at h
    rw [ih]
    · apply memcpy_outside
      omega
    · omega

theorem tabulate_length (f : Nat → Byte) : ∀ (n i : Nat), (tabulate f i n).length = n := by
  intro n
  induction n with
  | zero => intro i; rfl
  | succ n ih => intro i; simp [tabulate, ih]

theorem tabulate_congr (f g : Nat → Byte) :
    ∀ (n i : Nat), (∀ k, i ≤ k → k < i + n → f k = g k) → tabulate f i n = tabulate g i n := by
  intro n
  induction n with
  | zero => intro i _; rfl
  | succ n ih =>
    intro i h
    simp only [tabulate]
    rw [h i (le_refl _) (by omega), ih (i + 1) (fun k h1 h2 => h k (by omega) (by omega))]

theorem tabulate_getD (l : List Byte) :
    ∀ (n i : Nat), i + n = l.length → tabulate (fun k => l.getD k 0) i n = l.drop i := by
  intro n
  induction n with
  | zero =>
    intro i h
    simp only [tabulate]
    rw [List.drop_of_length_le (by omega)]
  | succ n ih =>
    intro i h
    simp only [tabulate]
    rw [ih (i + 1) (by omega)]
    have hi : i < l.length := by omega
    rw [List.getD_eq_getElem?_getD, List.getElem?_eq_getElem hi]
    simp only [Option.getD_some]
    exact (List.drop_eq_getElem_cons hi).symm

theorem readBytes_length (c : Int → Byte) (off : Int) (n : Nat) :
    (readBytes c off n).length = n := tabulate_length _ _ _

theorem readBytes_congr (c c1 : Int → Byte) (off : Int) (n : Nat)
    (h : ∀ i : Int, off ≤ i → i < off + (n : Int) → c i = c1 i) :
    readBytes c off n = readBytes c1 off n := by
  unfold readBytes
  apply tabulate_congr
  intro k _ hk
  apply h <;> omega

theorem readBytes_memcpy (c : Int → Byte) (off : Int) (bs : List Byte) :
    readBytes (memcpy c off (fun i => bs.getD i 0) bs.length) off bs.length = bs := by
  unfold readBytes
  rw [tabulate_congr _ (fun k => bs.getD k 0) bs.length 0
    (fun k _ hk => memcpy_inside c off _ _ k (by omega))]
  rw [tabulate_getD bs bs.length 0 (by omega)]
  rfl

theorem GetRecord.keys_congr (ats : List Attribute) :
    ∀ (c c1 : Int → Byte) (off : Int),
      (∀ i : Int, off ≤ i → i < off + (attrsLength ats : Int) → c i = c1 i) →
      GetRecord.keys c ats off = GetRecord.keys c1 ats off := by
  induction ats with
  | nil => intro c c1 off _; rfl
  | cons a as ih =>
    intro c c1 off h
    have ha : attrsLength (a :: as) = a.length + attrsLength as := by
      simp [attrsLength]
    rw [ha] at h
    push_cast at h
    simp only [GetRecord.keys]
    rw [readBytes_congr c c1 off a.length (fun i h1 h2 => h i h1 (by omega)),
      ih c c1 (off + (a.length : Int)) (fun i h1 h2 => h i (by omega) (by omega))]

theorem GetRecord.keys_length (c : Int → Byte) (ats : List Attribute) :
    ∀ off : Int, (GetRecord.keys c ats off).length = ats.length := by
  induction ats with
  | nil => intro off; rfl
  | cons a as ih => intro off; simp [GetRecord.keys, ih]

/-- Reading back a record that was just written gives the keys written, when
each key fits its attribute. -/
theorem GetRecord.keys_writeKeys (ks : List TKey) (ats : List Attribute)
    (h : List.Forall₂ keyFits ks ats)
    (hnum : ∀ a ∈ ats, a.data_type ≠ 2 → a.length = 4) :
    ∀ (c : Int → Byte) (off : Int), GetRecord.keys (writeKeys c ks off) ats off = ks := by
  induction h with
  | nil => intro c off; rfl
  | @cons k a ks as hka _ ih =>
    intro c off
    obtain ⟨ht, hl, hkl⟩ := hka
    simp only [GetRecord.keys, writeKeys]
    have hnum1 : ∀ a ∈ as, a.data_type ≠ 2 → a.length = 4 :=
      fun x hx => hnum x (List.mem_cons_of_mem _ hx)
    have hlen : (if a.data_type = 2 then a.length else 4) = a.length := by
      split
      · rfl
      · rename_i hne
        exact (hnum a (List.mem_cons_self _ _) hne).symm
    rw [hl, ih hnum1]
    congr 1
    have hread : readBytes (writeKeys (memcpy c off (fun i => k.key.getD i 0) a.length) ks
        (off + (a.length : Int))) off a.length = k.key := by
      rw [readBytes_congr _ (memcpy c off (fun i => k.key.getD i 0) a.length) off a.length]
      · have := readBytes_memcpy c off k.key
        rw [hkl] at this
        exact this
      · intro i h1 h2
        apply writeKeys_outside
        left; exact h2
    rw [hread]
    cases k with
    | mk kt kl kk =>
      simp only [TKey.new, hlen] at *
      simp only [TKey.mk.injEq]
      refine ⟨ht.symm, hl.symm, ?_⟩
      simp

/-! ## The keys of a statement -/

theorem TKey.ReadValue_key_type (atof : List Byte → Nat) (t : Int) (len : Nat) (v : CStr) :
    ((TKey.new t len).ReadValue atof v).key_type = t := by
  unfold TKey.ReadValue
  split
  · rfl
  · split
    · rfl
    · split <;> rfl

theorem TKey.ReadValue_length (atof : List Byte → Nat) (t : Int) (len : Nat) (v : CStr) :
    ((TKey.new t len).ReadValue atof v).length = if t = 2 then len else 4 := by
  unfold TKey.ReadValue
  split
  · rfl
  · split
    · rfl
    · split <;> rfl

theorem TKey.ReadValue_key_length (atof : List Byte → Nat) (t : Int) (len : Nat) (v : CStr) :
    ((TKey.new t len).ReadValue atof v).key.length = if t = 2 then len else 4 := by
  unfold TKey.ReadValue
  split
  · simp [TKey.fill, TKey.new, tabulate_length]
  · split
    · simp [TKey.fill, TKey.new, tabulate_length]
    · split
      · simp [TKey.fill, TKey.new, tabulate_length]
      · simp [TKey.new]

theorem Insert.tkey_values_length (atof : List Byte → Nat) :
    ∀ (vs : List SQLValue) (ats : List Attribute) (ks : List TKey),
      Insert.tkey_values atof vs ats = some ks → ks.length = vs.length ∧ vs.length ≤ ats.length := by
  intro vs
  induction vs with
  | nil => intro ats ks h; simp [Insert.tkey_values] at h; subst h; simp
  | cons v vs ih =>
    intro ats ks h
    cases ats with
    | nil => simp [Insert.tkey_values] at h
    | cons a as =>
      unfold Insert.tkey_values at h
      split at h
      · cases h
      · rename_i ks1 h1
        cases h
        have := ih as ks1 h1
        simp
        omega

/-- A statement whose value types are the attribute types of the table gives
one key per attribute, each fitting its attribute. -/
theorem Insert.tkey_values_fits (atof : List Byte → Nat) :
    ∀ (vs : List SQLValue) (ats : List Attribute),
      vs.map (fun v => v.data_type) = ats.map (fun a => a.data_type) →
      (∀ a ∈ ats, a.data_type ≠ 2 → a.length = 4) →
      ∃ ks, Insert.tkey_values atof vs ats = some ks ∧ List.Forall₂ keyFits ks ats := by
  intro vs
  induction vs with
  | nil =>
    intro ats h _
    cases ats with
    | nil => exact ⟨[], rfl, List.Forall₂.nil⟩
    | cons a as => simp at h
  | cons v vs ih =>
    intro ats h hnum
    cases ats with
    | nil => simp at h
    | cons a as =>
      simp only [List.map_cons, List.cons.injEq] at h
      obtain ⟨ks, hks, hfit⟩ := ih as h.2 (fun x hx => hnum x (List.mem_cons_of_mem _ hx))
      refine ⟨(TKey.new v.data_type a.length).ReadValue atof v.value :: ks,
        by simp [Insert.tkey_values, hks], List.Forall₂.cons ?_ hfit⟩
      have hl : (if v.data_type = 2 then a.length else 4) = a.length := by
        split
        · rfl
        · rename_i hne
          rw [h.1] at hne
          exact (hnum a (List.mem_cons_self _ _) hne).symm
      refine ⟨?_, ?_, ?_⟩
      · rw [TKey.ReadValue_key_type]; exact h.1
      · rw [TKey.ReadValue_length]; exact hl
      · rw [TKey.ReadValue_key_length]; exact hl

theorem keysLength_of_fits {ks : List TKey} {ats : List Attribute}
    (h : List.Forall₂ keyFits ks ats) : keysLength ks = attrsLength ats := by
  induction h with
  | nil => rfl
  | @cons k a ks as hka _ ih =>
    simp only [keysLength, attrsLength, List.map_cons, List.sum_cons] at *
    rw [ih, hka.2.1]

/-- Slots of one block do not overlap: a byte of slot `j` lies outside the
bytes of a record of at most `R` bytes written at slot `c`. -/
theorem slot_disjoint (R c j i : Int) (len : Nat) (hlen : (len : Int) ≤ R) (hj : j ≠ c)
    (hi0 : 0 ≤ i) (hi : i < R) :
    j * R + i < c * R ∨ c * R + (len : Int) ≤ j * R + i := by
  have hR : 0 ≤ R := by omega
  rcases lt_or_gt_of_ne hj with h | h
  · left
    have : (j + 1) * R ≤ c * R := Int.mul_le_mul_of_nonneg_right (by omega) hR
    have e : (j + 1) * R = j * R + R := by ring
    omega
  · right
    have : (c + 1) * R ≤ j * R := Int.mul_le_mul_of_nonneg_right (by omega) hR
    have e : (c + 1) * R = c * R + R := by ring
    omega

/-! ## The primary-key scan -/

theorem at?_isSome_iff {α : Type} (l : List α) (i : Int) :
    (∃ x, at? l i = some x) ↔ 0 ≤ i ∧ i.toNat < l.length := by
  unfold at?
  constructor
  · rintro ⟨x, h⟩
    split at h
    · cases h
    · rename_i hi
      refine ⟨by omega, ?_⟩
      by_contra hlt
      rw [List.getElem?_eq_none (by omega)] at h
      cases h
  · rintro ⟨h0, h1⟩
    rw [if_neg (by omega)]
    exact ⟨l[i.toNat], List.getElem?_eq_getElem h1⟩

theorem slotKeys_length (s : DB) (b j : Int) : (slotKeys s b j).length = s.tbl.ats.length := by
  unfold slotKeys
  exact GetRecord.keys_length _ _ _

theorem at?_slotKeys {s : DB} {pk : Int} (h : 0 ≤ pk ∧ pk.toNat < s.tbl.ats.length)
    (b j : Int) : ∃ k, at? (slotKeys s b j) pk = some k := by
  rw [at?_isSome_iff, slotKeys_length]
  exact h

theorem pkConflictIn_ne_none {s : DB} {b pk : Int} (key : TKey) (hb : b ≠ -1)
    (hpk : 0 ≤ pk ∧ pk.toNat < s.tbl.ats.length) :
    ∀ js : List Nat, pkConflictIn s b pk key js ≠ none := by
  intro js
  induction js with
  | nil => simp [pkConflictIn]
  | cons j js ih =>
    obtain ⟨k, hk⟩ := at?_slotKeys hpk b j
    simp only [pkConflictIn, GetRecord_of_ne _ hb, hk]
    split
    · simp
    · exact ih

theorem pkConflictIn_true {s : DB} {b pk : Int} {key k : TKey} {j : Nat} (hb : b ≠ -1)
    (hpk : 0 ≤ pk ∧ pk.toNat < s.tbl.ats.length)
    (hk : at? (slotKeys s b j) pk = some k) (heq : k.eq key = true) :
    ∀ js : List Nat, j ∈ js → pkConflictIn s b pk key js = some true := by
  intro js
  induction js with
  | nil => intro h; cases h
  | cons i js ih =>
    intro hmem
    obtain ⟨k1, hk1⟩ := at?_slotKeys hpk b i
    simp only [pkConflictIn, GetRecord_of_ne _ hb, hk1]
    by_cases hc : k1.eq key = true
    · rw [if_pos hc]
    · rw [if_neg hc]
      rcases List.mem_cons.mp hmem with h | h
      · subst h
        rw [hk] at hk1
        cases hk1
        exact absurd heq hc
      · exact ih h

/-- The scan throws as soon as a block of the walk holds a record with an
equal key. -/
theorem pkScan_conflict {s : DB} {pk : Int} {key k : TKey} {b : Int} {j : Nat}
    (hj : (j : Int) < (s.blocks b).count)
    (hk : at? (slotKeys s b j) pk = some k) (heq : k.eq key = true) :
    ∀ (n : Nat) (b0 : Int), b ∈ walk s n b0 →
      pkScan s pk key n b0 = Outcome.thrown Exception.PrimaryKeyConflict s := by
  have hpk : 0 ≤ pk ∧ pk.toNat < s.tbl.ats.length := by
    have := (at?_isSome_iff (slotKeys s b j) pk).mp ⟨k, hk⟩
    rwa [slotKeys_length] at this
  intro n
  induction n with
  | zero => intro b0 h; simp [walk] at h
  | succ n ih =>
    intro b0 h
    unfold walk at h
    by_cases hb0 : b0 = -1
    · simp [hb0] at h
    · rw [if_neg hb0] at h
      unfold pkScan
      rw [GetBlockInfo_of_ne hb0]
      simp only
      by_cases hbb : b = b0
      · subst hbb
        have hmem : j ∈ List.range (s.blocks b).count.toNat := by
          rw [List.mem_range]; omega
        rw [pkConflictIn_true hb0 hpk hk heq _ hmem]
      · have hin : b ∈ walk s n (s.blocks b0).next := by
          rcases List.mem_cons.mp h with h1 | h1
          · exact absurd h1 hbb
          · exact h1
        have hne := pkConflictIn_ne_none key hb0 hpk (List.range (s.blocks b0).count.toNat)
        cases hc : pkConflictIn s b0 pk key (List.range (s.blocks b0).count.toNat) with
        | none => exact absurd hc hne
        | some v =>
          cases v with
          | true => rfl
          | false => exact ih _ hin

/-! ## Tables that only saw inserts -/

theorem InsertShape_of_empty {s : DB} (h : s.isEmptyTable) (hids : s.tbl.ids = []) :
    InsertShape s := by
  obtain ⟨h1, h2, h3⟩ := h
  refine ⟨hids, h2, by omega, by omega, ?_⟩
  intro i h0 hi
  omega

/-- On a table of the insert shape the search for room, started at block
`m - 1`, finds a block `b < m` that is not full, every block above it up to
`m - 1` being full. -/
theorem Insert.findUseful_shape_room {s : DB} (hs : InsertShape s) (max_count b : Int) :
    ∀ (m fuel : Nat) (lastub : Option Int), (m : Int) ≤ s.tbl.block_count →
      Insert.findUseful s max_count fuel ((m : Int) - 1) lastub = Useful.room b →
      0 ≤ b ∧ b < m ∧ (s.blocks b).count ≠ max_count ∧
        ∀ i : Int, b < i → i < m → (s.blocks i).count = max_count := by
  intro m
  induction m with
  | zero =>
    intro fuel lastub _ h
    cases fuel <;> simp [Insert.findUseful] at h
  | succ m ih =>
    intro fuel lastub hm h
    have hb0 : ((m + 1 : Nat) : Int) - 1 = (m : Int) := by push_cast; ring
    rw [hb0] at h
    have hne : (m : Int) ≠ -1 := by omega
    cases fuel with
    | zero => simp [Insert.findUseful, hne] at h
    | succ fuel =>
      unfold Insert.findUseful at h
      rw [if_neg hne] at h
      split at h
      · rename_i hfull
        have hnext := (hs.2.2.2.2 (m : Int) (by omega) (by push_cast at hm; omega)).1
        rw [hnext] at h
        obtain ⟨h0, h1, h2, h3⟩ := ih fuel _ (by push_cast at hm; omega) h
        refine ⟨h0, by push_cast; omega, h2, ?_⟩
        intro i hbi him
        by_cases hi : i = (m : Int)
        · rw [hi]; exact hfull
        · exact h3 i hbi (by push_cast at him; omega)
      · rename_i hnot
        cases h
        refine ⟨by omega, by push_cast; omega, hnot, ?_⟩
        intro i h1 h2
        push_cast at h2
        omega

theorem Insert.findUseful_shape_full {s : DB} (hs : InsertShape s) (max_count : Int)
    (lu : Option Int) :
    ∀ (m fuel : Nat) (lastub : Option Int), (m : Int) ≤ s.tbl.block_count →
      Insert.findUseful s max_count fuel ((m : Int) - 1) lastub = Useful.full lu →
      ∀ i : Int, 0 ≤ i → i < m → (s.blocks i).count = max_count := by
  intro m
  induction m with
  | zero =>
    intro fuel lastub _ _ i h0 hi
    simp at hi
    omega
  | succ m ih =>
    intro fuel lastub hm h
    have hb0 : ((m + 1 : Nat) : Int) - 1 = (m : Int) := by push_cast; ring
    rw [hb0] at h
    have hne : (m : Int) ≠ -1 := by omega
    cases fuel with
    | zero => simp [Insert.findUseful, hne] at h
    | succ fuel =>
      unfold Insert.findUseful at h
      rw [if_neg hne] at h
      split at h
      · rename_i hfull
        have hnext := (hs.2.2.2.2 (m : Int) (by omega) (by push_cast at hm; omega)).1
        rw [hnext] at h
        have := ih fuel _ (by push_cast at hm; omega) h
        intro i h0 hi
        by_cases hi2 : i = (m : Int)
        · rw [hi2]; exact hfull
        · exact this i h0 (by push_cast at hi; omega)
      · cases h

/-- With fuel above `block_count` the search for room does not time out on a
table of the insert shape. -/
theorem Insert.findUseful_shape_fuel {s : DB} (hs : InsertShape s) (max_count : Int) :
    ∀ (m fuel : Nat) (lastub : Option Int), (m : Int) ≤ s.tbl.block_count → m ≤ fuel →
      Insert.findUseful s max_count fuel ((m : Int) - 1) lastub ≠ Useful.timeout := by
  intro m
  induction m with
  | zero =>
    intro fuel lastub _ _ h
    cases fuel <;> simp [Insert.findUseful] at h
  | succ m ih =>
    intro fuel lastub hm hf h
    have hb0 : ((m + 1 : Nat) : Int) - 1 = (m : Int) := by push_cast; ring
    rw [hb0] at h
    have hne : (m : Int) ≠ -1 := by omega
    obtain ⟨fuel', rfl⟩ : ∃ f, fuel = f + 1 := ⟨fuel - 1, by omega⟩
    unfold Insert.findUseful at h
    rw [if_neg hne] at h
    split at h
    · have hnext := (hs.2.2.2.2 (m : Int) (by omega) (by push_cast at hm; omega)).1
      rw [hnext] at h
      exact ih fuel' _ (by push_cast at hm; omega) (by omega) h
    · cases h

/-- What a returning `Insert` does to a table of the insert shape: the record
goes to slot `recordCount` of a block `b` of the live list that is not full,
the blocks above `b` being full, or every block is full and the record goes to
slot 0 of the new block `block_count`. -/
theorem Insert.run_shape {atof : List Byte → Nat} {fuel : Nat} {st : SQLInsert} {s s1 : DB}
    {blocknum offset : Int} (hs : InsertShape s)
    (h : Insert.run atof fuel st s = Outcome.done (s1, blocknum, offset)) :
    ∃ ks, Insert.tkey_values atof st.values s.tbl.ats = some ks ∧
      ((0 ≤ blocknum ∧ blocknum < s.tbl.block_count ∧
          (s.blocks blocknum).count ≠ s.tbl.max_count ∧
          (∀ i : Int, blocknum < i → i < s.tbl.block_count →
            (s.blocks i).count = s.tbl.max_count) ∧
          s1.tbl = s.tbl ∧ s1.blocks = (Insert.intoUseful ks s blocknum).blocks) ∨
        (blocknum = s.tbl.block_count ∧
          (∀ i : Int, 0 ≤ i → i < s.tbl.block_count →
            (s.blocks i).count = s.tbl.max_count) ∧
          s1.tbl = (Insert.intoNew ks s).tbl ∧ s1.blocks = (Insert.intoNew ks s).blocks)) := by
  obtain ⟨_, ks, hks, _, s2, first, hplace, htbl, hblocks⟩ := Insert.run_done h
  refine ⟨ks, hks, ?_⟩
  have hk : ((s.tbl.block_count.toNat : Nat) : Int) = s.tbl.block_count :=
    Int.toNat_of_nonneg hs.2.2.1
  have hstart : s.tbl.first_block_num = ((s.tbl.block_count.toNat : Nat) : Int) - 1 := by
    rw [hk]; exact hs.2.2.2.1
  rcases Insert.place_done hplace with ⟨hf, h2, _⟩ | ⟨lastub, _, hfrb, _⟩ | ⟨lastub, hf, _, hb, h2, _⟩
  · left
    rw [hstart] at hf
    obtain ⟨h0, h1, h3, h4⟩ :=
      Insert.findUseful_shape_room hs _ _ _ _ _ (by rw [hk]) hf
    rw [hk] at h1 h4
    subst h2
    exact ⟨h0, h1, h3, h4, htbl, hblocks⟩
  · exact absurd hs.2.1 hfrb
  · right
    rw [hstart] at hf
    have := Insert.findUseful_shape_full hs _ _ _ _ _ (by rw [hk]) hf
    rw [hk] at this
    subst h2
    exact ⟨hb, this, htbl, hblocks⟩

theorem Insert.intoNew_blocks_old (ks : List TKey) (s : DB) (i : Int)
    (hi : i ≠ s.tbl.block_count) :
    ((Insert.intoNew ks s).blocks i).next = (s.blocks i).next ∧
      ((Insert.intoNew ks s).blocks i).count = (s.blocks i).count ∧
      ((Insert.intoNew ks s).blocks i).content = (s.blocks i).content := by
  simp only [Insert.intoNew]
  rw [setBlock_blocks_other _ _ _ _ hi]
  split
  · rw [setBlock_blocks]
    split
    · rename_i h1; rw [h1]; exact ⟨rfl, rfl, rfl⟩
    · exact ⟨rfl, rfl, rfl⟩
  · exact ⟨rfl, rfl, rfl⟩

theorem Insert.intoNew_blocks_new (ks : List TKey) (s : DB) :
    ∃ c : Int → Byte,
      ((Insert.intoNew ks s).blocks s.tbl.block_count).next = s.tbl.first_block_num ∧
      ((Insert.intoNew ks s).blocks s.tbl.block_count).count = 1 ∧
      ((Insert.intoNew ks s).blocks s.tbl.block_count).content = writeKeys c ks 0 := by
  simp only [Insert.intoNew]
  split
  · refine ⟨((s.setBlock s.tbl.first_block_num
        (fun b => { b with prev := s.tbl.block_count })).blocks s.tbl.block_count).content,
      ?_, ?_, ?_⟩
    · simp only [setBlock_blocks_same]
    · simp only [setBlock_blocks_same]
    · simp only [setBlock_blocks_same]
  · refine ⟨(s.blocks s.tbl.block_count).content, ?_, ?_, ?_⟩
    · simp only [setBlock_blocks_same]
    · simp only [setBlock_blocks_same]
    · simp only [setBlock_blocks_same]

theorem Insert.intoNew_tbl (ks : List TKey) (s : DB) :
    (Insert.intoNew ks s).tbl.block_count = s.tbl.block_count + 1 ∧
      (Insert.intoNew ks s).tbl.first_block_num = s.tbl.block_count ∧
      (Insert.intoNew ks s).tbl.first_rubbish_num = s.tbl.first_rubbish_num ∧
      (Insert.intoNew ks s).tbl.ids = s.tbl.ids ∧
      (Insert.intoNew ks s).tbl.ats = s.tbl.ats ∧
      (Insert.intoNew ks s).tbl.record_length = s.tbl.record_length := by
  simp only [Insert.intoNew]
  split <;> exact ⟨rfl, rfl, rfl, rfl, rfl, rfl⟩

/-- A returning `Insert` keeps the insert shape and the schema. -/
theorem InsertShape_step {atof : List Byte → Nat} {fuel : Nat} {st : SQLInsert} {s s1 : DB}
    (hs : InsertShape s) (h : Insert atof fuel st s = Outcome.done s1) :
    InsertShape s1 ∧ s1.tbl.ats = s.tbl.ats ∧ s1.tbl.record_length = s.tbl.record_length := by
  obtain ⟨blocknum, offset, hrun⟩ := Insert_done h
  obtain ⟨ks, _, hcase⟩ := Insert.run_shape hs hrun
  obtain ⟨hids, hfrb, hk0, hfirst, hchain⟩ := hs
  rcases hcase with ⟨h0, h1, _, _, htbl, hblocks⟩ | ⟨hb, _, htbl, hblocks⟩
  · refine ⟨⟨by rw [htbl]; exact hids, by rw [htbl]; exact hfrb, by rw [htbl]; exact hk0,
      by rw [htbl]; exact hfirst, ?_⟩, by rw [htbl], by rw [htbl]⟩
    intro i hi0 hi
    rw [htbl] at hi
    rw [hblocks]
    simp only [Insert.intoUseful, setBlock_blocks]
    have := hchain i hi0 hi
    split
    · rename_i hib
      subst hib
      exact ⟨this.1, by simp only; omega⟩
    · exact this
  · obtain ⟨t1, t2, t3, t4, t5, t6⟩ := Insert.intoNew_tbl ks s
    rw [← htbl] at t1 t2 t3 t4 t5 t6
    refine ⟨⟨by rw [t4]; exact hids, by rw [t3]; exact hfrb, by omega, by omega, ?_⟩, t5, t6⟩
    intro i hi0 hi
    rw [t1] at hi
    rw [hblocks]
    by_cases hik : i = s.tbl.block_count
    · subst hik
      obtain ⟨c, n1, n2, _⟩ := Insert.intoNew_blocks_new ks s
      rw [n1, n2]
      exact ⟨hfirst, le_refl _⟩
    · have := Insert.intoNew_blocks_old ks s i hik
      rw [this.1, this.2.1]
      exact hchain i hi0 (by omega)

/-! ## Counting the blocks of a table that only saw inserts -/

theorem Table.max_count_eq {tbl : Table} (h1 : 1 ≤ tbl.record_length) :
    tbl.max_count = 4084 / tbl.record_length := by
  unfold Table.max_count
  have : (4096 - 12 : Int) = 4084 := by norm_num
  rw [this]
  exact Int.tdiv_eq_ediv (by omega) (by omega)

theorem Table.max_count_pos {tbl : Table} (h1 : 1 ≤ tbl.record_length)
    (h2 : tbl.record_length ≤ 4084) : 1 ≤ tbl.max_count := by
  rw [Table.max_count_eq h1]
  exact Int.le_ediv_of_mul_le (by omega) (by omega)

theorem InsertFill_of_empty {s : DB} (h : s.isEmptyTable) : InsertFill s 0 := by
  obtain ⟨_, _, h3⟩ := h
  refine ⟨?_, ?_, ?_⟩
  · intro i h0 hi; omega
  · intro hk; omega
  · simp [h3]

/-- A returning `Insert` on a table of the insert shape whose blocks are filled
as `InsertFill` says adds one record and keeps the filling. -/
theorem InsertFill_step {atof : List Byte → Nat} {fuel : Nat} {st : SQLInsert} {s s1 : DB}
    {n : Nat} (hs : InsertShape s) (hf : InsertFill s n) (hmax : 1 ≤ s.tbl.max_count)
    (h : Insert atof fuel st s = Outcome.done s1) : InsertFill s1 (n + 1) := by
  obtain ⟨blocknum, offset, hrun⟩ := Insert_done h
  obtain ⟨ks, _, hcase⟩ := Insert.run_shape hs hrun
  obtain ⟨hfull, hhead, hsum⟩ := hf
  have hmc : ∀ t : DB, t.tbl.record_length = s.tbl.record_length →
      t.tbl.max_count = s.tbl.max_count := by
    intro t ht; unfold Table.max_count; rw [ht]
  rcases hcase with ⟨h0, h1, hne, _, htbl, hblocks⟩ | ⟨hb, hall, htbl, hblocks⟩
  · have hb : blocknum = s.tbl.block_count - 1 := by
      by_contra hcon
      exact hne (hfull blocknum h0 (by omega))
    have hk : s.tbl.block_count ≠ 0 := by omega
    have hcount : (s1.blocks blocknum).count = (s.blocks blocknum).count + 1 := by
      rw [hblocks]; simp only [Insert.intoUseful, setBlock_blocks_same]; omega
    have hle := hhead (by omega)
    rw [← hb] at hle
    refine ⟨?_, ?_, ?_⟩
    · intro i hi0 hi
      rw [htbl] at hi ⊢
      rw [hblocks, Insert.intoUseful, setBlock_blocks_other _ _ _ _ (by omega)]
      exact hfull i hi0 hi
    · intro _
      rw [htbl, ← hb, hcount]
      omega
    · rw [htbl, if_neg hk, ← hb, hcount]
      rw [if_neg hk, ← hb] at hsum
      push_cast
      omega
  · obtain ⟨t1, _, _, _, _, t6⟩ := Insert.intoNew_tbl ks s
    rw [← htbl] at t1 t6
    have hm := hmc s1 t6
    obtain ⟨c, _, n2, _⟩ := Insert.intoNew_blocks_new ks s
    have hk0 := hs.2.2.1
    have hold : ∀ i : Int, 0 ≤ i → i < s.tbl.block_count →
        (s1.blocks i).count = s.tbl.max_count := by
      intro i hi0 hi
      rw [hblocks, (Insert.intoNew_blocks_old ks s i (by omega)).2.1]
      exact hall i hi0 hi
    have hnew : (s1.blocks s.tbl.block_count).count = 1 := by rw [hblocks]; exact n2
    have hn : (n : Int) = s.tbl.block_count * s.tbl.max_count := by
      rw [hsum]
      split
      · rename_i hz; rw [hz]; simp
      · rename_i hz
        rw [hall (s.tbl.block_count - 1) (by omega) (by omega)]
        ring
    refine ⟨?_, ?_, ?_⟩
    · intro i hi0 hi
      rw [t1] at hi
      rw [hm]
      exact hold i hi0 (by omega)
    · intro _
      rw [t1, hm]
      have : s.tbl.block_count + 1 - 1 = s.tbl.block_count := by ring
      rw [this, hnew]
      exact hmax
    · rw [t1, hm]
      have e : s.tbl.block_count + 1 - 1 = s.tbl.block_count := by ring
      rw [if_neg (by omega), e, hnew]
      push_cast
      rw [hn]

/-- After `n` returning inserts from the empty table the shape, the filling
and the schema hold. -/
theorem InsertsN_invariant {atof : List Byte → Nat} {s0 s : DB} {n : Nat}
    (hempty : s0.isEmptyTable) (hnoidx : s0.tbl.ids = [])
    (hR1 : 1 ≤ s0.tbl.record_length) (hR2 : s0.tbl.record_length ≤ 4084)
    (hrun : InsertsN atof s0 n s) :
    InsertShape s ∧ InsertFill s n ∧ s.tbl.record_length = s0.tbl.record_length := by
  induction hrun with
  | zero => exact ⟨InsertShape_of_empty hempty hnoidx, InsertFill_of_empty hempty, rfl⟩
  | @succ n t t1 fuel st _ hstep ih =>
    obtain ⟨hs, hf, hr⟩ := ih
    obtain ⟨hs1, _, hr1⟩ := InsertShape_step hs hstep
    have hmax : 1 ≤ t.tbl.max_count := Table.max_count_pos (by rw [hr]; exact hR1)
      (by rw [hr]; exact hR2)
    exact ⟨hs1, InsertFill_step hs hf hmax hstep, by rw [hr1, hr]⟩

/-- The number of blocks is the ceiling of the number of records over the
records a block takes. -/
theorem InsertFill_block_count {s : DB} {n : Nat} (hs : InsertShape s) (hf : InsertFill s n)
    (hmax : 1 ≤ s.tbl.max_count) :
    s.tbl.block_count = ((n : Int) + (s.tbl.max_count - 1)) / s.tbl.max_count := by
  obtain ⟨_, hhead, hsum⟩ := hf
  rw [hsum]
  split
  · rename_i hz
    rw [hz, zero_add]
    exact (Int.ediv_eq_zero_of_lt (by omega) (by omega)).symm
  · rename_i hz
    have hk0 := hs.2.2.1
    have h1 := (hs.2.2.2.2 (s.tbl.block_count - 1) (by omega) (by omega)).2
    have h2 := hhead (by omega)
    have e : (s.tbl.block_count - 1) * s.tbl.max_count
          + (s.blocks (s.tbl.block_count - 1)).count + (s.tbl.max_count - 1)
        = ((s.blocks (s.tbl.block_count - 1)).count - 1)
          + s.tbl.block_count * s.tbl.max_count := by ring
    rw [e, Int.add_mul_ediv_right _ _ (by omega),
      Int.ediv_eq_zero_of_lt (by omega) (by omega), zero_add]

/-! ## Keys of equal strings compare alike -/

theorem Insert.tkey_values_get (atof : List Byte → Nat) :
    ∀ (vs : List SQLValue) (ats : List Attribute) (ks : List TKey),
      Insert.tkey_values atof vs ats = some ks →
      ∀ (i : Nat) (v : SQLValue), vs[i]? = some v →
        ∃ a, ats[i]? = some a ∧
          ks[i]? = some ((TKey.new v.data_type a.length).ReadValue atof v.value) := by
  intro vs
  induction vs with
  | nil => intro ats ks _ i v hv; simp at hv
  | cons v0 vs ih =>
    intro ats ks h i v hv
    cases ats with
    | nil => simp [Insert.tkey_values] at h
    | cons a as =>
      unfold Insert.tkey_values at h
      split at h
      · cases h
      · rename_i ks1 h1
        cases h
        cases i with
        | zero =>
          simp only [List.getElem?_cons_zero, Option.some.injEq] at hv
          subst hv
          exact ⟨a, by simp, by simp⟩
        | succ i =>
          simp only [List.getElem?_cons_succ] at hv ⊢
          exact ih as ks1 h1 i v hv

theorem at?_eq_getElem? {α : Type} (l : List α) (i : Int) (h : 0 ≤ i) :
    at? l i = l[i.toNat]? := by
  unfold at?
  rw [if_neg (by omega)]

/-! ## The full scan of Select -/

/-- C10. When some block of the live list has fewer than `max_count` records
(and, as invariant I3 says, none has more), a statement `Insert` whose value
types are the attribute types does not run out of fuel, and when it returns it
has written the record to slot `recordCount` of the first such block `b`: the
record read back from that slot is the record of the statement, the count of
`b` is one more, the links of `b`, every byte of every other slot of `b`, every
other block and every field of the table are unchanged. -/
theorem insert_into_first_block_with_room (atof : List Byte → Nat) (fuel n : Nat)
    (st : SQLInsert) (s : DB) (b : Int)
    (hfirst : (walk s n s.tbl.first_block_num).find?
        (fun x => decide ((s.blocks x).count < s.tbl.max_count)) = some b)
    (hI3 : ∀ x ∈ walk s n s.tbl.first_block_num, (s.blocks x).count ≤ s.tbl.max_count)
    (hfuel : n ≤ fuel)
    (htyped : st.values.map (fun v => v.data_type) = s.tbl.ats.map (fun a => a.data_type))
    (hnum : ∀ a ∈ s.tbl.ats, a.data_type ≠ 2 → a.length = 4)
    (hlen : (attrsLength s.tbl.ats : Int) ≤ s.tbl.record_length) :
    Insert atof fuel st s ≠ Outcome.timeout ∧
    ∀ s1, Insert atof fuel st s = Outcome.done s1 →
      Insert.tkey_values atof st.values s.tbl.ats
          = some (slotKeys s1 b (s.blocks b).count) ∧
        (s1.blocks b).count = (s.blocks b).count + 1 ∧
        (s1.blocks b).prev = (s.blocks b).prev ∧
        (s1.blocks b).next = (s.blocks b).next ∧
        (∀ j : Int, j ≠ (s.blocks b).count → ∀ i : Int, 0 ≤ i → i < s.tbl.record_length →
          (s1.blocks b).content (j * s.tbl.record_length + i)
            = (s.blocks b).content (j * s.tbl.record_length + i)) ∧
        (∀ m : Int, m ≠ b → s1.blocks m = s.blocks m) ∧
        s1.tbl = s.tbl := by
  have hroom := Insert.findUseful_of_walk s s.tbl.max_count b n fuel s.tbl.first_block_num none
    hfuel hfirst hI3
  constructor
  · intro ht
    have := Insert.run_timeout (Insert_timeout ht)
    rw [hroom] at this
    cases this
  · intro s1 hdone
    obtain ⟨blocknum, offset, hrun⟩ := Insert_done hdone
    obtain ⟨_, ks, hks, _, s2, first, hplace, htbl, hblocks⟩ := Insert.run_done hrun
    obtain ⟨ks1, hks1, hfit⟩ := Insert.tkey_values_fits atof st.values s.tbl.ats htyped hnum
    rw [hks] at hks1
    cases hks1
    have hs2 : s2 = Insert.intoUseful ks s b := by
      rcases Insert.place_done hplace with ⟨hf, h2, _⟩ | ⟨lastub, hf, _⟩ | ⟨lastub, hf, _⟩
      · rw [hroom] at hf
        cases hf
        exact h2
      · rw [hroom] at hf; cases hf
      · rw [hroom] at hf; cases hf
    subst hs2
    have hb : s1.blocks b = (Insert.intoUseful ks s b).blocks b := by rw [hblocks]
    have hkl := keysLength_of_fits hfit
    refine ⟨?_, ?_, ?_, ?_, ?_, ?_, ?_⟩
    · rw [hks]
      congr 1
      unfold slotKeys
      rw [hb, htbl]
      simp only [Insert.intoUseful, setBlock_blocks_same, setBlock_tbl]
      exact (GetRecord.keys_writeKeys ks s.tbl.ats hfit hnum _ _).symm
    · rw [hb]
      simp only [Insert.intoUseful, setBlock_blocks_same]
      omega
    · rw [hb]; simp only [Insert.intoUseful, setBlock_blocks_same]
    · rw [hb]; simp only [Insert.intoUseful, setBlock_blocks_same]
    · intro j hj i hi0 hi
      rw [hb]
      simp only [Insert.intoUseful, setBlock_blocks_same]
      apply writeKeys_outside
      rw [hkl]
      exact slot_disjoint _ _ _ _ _ hlen hj hi0 hi
    · intro m hm
      rw [hblocks]
      exact setBlock_blocks_other _ _ _ _ hm
    · rw [htbl]; rfl

theorem insert_into_first_block_with_room_witness :
    (tAliceBob.blocks 0).count = (tAlice.blocks 0).count + 1 ∧ tAliceBob.tbl = tAlice.tbl :=
  have h := (insert_into_first_block_with_room atof0 2 1 (insertIdName [50] bob) tAlice 0
    (by decide) (by decide) (by decide) (by decide) (by decide) (by decide)).2 tAliceBob rfl
  ⟨h.2.1, h.2.2.2.2.2.2⟩

theorem DeleteRecord_last {s s1 : DB} {block_num offset : Int}
    (h : DeleteRecord s block_num offset = some s1) (hlast : (s.blocks block_num).count = 1) :
    block_num ≠ -1 ∧ s1.tbl.first_rubbish_num = block_num ∧
      s1.tbl.block_count = s.tbl.block_count := by
  unfold DeleteRecord at h
  unfold GetBlockInfo at h
  split at h
  · cases h
  · rename_i bp hb
    split at hb
    · cases hb
    · rename_i hne
      simp only [setBlock_blocks_same, hlast] at h
      simp only [sub_self, if_true] at h
      cases h
      refine ⟨hne, rfl, ?_⟩
      simp only
      split <;> split <;> split <;> rfl

theorem Insert.run_block_count_of_rubbish {atof : List Byte → Nat} {fuel : Nat}
    {st : SQLInsert} {s s1 : DB} {blocknum offset : Int}
    (h : Insert.run atof fuel st s = Outcome.done (s1, blocknum, offset))
    (hfrb : s.tbl.first_rubbish_num ≠ -1) :
    s1.tbl.block_count = s.tbl.block_count ∧
      (blocknum ≠ s.tbl.first_rubbish_num →
        s1.tbl.first_rubbish_num = s.tbl.first_rubbish_num) := by
  obtain ⟨_, ks, _, _, s2, first, hplace, htbl, _⟩ := Insert.run_done h
  rw [htbl]
  rcases Insert.place_done hplace with ⟨_, h2, _⟩ | ⟨lastub, _, _, hb, h2, _⟩ | ⟨lastub, _, h1, _⟩
  · subst h2
    exact ⟨rfl, fun _ => rfl⟩
  · subst h2
    exact ⟨rfl, fun hne => absurd hb hne⟩
  · exact absurd h1 hfrb

/-- C9. When `DeleteRecord` has removed the last record of block `b`, the block
is the head of the free list, and statements `Insert` that return without
writing a record into `b` leave `block_count` as it was; moreover a statement
`Insert` that returns in a state whose free list is not empty
(`first_rubbish_num` is not -1) leaves `block_count` unchanged. -/
theorem free_block_reused_before_growth (atof : List Byte → Nat) (s s1 : DB)
    (block_num offset : Int)
    (hdel : DeleteRecord s block_num offset = some s1)
    (hlast : (s.blocks block_num).count = 1) :
    s1.tbl.first_rubbish_num = block_num ∧
    (∀ s2, InsertsAvoiding atof block_num s1 s2 →
      s2.tbl.block_count = s1.tbl.block_count) ∧
    (∀ (t t1 : DB) (fuel : Nat) (st : SQLInsert), t.tbl.first_rubbish_num ≠ -1 →
      Insert atof fuel st t = Outcome.done t1 → t1.tbl.block_count = t.tbl.block_count) := by
  obtain ⟨hne, hfr, _⟩ := DeleteRecord_last hdel hlast
  refine ⟨hfr, ?_, ?_⟩
  · intro s2 hreach
    have key : s2.tbl.first_rubbish_num = block_num ∧
        s2.tbl.block_count = s1.tbl.block_count := by
      induction hreach with
      | init => exact ⟨hfr, rfl⟩
      | @step t t1 blocknum offset fuel st _ hrun hav ih =>
        have hfrb : t.tbl.first_rubbish_num ≠ -1 := by rw [ih.1]; exact hne
        have := Insert.run_block_count_of_rubbish hrun hfrb
        refine ⟨?_, ?_⟩
        · rw [this.2 (by rw [ih.1]; exact hav), ih.1]
        · rw [this.1, ih.2]
    exact key.2
  · intro t t1 fuel st hfrb hdone
    obtain ⟨blocknum, offset, hrun⟩ := Insert_done hdone
    exact (Insert.run_block_count_of_rubbish hrun hfrb).1

theorem free_block_reused_before_growth_witness :
    uThreeLessTwo.tbl.first_rubbish_num = 0 ∧
      uFour.tbl.block_count = uThreeLessTwo.tbl.block_count :=
  have h := free_block_reused_before_growth atof0 uThreeLessOne uThreeLessTwo 0 0 rfl
    (by decide)
  ⟨h.1, h.2.1 uFour
    (InsertsAvoiding.step 3 (insertIdPad [52]) InsertsAvoiding.init
      (show Insert.run atof0 3 (insertIdPad [52]) uThreeLessTwo = Outcome.done (uFour, 1, 1)
        from rfl)
      (by decide))⟩

/-- C2. On a table with a primary key and no index, a statement `Insert` whose
primary-key value equals (operator `==`) the primary-key value of a live record
(slot `j` below the record count of a block `b` of the live list) throws
`PrimaryKeyConflict` in the very state it started from: no block and no field
of the table has changed. -/
theorem insert_duplicate_primary_key (atof : List Byte → Nat) (fuel : Nat) (st : SQLInsert)
    (s : DB) (ks : List TKey) (b : Int) (j : Nat) (key k : TKey)
    (hnoidx : s.tbl.ids = [])
    (hR : s.tbl.record_length ≠ 0)
    (hks : Insert.tkey_values atof st.values s.tbl.ats = some ks)
    (hkey : at? ks (Insert.pk_index st s.tbl) = some key)
    (hb : b ∈ walk s s.tbl.block_count.toNat s.tbl.first_block_num)
    (hj : (j : Int) < (s.blocks b).count)
    (hk : at? (slotKeys s b j) (Insert.pk_index st s.tbl) = some k)
    (heq : k.eq key = true) :
    Insert atof fuel st s = Outcome.thrown Exception.PrimaryKeyConflict s := by
  have hpk : Insert.pk_index st s.tbl ≠ -1 := by
    have := (at?_isSome_iff _ _).mp ⟨key, hkey⟩
    omega
  have hscan := pkScan_conflict hj hk heq s.tbl.block_count.toNat s.tbl.first_block_num hb
  unfold Insert Insert.run
  rw [if_neg hR, hks]
  simp only [if_pos hpk, hkey, pkCheck, hnoidx, List.length_nil, ne_eq, not_true_eq_false,
    if_false, hscan]

theorem insert_duplicate_primary_key_witness :
    Insert atof0 1 (insertIdName [49] bob) tAlice
        = Outcome.thrown Exception.PrimaryKeyConflict tAlice ∧
      Select atof0 { wheres := [] } tAlice
        = Outcome.done [[{ key_type := 0, length := 4, key := [1, 0, 0, 0] },
            { key_type := 2, length := 8, key := [97, 108, 105, 99, 101, 0, 0, 0] }]] :=
  ⟨insert_duplicate_primary_key atof0 1 (insertIdName [49] bob) tAlice
      [{ key_type := 0, length := 4, key := [1, 0, 0, 0] },
        { key_type := 2, length := 8, key := [98, 111, 98, 0, 0, 0, 0, 0] }]
      0 0 { key_type := 0, length := 4, key := [1, 0, 0, 0] }
      { key_type := 0, length := 4, key := [1, 0, 0, 0] }
      (by decide) (by decide) (by decide) (by decide) (by decide) (by decide) (by decide)
      (by decide),
    rfl⟩

/-- C3 (the code departs from the claim). After `INSERT (1, "alice")`,
`INSERT (2, "bob")` the statement `UPDATE t SET id = 7 WHERE id > 0` returns
and leaves two live records with the primary-key value 7: the check of
`Update` compares the new value with the stored records only. -/
theorem update_duplicates_primary_key :
    Update atof0 updateIdSeven tAliceBob = Outcome.done tUpdated ∧
      Select atof0 { wheres := [] } tUpdated
        = Outcome.done
          [[{ key_type := 0, length := 4, key := [7, 0, 0, 0] },
            { key_type := 2, length := 8, key := [97, 108, 105, 99, 101, 0, 0, 0] }],
           [{ key_type := 0, length := 4, key := [7, 0, 0, 0] },
            { key_type := 2, length := 8, key := [98, 111, 98, 0, 0, 0, 0, 0] }]] :=
  ⟨rfl, rfl⟩

/-- C4 (the code departs from the claim). After `INSERT (1, "alice")` and
`DELETE FROM t WHERE id = 1` block 0 is the head of the free list and still the
head of the live list: `DeleteRecord` does not update `first_block_num`, and the
two walks meet the same block. -/
theorem delete_leaves_head_on_both_lists :
    Delete atof0 deleteIdOne tAlice = Outcome.done tAliceDeleted ∧
      tAliceDeleted.tbl.block_count = 1 ∧
      walk tAliceDeleted 2 tAliceDeleted.tbl.first_block_num = [0] ∧
      walk tAliceDeleted 2 tAliceDeleted.tbl.first_rubbish_num = [0] :=
  ⟨rfl, by decide, by decide, by decide⟩

/-- C5 (the code departs from the claim). In the table `u` after the rows 1, 2,
3 and `DELETE FROM u WHERE id < 3` the live list is block 1 with one record, the
free list is block 0 with none, and `block_count` is 2 (I1 to I3 hold); the
scan of `Select`, bounded by `block_count` and not by the end of the list,
dereferences the `NULL` block after block 1. -/
theorem select_undefined_with_free_block :
    Delete atof0 deleteIdBelowThree uThree = Outcome.done uDeletedBelowThree ∧
      uDeletedBelowThree.tbl.block_count = 2 ∧
      walk uDeletedBelowThree 3 uDeletedBelowThree.tbl.first_block_num = [1] ∧
      walk uDeletedBelowThree 3 uDeletedBelowThree.tbl.first_rubbish_num = [0] ∧
      (uDeletedBelowThree.blocks 1).count = 1 ∧
      (uDeletedBelowThree.blocks 1).prev = -1 ∧
      (uDeletedBelowThree.blocks 0).count = 0 ∧
      (uDeletedBelowThree.blocks 0).prev = -1 ∧
      Select atof0 { wheres := [] } uDeletedBelowThree = Outcome.undefined :=
  ⟨rfl, by decide, by decide, by decide, by decide, by decide, by decide, by decide, rfl⟩

/-- C6 (the code departs from the claim). In the table `w` reached by the
inserts of the rows 1, 2, 3, row 3 is alone in the head block 1 and block 0
follows; `DELETE FROM w WHERE id = 3` empties block 1, goes on from the `next`
field that `DeleteRecord` has just set to -1, and dereferences the `NULL`
block: the statement does not complete. -/
theorem delete_by_primary_key_undefined :
    InsertReachable atof0 emptyPkPad wThree ∧
      at? (slotKeys wThree 1 0) 0 = some { key_type := 0, length := 4, key := [3, 0, 0, 0] } ∧
      walk wThree 3 wThree.tbl.first_block_num = [1, 0] ∧
      (wThree.blocks 1).count = 1 ∧
      Delete atof0 deleteIdThree wThree = Outcome.undefined :=
  ⟨InsertReachable.step 3 (insertIdPad [51])
      (InsertReachable.step 3 (insertIdPad [50])
        (InsertReachable.step 3 (insertIdPad [49]) InsertReachable.init rfl) rfl) rfl,
    by decide, by decide, by decide, rfl⟩

/-- C7 (the code departs from the claim). With the rows 1, 2, 3 in one block,
`DELETE FROM t WHERE id <> 2` returns and leaves the single live record
(3, "carol"): the record moved into a freed slot is not examined, and the
stale copy in its old slot makes the loop delete once more, so row 2, which
fails the predicate, is removed and row 3, which satisfies it, stays. -/
theorem delete_removes_wrong_record :
    Delete atof0 deleteIdNotTwo tAliceBobCarol = Outcome.done tDeletedNotTwo ∧
      Select atof0 { wheres := [] } tAliceBobCarol
        = Outcome.done
          [[{ key_type := 0, length := 4, key := [1, 0, 0, 0] },
            { key_type := 2, length := 8, key := [97, 108, 105, 99, 101, 0, 0, 0] }],
           [{ key_type := 0, length := 4, key := [2, 0, 0, 0] },
            { key_type := 2, length := 8, key := [98, 111, 98, 0, 0, 0, 0, 0] }],
           [{ key_type := 0, length := 4, key := [3, 0, 0, 0] },
            { key_type := 2, length := 8, key := [99, 97, 114, 111, 108, 0, 0, 0] }]] ∧
      Select atof0 { wheres := [] } tDeletedNotTwo
        = Outcome.done
          [[{ key_type := 0, length := 4, key := [3, 0, 0, 0] },
            { key_type := 2, length := 8, key := [99, 97, 114, 111, 108, 0, 0, 0] }]] :=
  ⟨rfl, rfl, rfl⟩

/-- C8. From the empty table with no index and `1 ≤ record_length ≤ 4084`,
after `n` statements `Insert` that returned and no other statement,
`block_count` is the ceiling of `n` over `floor((4096 - 12) / record_length)`;
so one row more than a block takes gives at least two blocks, and 682 rows of
12 bytes give three blocks. -/
theorem block_count_after_inserts (atof : List Byte → Nat) (s0 s : DB) (n : Nat)
    (hempty : s0.isEmptyTable) (hnoidx : s0.tbl.ids = [])
    (hR1 : 1 ≤ s0.tbl.record_length) (hR2 : s0.tbl.record_length ≤ 4084)
    (hrun : InsertsN atof s0 n s) :
    s.tbl.block_count
        = ((n : Int) + ((4096 - 12) / s0.tbl.record_length - 1))
          / ((4096 - 12) / s0.tbl.record_length) ∧
      ((n : Int) = (4096 - 12) / s0.tbl.record_length + 1 → 2 ≤ s.tbl.block_count) ∧
      (s0.tbl.record_length = 12 → n = 682 → s.tbl.block_count = 3) := by
  obtain ⟨hs, hf, hr⟩ := InsertsN_invariant hempty hnoidx hR1 hR2 hrun
  have hR1s : 1 ≤ s.tbl.record_length := by rw [hr]; exact hR1
  have hmax : 1 ≤ s.tbl.max_count := Table.max_count_pos hR1s (by rw [hr]; exact hR2)
  have hbc := InsertFill_block_count hs hf hmax
  have hm : s.tbl.max_count = (4096 - 12) / s0.tbl.record_length := by
    rw [Table.max_count_eq hR1s, hr]; norm_num
  rw [hm] at hbc hmax
  refine ⟨hbc, ?_, ?_⟩
  · intro hn
    rw [hbc, hn]
    have e : (4096 - 12) / s0.tbl.record_length + 1 + ((4096 - 12) / s0.tbl.record_length - 1)
        = 0 + 2 * ((4096 - 12) / s0.tbl.record_length) := by ring
    rw [e, Int.add_mul_ediv_right _ _ (by omega)]
    simp
  · intro h12 hn
    rw [hbc, h12, hn]
    decide

theorem block_count_after_inserts_witness :
    tAliceBob.tbl.block_count
      = (((2 : Nat) : Int) + ((4096 - 12) / emptyIdName.tbl.record_length - 1))
        / ((4096 - 12) / emptyIdName.tbl.record_length) :=
  (block_count_after_inserts atof0 emptyIdName tAliceBob 2 (by decide) (by decide) (by decide)
    (by decide)
    (InsertsN.succ 2 (insertIdName [50] bob)
      (InsertsN.succ 1 (insertIdName [49] alice) InsertsN.zero rfl) rfl)).1

theorem asInt_int32Bytes (x : Int) (h1 : -2147483648 ≤ x) (h2 : x < 2147483648) :
    asInt (int32Bytes x) = x := by
  unfold asInt word32 int32Bytes
  simp only [List.getD_cons_zero, List.getD_cons_succ]
  have hu : (((x % 4294967296).toNat : Nat) : Int) = x % 4294967296 :=
    Int.toNat_of_nonneg (Int.emod_nonneg _ (by norm_num))
  generalize (x % 4294967296).toNat = u at hu
  split <;> omega

/-- C16. For keys `a` and `b` whose buffers hold the 32-bit signed integers `x`
and `y`, `b` being of type int, the six operators of TKey agree with the
comparison of `x` and `y`. -/
theorem int_key_operators (a b : TKey) (x y : Int)
    (hx1 : -2147483648 ≤ x) (hx2 : x < 2147483648)
    (hy1 : -2147483648 ≤ y) (hy2 : y < 2147483648)
    (hb : b.key_type = T_INT) (hak : a.key = int32Bytes x) (hbk : b.key = int32Bytes y) :
    (a.lt b = true ↔ x < y) ∧ (a.gt b = true ↔ x > y) ∧ (a.le b = true ↔ x ≤ y) ∧
      (a.ge b = true ↔ x ≥ y) ∧ (a.eq b = true ↔ x = y) ∧ (a.ne b = true ↔ x ≠ y) := by
  have ha := asInt_int32Bytes x hx1 hx2
  have hb' := asInt_int32Bytes y hy1 hy2
  have hb0 : b.key_type = 0 := hb
  simp only [TKey.lt, TKey.gt, TKey.le, TKey.ge, TKey.eq, TKey.ne, hb0, hak, hbk, ha, hb',
    if_true, decide_eq_true_eq, Bool.not_eq_true', decide_eq_false_iff_not]
  refine ⟨?_, ?_, ?_, ?_, ?_, ?_⟩ <;> first | trivial | omega

theorem int_key_operators_witness :
    ((intKey (-5)).lt (intKey 3) = true ↔ (-5 : Int) < 3) ∧
      ((intKey (-5)).eq (intKey 3) = true ↔ (-5 : Int) = 3) :=
  have h := int_key_operators (intKey (-5)) (intKey 3) (-5) 3 (by decide) (by decide)
    (by decide) (by decide) rfl rfl rfl
  ⟨h.1, h.2.2.2.2.1⟩

/-- What `strncmp` computes on two buffers of `n` bytes: the comparison of the
C strings they hold. -/
theorem strncmp_cString :
    ∀ (n : Nat) (a b : List Nat), a.length = n → b.length = n →
      (∀ c ∈ a, c < 256) → (∀ c ∈ b, c < 256) →
      (strncmp a b n = 0 ↔ cString a = cString b) ∧
        (strncmp a b n < 0 ↔ lexLt (cString a) (cString b) = true) := by
  intro n
  induction n with
  | zero =>
    intro a b ha hb _ _
    rw [List.length_eq_zero] at ha hb
    subst ha hb
    simp [strncmp, cString, lexLt]
  | succ n ih =>
    intro a b ha hb hab hbb
    cases a with
    | nil => simp at ha
    | cons x a1 =>
      cases b with
      | nil => simp at hb
      | cons y b1 =>
        have hx : x < 256 := hab x (List.mem_cons_self _ _)
        have hy : y < 256 := hbb y (List.mem_cons_self _ _)
        have hxm : x % 256 = x := Nat.mod_eq_of_lt hx
        have hym : y % 256 = y := Nat.mod_eq_of_lt hy
        have iha := ih a1 b1 (by simpa using ha) (by simpa using hb)
          (fun c hc => hab c (List.mem_cons_of_mem _ hc))
          (fun c hc => hbb c (List.mem_cons_of_mem _ hc))
        simp only [strncmp, List.headD_cons, List.tail_cons, hxm, hym]
        by_cases hxy : x = y
        · subst hxy
          simp only [ne_eq, not_true_eq_false, if_false]
          by_cases hx0 : x = 0
          · subst hx0
            simp [cString, lexLt]
          · rw [if_neg hx0]
            have e : cString (x :: a1) = x :: cString a1 := by
              simp [cString, List.takeWhile_cons, hx0]
            have e2 : cString (x :: b1) = x :: cString b1 := by
              simp [cString, List.takeWhile_cons, hx0]
            rw [e, e2]
            simp only [lexLt, List.cons.injEq, true_and, lt_self_iff_false, decide_False,
              decide_True, Bool.true_and, Bool.false_or]
            exact iha
        · rw [if_pos hxy]
          have hxy1 : (x : Int) - (y : Int) ≠ 0 := by omega
          by_cases hx0 : x = 0
          · subst hx0
            have hy0 : y ≠ 0 := fun h => hxy h.symm
            have e : cString (0 :: a1) = [] := by simp [cString]
            have e2 : cString (y :: b1) = y :: cString b1 := by
              simp [cString, List.takeWhile_cons, hy0]
            rw [e, e2]
            refine ⟨⟨fun h => absurd h hxy1, fun h => by cases h⟩, ⟨fun _ => rfl, fun _ => ?_⟩⟩
            have : 0 < y := Nat.pos_of_ne_zero hy0
            push_cast
            omega
          · by_cases hy0 : y = 0
            · subst hy0
              have e : cString (x :: a1) = x :: cString a1 := by
                simp [cString, List.takeWhile_cons, hx0]
              have e2 : cString (0 :: b1) = [] := by simp [cString]
              rw [e, e2]
              refine ⟨⟨fun h => absurd h hxy1, fun h => by cases h⟩,
                ⟨fun h => ?_, fun h => by simp [lexLt] at h⟩⟩
              push_cast at h
              omega
            · have e : cString (x :: a1) = x :: cString a1 := by
                simp [cString, List.takeWhile_cons, hx0]
              have e2 : cString (y :: b1) = y :: cString b1 := by
                simp [cString, List.takeWhile_cons, hy0]
              rw [e, e2]
              refine ⟨⟨fun h => absurd h hxy1, fun h => ?_⟩, ⟨fun h => ?_, fun h => ?_⟩⟩
              · simp only [List.cons.injEq] at h
                exact absurd h.1 hxy
              · have hlt : x < y := by omega
                simp [lexLt, hlt]
              · simp only [lexLt, Bool.or_eq_true, Bool.and_eq_true, decide_eq_true_eq] at h
                rcases h with h | h
                · have h1 : (x : Nat) < (y : Nat) := h
                  omega
                · exact absurd h.1 hxy

/-- C17, as the code has it. For a key `b` of type char and a key `a`, both
holding `L` bytes, `a == b` holds exactly when the C strings in the two buffers
are equal, and `a < b` exactly when the C string of `a` precedes that of `b` in
bytewise lexicographic order: the bytes up to the first zero byte decide, the
bytes after it are not compared. -/
theorem char_key_compare (a b : TKey)
    (hb : b.key_type = T_CHAR) (hal : a.key.length = a.length) (hbl : b.key.length = a.length)
    (hab : ∀ c ∈ a.key, c < 256) (hbb : ∀ c ∈ b.key, c < 256) :
    (a.eq b = true ↔ cString a.key = cString b.key) ∧
      (a.lt b = true ↔ lexLt (cString a.key) (cString b.key) = true) := by
  have hb2 : b.key_type = 2 := hb
  have h := strncmp_cString a.length a.key b.key hal hbl hab hbb
  simp only [TKey.eq, TKey.lt, hb2]
  simp only [show ¬ ((2 : Int) = 0) by decide, show ¬ ((2 : Int) = 1) by decide, if_false,
    if_true, decide_eq_true_eq]
  exact h

theorem char_key_compare_witness :
    (charKeyA.eq charKeyB = true ↔ cString charKeyA.key = cString charKeyB.key) ∧
      (charKeyA.lt charKeyB = true ↔
        lexLt (cString charKeyA.key) (cString charKeyB.key) = true) :=
  char_key_compare charKeyA charKeyB rfl (by decide) (by decide) (by decide) (by decide)

/-- C17, as stated, fails: the string "a" converted twice to `char(3)`, with
the bytes 1 and 2 after its terminator, gives two keys that are `==` although
their third bytes differ, and the first is not `<` the second although it
precedes it in the lexicographic order over all three bytes. -/
theorem char_key_compare_stops_at_zero :
    charKeyA.key = [97, 0, 1] ∧ charKeyB.key = [97, 0, 2] ∧
      charKeyA.eq charKeyB = true ∧ charKeyA.key ≠ charKeyB.key ∧
      charKeyA.lt charKeyB = false ∧ lexLt charKeyA.key charKeyB.key = true := by
  decide

/-! ## The locator of a record -/

theorem ldiff_low16 (m : Nat) : Nat.ldiff 65535 m = 65535 - m % 65536 := by
  apply Nat.eq_of_testBit_eq
  intro i
  have h1 : (65535 : Nat) = 2 ^ 16 - 1 := by norm_num
  have h2 : 65535 - m % 65536 = 2 ^ 16 - (m % 2 ^ 16 + 1) := by
    have : m % 65536 < 65536 := Nat.mod_lt _ (by norm_num)
    norm_num
    omega
  rw [Nat.testBit_ldiff, h2, Nat.testBit_two_pow_sub_succ (Nat.mod_lt _ (by norm_num)),
    Nat.testBit_mod_two_pow, h1, Nat.testBit_two_pow_sub_one]
  by_cases hi : i < 16 <;> simp [hi]

/-- The mask `v & 0xffff` is the remainder of `v` modulo 65536, for a negative
`v` as well. -/
theorem land_low16 (v : Int) : Int.land v 65535 = v % 65536 := by
  cases v with
  | ofNat m =>
    have h : Int.land (Int.ofNat m) 65535 = ((m &&& 65535 : Nat) : Int) := rfl
    rw [h]
    have := Nat.and_pow_two_sub_one_eq_mod m 16
    norm_num at this
    rw [this]
    simp
  | negSucc m =>
    have h : Int.land (Int.negSucc m) 65535 = ((Nat.ldiff 65535 m : Nat) : Int) := rfl
    rw [h, ldiff_low16]
    have hm : m % 65536 < 65536 := Nat.mod_lt _ (by norm_num)
    rw [Int.negSucc_eq]
    omega

theorem lor_shifted (b o : Nat) (ho : o < 65536) :
    Int.lor ((b : Int) * 65536) (o : Int) = (b : Int) * 65536 + (o : Int) := by
  have h : Int.lor ((b : Int) * 65536) (o : Int) = (((b * 65536) ||| o : Nat) : Int) := rfl
  rw [h]
  have := @Nat.mul_add_lt_is_or 16 o (by norm_num; exact ho) b
  norm_num at this
  rw [Nat.mul_comm b 65536, ← this]
  push_cast
  ring

/-- C19. For a block number and an offset in `[0, 65536)`, the locator
`(block << 16) | offset`, a 32-bit signed integer, decodes as `Select` and
`Delete` decode it: `(v >> 16) & 0xffff` is the block and `v & 0xffff` the
offset. -/
theorem locator_roundtrip (block offset : Int)
    (hb0 : 0 ≤ block) (hb1 : block < 65536) (ho0 : 0 ≤ offset) (ho1 : offset < 65536) :
    locatorBlock (locator block offset) = block ∧
      locatorOffset (locator block offset) = offset := by
  obtain ⟨b, rfl⟩ := Int.eq_ofNat_of_zero_le hb0
  obtain ⟨o, rfl⟩ := Int.eq_ofNat_of_zero_le ho0
  unfold locatorBlock locatorOffset locator
  rw [land_low16, land_low16, lor_shifted b o (by omega)]
  have hs : ∀ v : Int, Int.shiftRight v 16 = v / 65536 := by
    intro v
    have := Int.shiftRight_eq_div_pow v 16
    norm_num at this
    exact this
  rw [hs]
  constructor <;> omega

theorem locator_roundtrip_witness :
    locatorBlock (locator 40000 7) = 40000 ∧ locatorOffset (locator 40000 7) = 7 :=
  locator_roundtrip 40000 7 (by decide) (by decide) (by decide) (by decide)

/-! ## SatisfyWhere -/

theorem lastIdx_none {α : Type} (p : α → Bool) :
    ∀ (l : List α) (i acc : Int), (∀ a ∈ l, p a = false) → lastIdx p l i acc = acc := by
  intro l
  induction l with
  | nil => intro i acc _; rfl
  | cons a as ih =>
    intro i acc h
    simp only [lastIdx]
    rw [h a (List.mem_cons_self _ _)]
    simp only [Bool.false_eq_true, if_false]
    exact ih _ _ (fun x hx => h x (List.mem_cons_of_mem _ hx))

/-- The loop `for (i...) if (p(v[i])) idx = i;` leaves in `idx` the position of
the last element that satisfies `p`, when there is one. -/
theorem lastIdx_some {α : Type} (p : α → Bool) :
    ∀ (l : List α) (i acc : Int), (∃ a ∈ l, p a = true) →
      ∃ k : Nat, k < l.length ∧ lastIdx p l i acc = i + (k : Int) ∧
        (∃ a, l[k]? = some a ∧ p a = true) ∧
        ∀ (j : Nat) (b : α), k < j → l[j]? = some b → p b = false := by
  intro l
  induction l with
  | nil => intro i acc h; obtain ⟨a, ha, _⟩ := h; cases ha
  | cons a as ih =>
    intro i acc h
    simp only [lastIdx]
    by_cases hex : ∃ b ∈ as, p b = true
    · obtain ⟨k, hk, hr, hsat, hlast⟩ := ih (i + 1) (if p a = true then i else acc) hex
      refine ⟨k + 1, by simp; omega, ?_, ?_, ?_⟩
      · rw [hr]; push_cast; ring
      · simpa using hsat
      · intro j b hj hb
        obtain ⟨j', rfl⟩ : ∃ j', j = j' + 1 := ⟨j - 1, by omega⟩
        simp only [List.getElem?_cons_succ] at hb
        exact hlast j' b (by omega) hb
    · have hnone : ∀ b ∈ as, p b = false := by
        intro b hb
        by_contra hc
        exact hex ⟨b, hb, by simpa using hc⟩
      have hpa : p a = true := by
        obtain ⟨b, hb, hpb⟩ := h
        rcases List.mem_cons.mp hb with h1 | h1
        · rw [← h1]; exact hpb
        · rw [hnone b h1] at hpb; cases hpb
      rw [lastIdx_none p as _ _ hnone, if_pos hpa]
      refine ⟨0, by simp, by simp, ⟨a, by simp, hpa⟩, ?_⟩
      intro j b hj hb
      obtain ⟨j', rfl⟩ : ∃ j', j = j' + 1 := ⟨j - 1, by omega⟩
      simp only [List.getElem?_cons_succ] at hb
      exact hnone b (List.getElem?_mem hb)

/-- C18. For a record of the table (one key per attribute) and a predicate
whose key names an attribute, `SatisfyWhere` takes the last attribute `a` of
that name, at position `i`, converts the value of the predicate to a key `tmp`
of the type of `a` and of its length (4 bytes unless the type is char), and
returns the comparison of the key `k` at position `i` of the record with `tmp`
that `sign_type` selects: 0 is `==`, 1 is `!=`, 2 is `<`, 3 is `>`, 4 is `<=`,
5 is `>=`; for any other `sign_type` it returns false. -/
theorem SatisfyWhere_spec (atof : List Byte → Nat) (tbl : Table) (keys : List TKey)
    (w : SQLWhere) (hlen : keys.length = tbl.ats.length)
    (hname : ∃ a ∈ tbl.ats, a.attr_name = w.key) :
    ∃ (i : Nat) (a : Attribute) (k tmp : TKey),
      tbl.ats[i]? = some a ∧ a.attr_name = w.key ∧
      (∀ (j : Nat) (b : Attribute), i < j → tbl.ats[j]? = some b → b.attr_name ≠ w.key) ∧
      keys[i]? = some k ∧
      tmp = (TKey.new a.data_type a.length).ReadValue atof w.value ∧
      tmp.key_type = a.data_type ∧
      tmp.length = (if a.data_type = T_CHAR then a.length else 4) ∧
      (w.sign_type = SIGN_EQ → SatisfyWhere atof tbl keys w = some (k.eq tmp)) ∧
      (w.sign_type = SIGN_NE → SatisfyWhere atof tbl keys w = some (k.ne tmp)) ∧
      (w.sign_type = SIGN_LT → SatisfyWhere atof tbl keys w = some (k.lt tmp)) ∧
      (w.sign_type = SIGN_GT → SatisfyWhere atof tbl keys w = some (k.gt tmp)) ∧
      (w.sign_type = SIGN_LE → SatisfyWhere atof tbl keys w = some (k.le tmp)) ∧
      (w.sign_type = SIGN_GE → SatisfyWhere atof tbl keys w = some (k.ge tmp)) ∧
      ((w.sign_type < 0 ∨ 5 < w.sign_type) → SatisfyWhere atof tbl keys w = some false) := by
  have hex : ∃ a ∈ tbl.ats, (fun a : Attribute => a.attr_name == w.key) a = true := by
    obtain ⟨a, ha, hn⟩ := hname
    exact ⟨a, ha, by simp [hn]⟩
  obtain ⟨i, hi, hr, ⟨a, hai, hpa⟩, hlast⟩ :=
    lastIdx_some (fun a : Attribute => a.attr_name == w.key) tbl.ats 0 (-1) hex
  have hk : i < keys.length := by rw [hlen]; exact hi
  have hidx : lastIdx (fun a : Attribute => a.attr_name == w.key) tbl.ats 0 (-1) = (i : Int) := by
    rw [hr]; simp
  have hat : at? tbl.ats (i : Int) = some a := by
    rw [at?_eq_getElem? _ _ (by omega)]; simpa using hai
  have hkt : at? keys (i : Int) = some keys[i] := by
    rw [at?_eq_getElem? _ _ (by omega)]
    simp [List.getElem?_eq_getElem hk]
  refine ⟨i, a, keys[i], (TKey.new a.data_type a.length).ReadValue atof w.value, hai,
    by simpa using hpa, ?_, List.getElem?_eq_getElem hk, rfl,
    TKey.ReadValue_key_type _ _ _ _, TKey.ReadValue_length _ _ _ _, ?_, ?_, ?_, ?_, ?_, ?_, ?_⟩
  · intro j b hj hb hn
    have := hlast j b hj hb
    simp [hn] at this
  all_goals
    intro hs
    simp only [SatisfyWhere, hidx, hat, hkt, SIGN_EQ, SIGN_NE, SIGN_LT, SIGN_GT, SIGN_LE,
      SIGN_GE] at hs ⊢
    first
      | (rw [hs]; rfl)
      | (rw [if_neg (by omega), if_neg (by omega), if_neg (by omega), if_neg (by omega),
          if_neg (by omega), if_neg (by omega)])

theorem SatisfyWhere_spec_witness :
    ∃ (i : Nat) (a : Attribute) (k tmp : TKey),
      emptyIdName.tbl.ats[i]? = some a ∧ a.attr_name = whereIdLeOne.key ∧
      (∀ (j : Nat) (b : Attribute), i < j → emptyIdName.tbl.ats[j]? = some b →
        b.attr_name ≠ whereIdLeOne.key) ∧
      rowAlice[i]? = some k ∧
      tmp = (TKey.new a.data_type a.length).ReadValue atof0 whereIdLeOne.value ∧
      tmp.key_type = a.data_type ∧
      tmp.length = (if a.data_type = T_CHAR then a.length else 4) ∧
      (whereIdLeOne.sign_type = SIGN_EQ →
        SatisfyWhere atof0 emptyIdName.tbl rowAlice whereIdLeOne = some (k.eq tmp)) ∧
      (whereIdLeOne.sign_type = SIGN_NE →
        SatisfyWhere atof0 emptyIdName.tbl rowAlice whereIdLeOne = some (k.ne tmp)) ∧
      (whereIdLeOne.sign_type = SIGN_LT →
        SatisfyWhere atof0 emptyIdName.tbl rowAlice whereIdLeOne = some (k.lt tmp)) ∧
      (whereIdLeOne.sign_type = SIGN_GT →
        SatisfyWhere atof0 emptyIdName.tbl rowAlice whereIdLeOne = some (k.gt tmp)) ∧
      (whereIdLeOne.sign_type = SIGN_LE →
        SatisfyWhere atof0 emptyIdName.tbl rowAlice whereIdLeOne = some (k.le tmp)) ∧
      (whereIdLeOne.sign_type = SIGN_GE →
        SatisfyWhere atof0 emptyIdName.tbl rowAlice whereIdLeOne = some (k.ge tmp)) ∧
      ((whereIdLeOne.sign_type < 0 ∨ 5 < whereIdLeOne.sign_type) →
        SatisfyWhere atof0 emptyIdName.tbl rowAlice whereIdLeOne = some false) :=
  SatisfyWhere_spec atof0 emptyIdName.tbl rowAlice whereIdLeOne (by decide)
    ⟨{ attr_name := "id", data_type := 0, length := 4, attr_type := 1 }, by decide, by decide⟩

/-! ## Update and the primary key; block_count -/

/-- C13. On a table with no index, a statement `Update` one of whose
assignments targets the primary key (`affect_index` is set) with a new value
equal (operator `==`) to the primary-key value of a live record (slot `j` below
the record count of a block `b` of the live list) throws `PrimaryKeyConflict`
in the very state it started from: no record, no block and no field of the
table has changed. -/
theorem update_duplicate_primary_key (atof : List Byte → Nat) (st : SQLUpdate) (s : DB)
    (indices : List Int) (values : List TKey) (affect_index : Int)
    (b : Int) (j : Nat) (key k : TKey)
    (hnoidx : s.tbl.ids = [])
    (hassign : Update.assignments atof s.tbl
        (lastIdx (fun a => decide (a.attr_type = 1)) s.tbl.ats 0 (-1)) st.keyvalues 0 (-1)
      = some (indices, values, affect_index))
    (hkey : at? values affect_index = some key)
    (hb : b ∈ walk s s.tbl.block_count.toNat s.tbl.first_block_num)
    (hj : (j : Int) < (s.blocks b).count)
    (hk : at? (slotKeys s b j) (lastIdx (fun a => decide (a.attr_type = 1)) s.tbl.ats 0 (-1))
      = some k)
    (heq : k.eq key = true) :
    Update atof st s = Outcome.thrown Exception.PrimaryKeyConflict s := by
  have haff : affect_index ≠ -1 := by
    have := (at?_isSome_iff _ _).mp ⟨key, hkey⟩
    omega
  have hscan := pkScan_conflict hj hk heq s.tbl.block_count.toNat s.tbl.first_block_num hb
  unfold Update
  simp only [hassign, if_pos haff, hkey, pkCheck, hnoidx, List.length_nil, ne_eq,
    not_true_eq_false, if_false, hscan]

theorem update_duplicate_primary_key_witness :
    Update atof0 updateIdTwo tAliceBob
      = Outcome.thrown Exception.PrimaryKeyConflict tAliceBob :=
  update_duplicate_primary_key atof0 updateIdTwo tAliceBob [0]
    [{ key_type := 0, length := 4, key := [2, 0, 0, 0] }] 0 0 1
    { key_type := 0, length := 4, key := [2, 0, 0, 0] }
    { key_type := 0, length := 4, key := [2, 0, 0, 0] }
    (by decide) (by decide) (by decide) (by decide) (by decide) (by decide) (by decide)

theorem DeleteRecord_block_count {s s1 : DB} {block_num offset : Int}
    (h : DeleteRecord s block_num offset = some s1) :
    s1.tbl.block_count = s.tbl.block_count := by
  unfold DeleteRecord at h
  split at h
  · cases h
  · simp only at h
    split at h
    · cases h
      simp only
      split <;> split <;> split <;> rfl
    · cases h
      rfl

theorem Delete.removeKey_tbl {s s1 : DB} {index_idx : Option Nat} {keys : List TKey}
    (h : Delete.removeKey s index_idx keys = some s1) : s1.tbl = s.tbl := by
  unfold Delete.removeKey at h
  split at h
  · cases h
  · split at h
    · cases h
    · simp only at h
      split at h
      · cases h
      · cases h; rfl

theorem Delete_records_block_count (atof : List Byte → Nat) (wheres : List SQLWhere)
    (index_idx : Option Nat) (block_num : Int) :
    ∀ (js : List Nat) (s : DB),
      (∀ s1, Delete.records atof wheres index_idx block_num js s = Outcome.done s1 →
        s1.tbl.block_count = s.tbl.block_count) ∧
      (∀ e s1, Delete.records atof wheres index_idx block_num js s ≠ Outcome.thrown e s1) := by
  intro js
  induction js with
  | nil =>
    intro s
    constructor
    · intro s1 h; simp only [Delete.records] at h; cases h; rfl
    · intro e s1 h; simp only [Delete.records] at h; cases h
  | cons j js ih =>
    intro s
    unfold Delete.records
    split
    · exact ⟨fun _ h => (nomatch h), fun _ _ h => (nomatch h)⟩
    · split
      · exact ⟨fun _ h => (nomatch h), fun _ _ h => (nomatch h)⟩
      · exact ih s
      · split
        · exact ⟨fun _ h => (nomatch h), fun _ _ h => (nomatch h)⟩
        · rename_i s2 hdel
          have h2 := DeleteRecord_block_count hdel
          split
          · split
            · exact ⟨fun _ h => (nomatch h), fun _ _ h => (nomatch h)⟩
            · rename_i s3 hrem
              have h3 := Delete.removeKey_tbl hrem
              refine ⟨fun s1 h => ?_, (ih s3).2⟩
              rw [(ih s3).1 s1 h, h3, h2]
          · refine ⟨fun s1 h => ?_, (ih s2).2⟩
            rw [(ih s2).1 s1 h, h2]

theorem Delete_scan_block_count (atof : List Byte → Nat) (wheres : List SQLWhere)
    (index_idx : Option Nat) :
    ∀ (n : Nat) (block_num : Int) (s : DB),
      (∀ s1, Delete.scan atof wheres index_idx n block_num s = Outcome.done s1 →
        s1.tbl.block_count = s.tbl.block_count) ∧
      (∀ e s1, Delete.scan atof wheres index_idx n block_num s ≠ Outcome.thrown e s1) := by
  intro n
  induction n with
  | zero =>
    intro b s
    constructor
    · intro s1 h; simp only [Delete.scan] at h; cases h; rfl
    · intro e s1 h; simp only [Delete.scan] at h; cases h
  | succ n ih =>
    intro b s
    unfold Delete.scan
    split
    · exact ⟨fun _ h => (nomatch h), fun _ _ h => (nomatch h)⟩
    · rename_i bp _
      have hr := Delete_records_block_count atof wheres index_idx b
        (List.range bp.count.toNat) s
      split
      · rename_i s2 hrec
        refine ⟨fun s1 h => ?_, (ih _ s2).2⟩
        rw [(ih _ s2).1 s1 h, hr.1 s2 hrec]
      · rename_i o hno
        constructor
        · intro s1 h
          exact absurd h (hno s1)
        · intro e s1 h
          exact hr.2 e s1 h

theorem Delete_block_count (atof : List Byte → Nat) (st : SQLDelete) (s : DB) :
    (∀ s1, Delete atof st s = Outcome.done s1 → s1.tbl.block_count = s.tbl.block_count) ∧
      (∀ e s1, Delete atof st s ≠ Outcome.thrown e s1) := by
  unfold Delete
  split
  · exact Delete_scan_block_count atof _ _ _ _ s
  · exact ⟨fun _ h => (nomatch h), fun _ _ h => (nomatch h)⟩
  · split
    · simp only
      split
      · split
        · exact ⟨fun _ h => (nomatch h), fun _ _ h => (nomatch h)⟩
        · split
          · exact ⟨fun _ h => (nomatch h), fun _ _ h => (nomatch h)⟩
          · exact ⟨fun _ h => (by cases h; rfl), fun _ _ h => (nomatch h)⟩
          · split
            · exact ⟨fun _ h => (nomatch h), fun _ _ h => (nomatch h)⟩
            · rename_i s2 hdel
              refine ⟨fun s1 h => ?_, fun _ _ h => (nomatch h)⟩
              cases h
              show s2.tbl.block_count = s.tbl.block_count
              exact DeleteRecord_block_count hdel
      · exact ⟨fun _ h => (by cases h; rfl), fun _ _ h => (nomatch h)⟩
    · exact ⟨fun _ h => (nomatch h), fun _ _ h => (nomatch h)⟩

theorem UpdateRecord_tbl {s s1 : DB} {block_num offset : Int} {indices : List Int}
    {values : List TKey} (h : UpdateRecord s block_num offset indices values = some s1) :
    s1.tbl = s.tbl := by
  unfold UpdateRecord at h
  split at h
  · cases h
  · split at h
    · cases h
    · cases h; rfl

theorem Update_records_block_count (atof : List Byte → Nat) (wheres : List SQLWhere)
    (indices : List Int) (values : List TKey) (block_num : Int) :
    ∀ (js : List Nat) (s : DB),
      (∀ s1, Update.records atof wheres indices values block_num js s = Outcome.done s1 →
        s1.tbl.block_count = s.tbl.block_count) ∧
      (∀ e s1, Update.records atof wheres indices values block_num js s
        ≠ Outcome.thrown e s1) := by
  intro js
  induction js with
  | nil =>
    intro s
    constructor
    · intro s1 h; simp only [Update.records] at h; cases h; rfl
    · intro e s1 h; simp only [Update.records] at h; cases h
  | cons j js ih =>
    intro s
    unfold Update.records
    split
    · exact ⟨fun _ h => (nomatch h), fun _ _ h => (nomatch h)⟩
    · split
      · exact ⟨fun _ h => (nomatch h), fun _ _ h => (nomatch h)⟩
      · exact ih s
      · split
        · split
          · exact ⟨fun _ h => (nomatch h), fun _ _ h => (nomatch h)⟩
          · simp only
            split
            · exact ⟨fun _ h => (nomatch h), fun _ _ h => (nomatch h)⟩
            · rename_i s2 hup
              have h2 := UpdateRecord_tbl hup
              split
              · exact ⟨fun _ h => (nomatch h), fun _ _ h => (nomatch h)⟩
              · split
                · exact ⟨fun _ h => (nomatch h), fun _ _ h => (nomatch h)⟩
                · refine ⟨fun s1 h => ?_, (ih _).2⟩
                  rw [(ih _).1 s1 h]
                  show s2.tbl.block_count = s.tbl.block_count
                  rw [h2]
                  rfl
        · split
          · exact ⟨fun _ h => (nomatch h), fun _ _ h => (nomatch h)⟩
          · rename_i s2 hup
            have h2 := UpdateRecord_tbl hup
            refine ⟨fun s1 h => ?_, (ih s2).2⟩
            rw [(ih s2).1 s1 h, h2]

theorem Update_scan_block_count (atof : List Byte → Nat) (wheres : List SQLWhere)
    (indices : List Int) (values : List TKey) :
    ∀ (n : Nat) (block_num : Int) (s : DB),
      (∀ s1, Update.scan atof wheres indices values n block_num s = Outcome.done s1 →
        s1.tbl.block_count = s.tbl.block_count) ∧
      (∀ e s1, Update.scan atof wheres indices values n block_num s ≠ Outcome.thrown e s1) := by
  intro n
  induction n with
  | zero =>
    intro b s
    constructor
    · intro s1 h; simp only [Update.scan] at h; cases h; rfl
    · intro e s1 h; simp only [Update.scan] at h; cases h
  | succ n ih =>
    intro b s
    unfold Update.scan
    split
    · exact ⟨fun _ h => (nomatch h), fun _ _ h => (nomatch h)⟩
    · rename_i bp _
      have hr := Update_records_block_count atof wheres indices values b
        (List.range bp.count.toNat) s
      split
      · rename_i s2 hrec
        refine ⟨fun s1 h => ?_, (ih _ s2).2⟩
        rw [(ih _ s2).1 s1 h, hr.1 s2 hrec]
      · rename_i o hno
        constructor
        · intro s1 h
          exact absurd h (hno s1)
        · intro e s1 h
          exact hr.2 e s1 h

theorem pkScan_thrown {s : DB} {pk : Int} {key : TKey} :
    ∀ (n : Nat) (b : Int) (e : Exception) (s1 : DB),
      pkScan s pk key n b = Outcome.thrown e s1 →
      e = Exception.PrimaryKeyConflict ∧ s1 = s := by
  intro n
  induction n with
  | zero => intro b e s1 h; simp [pkScan] at h
  | succ n ih =>
    intro b e s1 h
    unfold pkScan at h
    split at h
    · cases h
    · split at h
      · cases h
      · cases h; exact ⟨rfl, rfl⟩
      · exact ih _ e s1 h

theorem pkCheck_thrown {s s1 : DB} {pk : Int} {key : Option TKey} {e : Exception}
    (h : pkCheck s pk key = Outcome.thrown e s1) :
    e = Exception.PrimaryKeyConflict ∧ s1 = s := by
  unfold pkCheck at h
  split at h
  · cases h
  · split at h
    · split at h
      · cases h; exact ⟨rfl, rfl⟩
      · cases h
    · exact pkScan_thrown _ _ e s1 h

theorem Update_block_count (atof : List Byte → Nat) (st : SQLUpdate) (s : DB) :
    (∀ s1, Update atof st s = Outcome.done s1 → s1.tbl.block_count = s.tbl.block_count) ∧
      (∀ e s1, Update atof st s = Outcome.thrown e s1 →
        e = Exception.PrimaryKeyConflict ∧ s1 = s) := by
  unfold Update
  simp only
  split
  · exact ⟨fun _ h => (nomatch h), fun _ _ h => (nomatch h)⟩
  · split
    · rename_i e0 s0 hc
      refine ⟨fun _ h => (nomatch h), fun e s1 h => ?_⟩
      cases h
      split at hc
      · exact pkCheck_thrown hc
      · cases hc
    · exact ⟨fun _ h => (nomatch h), fun _ _ h => (nomatch h)⟩
    · exact ⟨fun _ h => (nomatch h), fun _ _ h => (nomatch h)⟩
    · rename_i indices values _ _ _ _ _
      have := Update_scan_block_count atof st.wheres indices values s.tbl.block_count.toNat
        s.tbl.first_block_num s
      exact ⟨this.1, fun e s1 h => absurd h (this.2 e s1)⟩

theorem Insert.place_ne_thrown (fuel : Nat) (ks : List TKey) (s : DB) (e : Exception)
    (s1 : DB) : Insert.place fuel ks s ≠ Outcome.thrown e s1 := by
  intro h
  unfold Insert.place at h
  simp only at h
  split at h
  · cases h
  · cases h
  · split at h
    · split at h <;> cases h
    · split at h <;> cases h

theorem Insert.updateIndex_ne_thrown (nameOf : Index → String) (ks : List TKey) (b o : Int)
    (s : DB) (e : Exception) (s1 : DB) :
    Insert.updateIndex nameOf ks b o s ≠ Outcome.thrown e s1 := by
  intro h
  unfold Insert.updateIndex at h
  split at h
  · split at h <;> cases h
  · cases h

/-- On the table its lookup has found, a statement `Insert` throws nothing but
`PrimaryKeyConflict`, out of its primary-key check, and then the state is the
one it started from. -/
theorem Insert_thrown {atof : List Byte → Nat} {fuel : Nat} {st : SQLInsert} {s s1 : DB}
    {e : Exception} (h : Insert atof fuel st s = Outcome.thrown e s1) :
    e = Exception.PrimaryKeyConflict ∧ s1 = s ∧ Insert.pk_index st s.tbl ≠ -1 := by
  unfold Insert at h
  split at h
  · cases h
  · rename_i e0 s0 hrun
    cases h
    unfold Insert.run at hrun
    split at hrun
    · cases hrun
    · split at hrun
      · cases hrun
      · simp only at hrun
        split at hrun
        · rename_i e1 s2 hc
          cases hrun
          split at hc
          · rename_i hpk
            have := pkCheck_thrown hc
            exact ⟨this.1, this.2, hpk⟩
          · cases hc
        · cases hrun
        · cases hrun
        · split at hrun
          · rename_i hp
            exact absurd hp (Insert.place_ne_thrown _ _ _ _ _)
          · cases hrun
          · cases hrun
          · split at hrun
            · cases hrun
            · rename_i hu
              exact absurd hu (Insert.updateIndex_ne_thrown _ _ _ _ _ _ _)
            · cases hrun
            · cases hrun
  · cases h
  · cases h

theorem Insert_block_count {atof : List Byte → Nat} {fuel : Nat} {st : SQLInsert} {s s1 : DB}
    (h : Insert atof fuel st s = Outcome.done s1) :
    s1.tbl.block_count = s.tbl.block_count ∨ s1.tbl.block_count = s.tbl.block_count + 1 := by
  obtain ⟨blocknum, offset, hrun⟩ := Insert_done h
  obtain ⟨_, ks, _, _, s2, first, hplace, htbl, _⟩ := Insert.run_done hrun
  rw [htbl]
  rcases Insert.place_done hplace with ⟨_, h2, _⟩ | ⟨lastub, _, _, _, h2, _⟩ | ⟨lastub, _, _, _, h2, _⟩
  · subst h2; left; rfl
  · subst h2; left; rfl
  · subst h2; right; exact (Insert.intoNew_tbl ks s).1

/-- C15. `block_count` never decreases. A statement `Delete` or `Update` that
returns leaves `block_count` as it was; `Delete` throws nothing and `Update`
throws only in the state it started from; a statement `Insert` that returns
leaves `block_count` unchanged or exactly one higher, and a failing `Insert`
leaves the whole state, `block_count` included, as it was. `Select` calls no
setter of the table and writes no block: it maps a state to rows only. -/
theorem block_count_never_decreases (atof : List Byte → Nat) (fuel : Nat) (s : DB) :
    (∀ st s1, Delete atof st s = Outcome.done s1 → s1.tbl.block_count = s.tbl.block_count) ∧
    (∀ st e s1, Delete atof st s ≠ Outcome.thrown e s1) ∧
    (∀ st s1, Update atof st s = Outcome.done s1 → s1.tbl.block_count = s.tbl.block_count) ∧
    (∀ st e s1, Update atof st s = Outcome.thrown e s1 → s1 = s) ∧
    (∀ st s1, Insert atof fuel st s = Outcome.done s1 →
      s1.tbl.block_count = s.tbl.block_count ∨
        s1.tbl.block_count = s.tbl.block_count + 1) ∧
    (∀ st e s1, Insert atof fuel st s = Outcome.thrown e s1 → s1 = s) :=
  ⟨fun st => (Delete_block_count atof st s).1,
    fun st => (Delete_block_count atof st s).2,
    fun st => (Update_block_count atof st s).1,
    fun st e s1 h => ((Update_block_count atof st s).2 e s1 h).2,
    fun _ _ h => Insert_block_count h,
    fun _ _ _ h => (Insert_thrown h).2.1⟩

theorem block_count_never_decreases_witness :
    (tAlice.tbl.block_count = emptyIdName.tbl.block_count ∨
      tAlice.tbl.block_count = emptyIdName.tbl.block_count + 1) ∧
    (tAliceBob.tbl.block_count = tAlice.tbl.block_count ∨
      tAliceBob.tbl.block_count = tAlice.tbl.block_count + 1) ∧
    tAliceDeleted.tbl.block_count = tAlice.tbl.block_count ∧
    tUpdated.tbl.block_count = tAliceBob.tbl.block_count :=
  ⟨(block_count_never_decreases atof0 1 emptyIdName).2.2.2.2.1 (insertIdName [49] alice)
      tAlice rfl,
    (block_count_never_decreases atof0 2 tAlice).2.2.2.2.1 (insertIdName [50] bob)
      tAliceBob rfl,
    (block_count_never_decreases atof0 1 tAlice).1 deleteIdOne tAliceDeleted rfl,
    (block_count_never_decreases atof0 1 tAliceBob).2.2.1 updateIdSeven tUpdated rfl⟩


/-! ## Placement in a block of the free list, and in a new block -/

theorem chainFrom_walk {s : DB} : ∀ (l : List Int) (b : Int), chainFrom s b l →
    ∀ n, l.length ≤ n → walk s n b = l := by
  intro l
  induction l with
  | nil =>
    intro b h n _
    simp only [chainFrom] at h
    subst h
    cases n <;> simp [walk]
  | cons x l ih =>
    intro b h n hn
    obtain ⟨hb, hx, hl⟩ := h
    subst hx
    obtain ⟨m, rfl⟩ : ∃ m, n = m + 1 := ⟨n - 1, by simp only [List.length_cons] at hn; omega⟩
    simp only [walk, if_neg hb]
    rw [ih _ hl m (by simp only [List.length_cons] at hn; omega)]

theorem chainFrom_det {s : DB} : ∀ (l l1 : List Int) (b : Int), chainFrom s b l →
    chainFrom s b l1 → l = l1 := by
  intro l
  induction l with
  | nil =>
    intro l1 b h h1
    cases l1 with
    | nil => rfl
    | cons y l1 => exact absurd h h1.1
  | cons x l ih =>
    intro l1 b h h1
    cases l1 with
    | nil => exact absurd h1 h.1
    | cons y l1 =>
      obtain ⟨_, hx, hl⟩ := h
      obtain ⟨_, hy, hl1⟩ := h1
      rw [hx, hy, ih l1 _ hl hl1]

theorem chainFrom_mem {s : DB} : ∀ (l : List Int) (b x : Int), chainFrom s b l → x ∈ l →
    ∃ l1, chainFrom s x l1 ∧ l1.length ≤ l.length := by
  intro l
  induction l with
  | nil => intro b x _ hx; cases hx
  | cons y l ih =>
    intro b x h hx
    rcases List.mem_cons.1 hx with rfl | hx
    · refine ⟨x :: l, ?_, le_refl _⟩
      obtain ⟨hb, hy, hl⟩ := h
      subst hy
      exact ⟨hb, rfl, hl⟩
    · obtain ⟨l1, h1, hlen⟩ := ih _ x h.2.2 hx
      exact ⟨l1, h1, by simp only [List.length_cons]; omega⟩

theorem chainFrom_ne {s : DB} : ∀ (l : List Int) (b x : Int), chainFrom s b l → x ∈ l →
    x ≠ -1 := by
  intro l
  induction l with
  | nil => intro b x _ hx; cases hx
  | cons y l ih =>
    intro b x h hx
    rcases List.mem_cons.1 hx with rfl | hx
    · obtain ⟨hb, hy, _⟩ := h
      rw [hy]
      exact hb
    · exact ih _ x h.2.2 hx

theorem chainFrom_nodup {s : DB} : ∀ (l : List Int) (b : Int), chainFrom s b l → l.Nodup := by
  intro l
  induction l with
  | nil => intro _ _; exact List.nodup_nil
  | cons x l ih =>
    intro b h
    refine List.nodup_cons.2 ⟨?_, ih _ h.2.2⟩
    intro hx
    obtain ⟨l1, h1, hlen⟩ := chainFrom_mem l _ x h.2.2 hx
    have hb : chainFrom s x (x :: l) := by
      obtain ⟨hb, hy, hl⟩ := h
      subst hy
      exact ⟨hb, rfl, hl⟩
    have := chainFrom_det _ _ _ h1 hb
    subst this
    simp only [List.length_cons] at hlen
    omega

/-- Over a list of full blocks the search loop of `Insert` runs to the end and
leaves in `lastub` the last block of the list, or what it held before when the
list is empty. -/
theorem Insert.findUseful_full {s : DB} {max_count : Int} : ∀ (l : List Int) (b : Int)
    (fuel : Nat) (lastub : Option Int), chainFrom s b l →
    (∀ x ∈ l, (s.blocks x).count = max_count) → l.length ≤ fuel →
    Insert.findUseful s max_count fuel b lastub
      = Useful.full (match l.getLast? with | some t => some t | none => lastub) := by
  intro l
  induction l with
  | nil =>
    intro b fuel lastub h _ _
    simp only [chainFrom] at h
    subst h
    cases fuel <;> simp [Insert.findUseful]
  | cons x l ih =>
    intro b fuel lastub h hfull hfuel
    obtain ⟨hb, hx, hl⟩ := h
    subst hx
    obtain ⟨m, rfl⟩ : ∃ m, fuel = m + 1 :=
      ⟨fuel - 1, by simp only [List.length_cons] at hfuel; omega⟩
    simp only [Insert.findUseful, if_neg hb, hfull x (List.mem_cons_self _ _), if_true]
    rw [ih _ m (some x) hl (fun y hy => hfull y (List.mem_cons_of_mem _ hy))
      (by simp only [List.length_cons] at hfuel; omega)]
    cases l with
    | nil => rfl
    | cons y l =>
      rw [List.getLast?_cons_cons]
      cases hg : (y :: l).getLast? with
      | none => simp at hg
      | some t => rfl

theorem Insert.findUseful_ne_timeout_of_chain {s : DB} {max_count : Int} :
    ∀ (l : List Int) (b : Int) (fuel : Nat) (lastub : Option Int), chainFrom s b l →
    l.length ≤ fuel → Insert.findUseful s max_count fuel b lastub ≠ Useful.timeout := by
  intro l
  induction l with
  | nil =>
    intro b fuel lastub h _
    simp only [chainFrom] at h
    subst h
    cases fuel <;> simp [Insert.findUseful]
  | cons x l ih =>
    intro b fuel lastub h hfuel
    obtain ⟨hb, hx, hl⟩ := h
    subst hx
    obtain ⟨m, rfl⟩ : ∃ m, fuel = m + 1 :=
      ⟨fuel - 1, by simp only [List.length_cons] at hfuel; omega⟩
    simp only [Insert.findUseful, if_neg hb]
    split
    · exact ih _ m (some x) hl (by simp only [List.length_cons] at hfuel; omega)
    · intro hc; cases hc

/-- A list stays linked when the blocks outside it change, and grows by `f`
when its last block is made to point to a block `f` that ends the list. -/
theorem chainFrom_append {s s1 : DB} {f t : Int} (hf : f ≠ -1)
    (hfnext : (s1.blocks f).next = -1) (htnext : (s1.blocks t).next = f)
    (hother : ∀ x, x ≠ t → x ≠ f → (s1.blocks x).next = (s.blocks x).next) :
    ∀ (l : List Int) (b : Int), chainFrom s b l → l.getLast? = some t → f ∉ l →
      chainFrom s1 b (l ++ [f]) := by
  intro l
  induction l with
  | nil => intro b _ hlast; simp at hlast
  | cons x l ih =>
    intro b h hlast hfl
    have hnd := chainFrom_nodup _ _ h
    obtain ⟨hb, hx, hl⟩ := h
    subst hx
    cases l with
    | nil =>
      simp only [List.getLast?_singleton, Option.some.injEq] at hlast
      subst hlast
      simp only [chainFrom] at hl
      refine ⟨hb, rfl, ?_⟩
      rw [htnext]
      exact ⟨hf, rfl, hfnext⟩
    | cons y l =>
      rw [List.getLast?_cons_cons] at hlast
      have hxt : x ≠ t := by
        intro hxt
        subst hxt
        exact (List.nodup_cons.1 hnd).1 (List.mem_of_mem_getLast? hlast)
      have hxf : x ≠ f := fun hxf => hfl (hxf ▸ List.mem_cons_self _ _)
      refine ⟨hb, rfl, ?_⟩
      rw [hother x hxt hxf]
      exact ih _ hl hlast (fun hm => hfl (List.mem_cons_of_mem _ hm))

theorem Insert.intoRubbish_spec (ks : List TKey) (s : DB) (t : Int)
    (hne : t ≠ s.tbl.first_rubbish_num) :
    (Insert.intoRubbish ks s t).blocks s.tbl.first_rubbish_num
        = { prev := t, next := -1, count := 1,
            content := writeKeys (s.blocks s.tbl.first_rubbish_num).content ks 0 } ∧
      ((Insert.intoRubbish ks s t).blocks t).next = s.tbl.first_rubbish_num ∧
      (∀ x, x ≠ t → x ≠ s.tbl.first_rubbish_num →
        (Insert.intoRubbish ks s t).blocks x = s.blocks x) ∧
      (Insert.intoRubbish ks s t).tbl.first_rubbish_num
        = (s.blocks s.tbl.first_rubbish_num).next ∧
      (Insert.intoRubbish ks s t).tbl.block_count = s.tbl.block_count ∧
      (Insert.intoRubbish ks s t).tbl.first_block_num = s.tbl.first_block_num ∧
      (Insert.intoRubbish ks s t).tbl.ats = s.tbl.ats ∧
      (Insert.intoRubbish ks s t).tbl.record_length = s.tbl.record_length := by
  have hne2 : s.tbl.first_rubbish_num ≠ t := fun h => hne h.symm
  refine ⟨?_, ?_, ?_, ?_, rfl, rfl, rfl, rfl⟩
  · simp [Insert.intoRubbish, setBlock_blocks, hne2]
  · simp [Insert.intoRubbish, setBlock_blocks, hne]
  · intro x hxt hxf
    simp [Insert.intoRubbish, setBlock_blocks, hxt, hxf]
  · simp [Insert.intoRubbish, setBlock_blocks, hne2]

/-- C11. In a state whose live list `l` holds only full blocks and whose free
list has the head `f`, a block outside the live list, a statement `Insert`
whose value types are the attribute types does not run out of fuel, and when
it returns the record read back from slot 0 of `f` is the record of the
statement, the record count of `f` is 1, `first_rubbish_num` is the former
successor of `f`, `block_count` and `first_block_num` are unchanged, and the
live list is `l` followed by `f`: `f.next = -1`, and the former tail `t` of the
live list has `t.next = f` and `f.prev = t`. -/
theorem insert_into_free_block (atof : List Byte → Nat) (fuel : Nat) (st : SQLInsert)
    (s : DB) (l : List Int) (f : Int)
    (hlist : chainFrom s s.tbl.first_block_num l)
    (hfull : ∀ x ∈ l, (s.blocks x).count = s.tbl.max_count)
    (hfree : s.tbl.first_rubbish_num = f) (hf : f ≠ -1) (hdisj : f ∉ l)
    (hfuel : l.length ≤ fuel)
    (htyped : st.values.map (fun v => v.data_type) = s.tbl.ats.map (fun a => a.data_type))
    (hnum : ∀ a ∈ s.tbl.ats, a.data_type ≠ 2 → a.length = 4) :
    Insert atof fuel st s ≠ Outcome.timeout ∧
    ∀ s1, Insert atof fuel st s = Outcome.done s1 →
      Insert.tkey_values atof st.values s.tbl.ats = some (slotKeys s1 f 0) ∧
        (s1.blocks f).count = 1 ∧
        s1.tbl.first_rubbish_num = (s.blocks f).next ∧
        s1.tbl.block_count = s.tbl.block_count ∧
        s1.tbl.first_block_num = s.tbl.first_block_num ∧
        chainFrom s1 s1.tbl.first_block_num (l ++ [f]) ∧
        (s1.blocks f).next = -1 ∧
        ∃ t, l.getLast? = some t ∧ (s1.blocks f).prev = t ∧ (s1.blocks t).next = f := by
  have hfu := @Insert.findUseful_full s s.tbl.max_count l s.tbl.first_block_num fuel none
    hlist hfull hfuel
  constructor
  · intro ht
    have := Insert.run_timeout (Insert_timeout ht)
    rw [hfu] at this
    cases this
  · intro s1 hdone
    obtain ⟨blocknum, offset, hrun⟩ := Insert_done hdone
    obtain ⟨_, ks, hks, _, s2, first, hplace, htbl, hblocks⟩ := Insert.run_done hrun
    obtain ⟨ks1, hks1, hfit⟩ := Insert.tkey_values_fits atof st.values s.tbl.ats htyped hnum
    rw [hks] at hks1
    cases hks1
    have hs2 : ∃ t, l.getLast? = some t ∧ s2 = Insert.intoRubbish ks s t := by
      rcases Insert.place_done hplace with ⟨hr, _⟩ | ⟨lastub, hr, _, _, h2, _⟩ | ⟨_, _, h2, _⟩
      · rw [hfu] at hr; cases hr
      · rw [hfu] at hr
        cases hg : l.getLast? with
        | none => rw [hg] at hr; cases hr
        | some t =>
          rw [hg] at hr
          have ht : t = lastub := by
            injection hr with h1
            injection h1
          exact ⟨t, rfl, by rw [ht]; exact h2⟩
      · exact absurd (hfree ▸ h2) hf
    obtain ⟨t, hlast, rfl⟩ := hs2
    have htl : t ∈ l := List.mem_of_mem_getLast? hlast
    have htf : t ≠ s.tbl.first_rubbish_num := by
      rw [hfree]
      intro h
      exact hdisj (h ▸ htl)
    obtain ⟨hbf, hbt, hbo, hfr, hbc, hfb, hats, _⟩ := Insert.intoRubbish_spec ks s t htf
    rw [hfree] at hbf hbt hbo hfr
    refine ⟨?_, ?_, ?_, ?_, ?_, ?_, ?_, t, hlast, ?_, ?_⟩
    · rw [hks]
      congr 1
      unfold slotKeys
      rw [hblocks, htbl, hbf, hats]
      simp only [zero_mul]
      exact (GetRecord.keys_writeKeys ks s.tbl.ats hfit hnum _ _).symm
    · rw [hblocks, hbf]
    · rw [htbl, hfr]
    · rw [htbl, hbc]
    · rw [htbl, hfb]
    · rw [htbl, hfb]
      apply @chainFrom_append s s1 f t hf _ _ _ l _ hlist hlast hdisj
      · rw [hblocks, hbf]
      · rw [hblocks, hbt]
      · intro x hxt hxf
        rw [hblocks, hbo x hxt hxf]
    · rw [hblocks, hbf]
    · rw [hblocks, hbf]
    · rw [hblocks, hbt]

theorem insert_into_free_block_witness :
    uFullDeleted.tbl.first_rubbish_num = 0 ∧
      (uRefilled.blocks 0).count = 1 ∧
      uRefilled.tbl.first_rubbish_num = (uFullDeleted.blocks 0).next ∧
      uRefilled.tbl.block_count = 2 ∧
      chainFrom uRefilled uRefilled.tbl.first_block_num ([1] ++ [0]) :=
  have h := (insert_into_free_block atof0 3 (insertIdPad [53]) uFullDeleted [1] 0
    ⟨by decide, rfl,
      show (uFullDeleted.blocks uFullDeleted.tbl.first_block_num).next = -1 from by decide⟩
    (by decide) (by decide) (by decide) (by decide) (by decide)
    (by decide) (by decide)).2 uRefilled rfl
  ⟨by decide, h.2.1, h.2.2.1, h.2.2.2.1, h.2.2.2.2.2.1⟩

theorem Insert.intoNew_block_new (ks : List TKey) (s : DB) :
    ((Insert.intoNew ks s).blocks s.tbl.block_count).prev = -1 := by
  simp only [Insert.intoNew]
  split <;> simp only [setBlock_blocks_same]

theorem Insert.intoNew_head_prev (ks : List TKey) (s : DB)
    (h1 : s.tbl.first_block_num ≠ -1) (h2 : s.tbl.first_block_num ≠ s.tbl.block_count) :
    ((Insert.intoNew ks s).blocks s.tbl.first_block_num).prev = s.tbl.block_count := by
  simp only [Insert.intoNew]
  rw [setBlock_blocks_other _ _ _ _ h2, if_pos h1]
  simp only [setBlock_blocks_same]

/-- C12. In a state whose live list `l` holds only full blocks and whose free
list is empty, a statement `Insert` whose value types are the attribute types
does not run out of fuel, and when it returns it has used the block numbered
`n = block_count`: `first_block_num = n`, block `n` has `prev = -1`,
`next` the former `first_block_num`, record count 1 and the record of the
statement in slot 0, the former head, if there is one (a block other than `n`,
as invariant I1 says), has `prev = n`, and `block_count = n + 1`. -/
theorem insert_into_new_block (atof : List Byte → Nat) (fuel : Nat) (st : SQLInsert)
    (s : DB) (l : List Int)
    (hlist : chainFrom s s.tbl.first_block_num l)
    (hfull : ∀ x ∈ l, (s.blocks x).count = s.tbl.max_count)
    (hfree : s.tbl.first_rubbish_num = -1)
    (hfuel : l.length ≤ fuel)
    (htyped : st.values.map (fun v => v.data_type) = s.tbl.ats.map (fun a => a.data_type))
    (hnum : ∀ a ∈ s.tbl.ats, a.data_type ≠ 2 → a.length = 4) :
    Insert atof fuel st s ≠ Outcome.timeout ∧
    ∀ s1, Insert atof fuel st s = Outcome.done s1 →
      s1.tbl.first_block_num = s.tbl.block_count ∧
        (s1.blocks s.tbl.block_count).prev = -1 ∧
        (s1.blocks s.tbl.block_count).next = s.tbl.first_block_num ∧
        (s1.blocks s.tbl.block_count).count = 1 ∧
        Insert.tkey_values atof st.values s.tbl.ats
          = some (slotKeys s1 s.tbl.block_count 0) ∧
        (s.tbl.first_block_num ≠ -1 → s.tbl.first_block_num ≠ s.tbl.block_count →
          (s1.blocks s.tbl.first_block_num).prev = s.tbl.block_count) ∧
        s1.tbl.block_count = s.tbl.block_count + 1 := by
  have hfu := @Insert.findUseful_full s s.tbl.max_count l s.tbl.first_block_num fuel none
    hlist hfull hfuel
  constructor
  · intro ht
    have := Insert.run_timeout (Insert_timeout ht)
    rw [hfu] at this
    cases this
  · intro s1 hdone
    obtain ⟨blocknum, offset, hrun⟩ := Insert_done hdone
    obtain ⟨_, ks, hks, _, s2, first, hplace, htbl, hblocks⟩ := Insert.run_done hrun
    obtain ⟨ks1, hks1, hfit⟩ := Insert.tkey_values_fits atof st.values s.tbl.ats htyped hnum
    rw [hks] at hks1
    cases hks1
    have hs2 : s2 = Insert.intoNew ks s := by
      rcases Insert.place_done hplace with ⟨hr, _⟩ | ⟨_, _, h2, _⟩ | ⟨_, _, _, _, h2, _⟩
      · rw [hfu] at hr; cases hr
      · exact absurd hfree h2
      · exact h2
    subst hs2
    have hp := Insert.intoNew_block_new ks s
    obtain ⟨c, hn, hc, hcon⟩ := Insert.intoNew_blocks_new ks s
    obtain ⟨hbc, hfb, _, _, hats, _⟩ := Insert.intoNew_tbl ks s
    refine ⟨?_, ?_, ?_, ?_, ?_, ?_, ?_⟩
    · rw [htbl, hfb]
    · rw [hblocks, hp]
    · rw [hblocks, hn]
    · rw [hblocks, hc]
    · rw [hks]
      congr 1
      unfold slotKeys
      rw [hblocks, htbl, hcon, hats]
      simp only [zero_mul]
      exact (GetRecord.keys_writeKeys ks s.tbl.ats hfit hnum _ _).symm
    · intro h1 h2
      rw [hblocks]
      exact Insert.intoNew_head_prev ks s h1 h2
    · rw [htbl, hbc]

theorem insert_into_new_block_witness :
    uFive.tbl.first_block_num = 2 ∧ (uFive.blocks 2).prev = -1 ∧
      (uFive.blocks 2).next = 1 ∧ (uFive.blocks 2).count = 1 ∧
      (uFive.blocks 1).prev = 2 ∧ uFive.tbl.block_count = 3 :=
  have h := (insert_into_new_block atof0 3 (insertIdPad [53]) uFull [1, 0]
    ⟨by decide, rfl, by decide, by decide,
      show (uFull.blocks (uFull.blocks uFull.tbl.first_block_num).next).next = -1
        from by decide⟩
    (by decide) (by decide) (by decide) (by decide) (by decide)).2 uFive rfl
  ⟨h.1, h.2.1, h.2.2.1, h.2.2.2.1, h.2.2.2.2.2.1 (by decide) (by decide), h.2.2.2.2.2.2⟩


/-! ## Insert and the schema -/

theorem Insert.tkey_values_isSome (atof : List Byte → Nat) :
    ∀ (vs : List SQLValue) (ats : List Attribute), vs.length ≤ ats.length →
      ∃ ks, Insert.tkey_values atof vs ats = some ks := by
  intro vs
  induction vs with
  | nil => intro ats _; exact ⟨[], by simp [Insert.tkey_values]⟩
  | cons v vs ih =>
    intro ats h
    cases ats with
    | nil => simp at h
    | cons a as =>
      obtain ⟨ks, hks⟩ := ih as (by simp only [List.length_cons] at h; omega)
      exact ⟨(TKey.new v.data_type a.length).ReadValue atof v.value :: ks,
        by simp only [Insert.tkey_values, hks]⟩

theorem Insert.pk_index_range (st : SQLInsert) (tbl : Table) :
    Insert.pk_index st tbl = -1 ∨
      (0 ≤ Insert.pk_index st tbl ∧ Insert.pk_index st tbl < st.values.length) := by
  unfold Insert.pk_index
  by_cases hex : ∃ a ∈ tbl.ats.take st.values.length, decide (a.attr_type = 1) = true
  · have hs := lastIdx_some (fun (a : Attribute) => decide (a.attr_type = 1))
      (tbl.ats.take st.values.length) 0 (-1) hex
    obtain ⟨k, hk, hr, _⟩ := hs
    right
    rw [hr]
    have : k < st.values.length := by
      rw [List.length_take] at hk
      omega
    omega
  · left
    apply lastIdx_none
    intro a ha
    by_contra hp
    exact hex ⟨a, ha, by simpa using hp⟩

/-- On the empty table without index, `Insert` accepts every statement that has
no more values than the table has attributes, whatever their types: the record
goes to the new block 0. -/
theorem Insert_empty_accepts (atof : List Byte → Nat) (fuel : Nat) (st : SQLInsert) (s : DB)
    (hempty : s.isEmptyTable) (hids : s.tbl.ids = []) (hR : s.tbl.record_length ≠ 0)
    (hlen : st.values.length ≤ s.tbl.ats.length) :
    ∃ ks, Insert.tkey_values atof st.values s.tbl.ats = some ks ∧
      Insert atof fuel st s = Outcome.done (Insert.intoNew ks s) := by
  obtain ⟨hfb, hfr, hbc⟩ := hempty
  obtain ⟨ks, hks⟩ := Insert.tkey_values_isSome atof st.values s.tbl.ats hlen
  refine ⟨ks, hks, ?_⟩
  have hkl := (Insert.tkey_values_length atof _ _ _ hks).1
  have hcheck : (if Insert.pk_index st s.tbl ≠ -1 then
      pkCheck s (Insert.pk_index st s.tbl) (at? ks (Insert.pk_index st s.tbl))
      else Outcome.done ()) = Outcome.done () := by
    split
    · rename_i hpk
      rcases Insert.pk_index_range st s.tbl with h | ⟨h0, h1⟩
      · exact absurd h hpk
      · have hlt : (Insert.pk_index st s.tbl).toNat < ks.length := by omega
        have : at? ks (Insert.pk_index st s.tbl)
            = some (ks.get ⟨(Insert.pk_index st s.tbl).toNat, hlt⟩) := by
          unfold at?
          rw [if_neg (by omega)]
          exact List.getElem?_eq_getElem hlt
        rw [this]
        simp [pkCheck, hids, hbc, pkScan]
    · rfl
  have hfind : Insert.findUseful s (Int.tdiv (4096 - 12) s.tbl.record_length) fuel
      s.tbl.first_block_num none = Useful.full none := by
    rw [hfb]
    cases fuel <;> simp [Insert.findUseful]
  have hplace : Insert.place fuel ks s
      = Outcome.done (Insert.intoNew ks s, s.tbl.block_count, 0, false) := by
    unfold Insert.place
    simp only [hfind, hfr, ne_eq, not_true_eq_false, if_false]
    rw [GetBlockInfo_of_ne (by rw [hbc]; decide)]
  have hidx : (Insert.intoNew ks s).tbl.ids = [] := by
    rw [(Insert.intoNew_tbl ks s).2.2.2.1, hids]
  unfold Insert Insert.run
  rw [if_neg hR]
  simp only [hks, hcheck, hplace, Insert.updateIndex, hidx, List.length_nil, ne_eq,
    not_true_eq_false, if_false]

/-- C14 (the claim fails on the code). On the empty table `t (id int primary
key, name char(8))` the statement `INSERT INTO t VALUES (1)`, one value for two
attributes, and the statement `INSERT INTO t VALUES ("alice", 1)`, whose value
types are not the attribute types, both return without an error, and each has
allocated block 0 and written one record into it. -/
theorem insert_accepts_schema_mismatch :
    insertShort.values.length ≠ emptyIdName.tbl.ats.length ∧
      Insert atof0 1 insertShort emptyIdName = Outcome.done tShort ∧
      emptyIdName.tbl.block_count = 0 ∧ tShort.tbl.block_count = 1 ∧
      (tShort.blocks 0).count = 1 ∧
      insertMistyped.values.length = emptyIdName.tbl.ats.length ∧
      insertMistyped.values.map (fun v => v.data_type)
        ≠ emptyIdName.tbl.ats.map (fun a => a.data_type) ∧
      Insert atof0 1 insertMistyped emptyIdName = Outcome.done tMistyped ∧
      tMistyped.tbl.block_count = 1 ∧ (tMistyped.blocks 0).count = 1 ∧
      (tMistyped.blocks 0).content 0 = 97 ∧
      RecordManager.Insert atof0 1 insertShort (some emptyIdName)
        = StatementOutcome.onTable (Outcome.done tShort) ∧
      RecordManager.Insert atof0 1 insertMistyped (some emptyIdName)
        = StatementOutcome.onTable (Outcome.done tMistyped) :=
  ⟨by decide, rfl, by decide, by decide, by decide, by decide, by decide, rfl, by decide,
    by decide, by decide, rfl, rfl⟩

/-- C14 (amended). `Insert` makes no check of the statement against the
schema. Key `i` of the record is made by `TKey(value type, length of attribute
i)`: it has the data type written in the statement, whatever the type of
attribute `i`, and the length that constructor gives, the length of attribute
`i` for a char value and 4 for any other. On an existing empty table without
index a statement with no more values than the table has attributes returns,
whatever its value types. `Insert` raises two errors only: `TableNotExist`
when the lookup finds no table, before anything is touched, and
`PrimaryKeyConflict` on the table found, and then it has written no record and
changed no block and no field of the table: the state is the one it started
from. -/
theorem insert_checks_no_schema (atof : List Byte → Nat) (fuel : Nat)
    (st : SQLInsert) (s : DB) :
    RecordManager.Insert atof fuel st none
      = StatementOutcome.noTable Exception.TableNotExist ∧
    (∀ e, RecordManager.Insert atof fuel st (some s) ≠ StatementOutcome.noTable e) ∧
    (∀ e s1, RecordManager.Insert atof fuel st (some s)
        = StatementOutcome.onTable (Outcome.thrown e s1) →
      e = Exception.PrimaryKeyConflict ∧ s1 = s) ∧
    (∀ ks, Insert.tkey_values atof st.values s.tbl.ats = some ks →
      ∀ (i : Nat) (v : SQLValue), st.values[i]? = some v →
        ∃ k a, ks[i]? = some k ∧ s.tbl.ats[i]? = some a ∧ k.key_type = v.data_type ∧
          k.length = if v.data_type = 2 then a.length else 4) ∧
    (s.isEmptyTable → s.tbl.ids = [] → s.tbl.record_length ≠ 0 →
      st.values.length ≤ s.tbl.ats.length →
      ∃ s1, RecordManager.Insert atof fuel st (some s)
          = StatementOutcome.onTable (Outcome.done s1) ∧
        s1.tbl.block_count = 1 ∧ (s1.blocks 0).count = 1) := by
  refine ⟨rfl, fun e h => (nomatch h), ?_, ?_, ?_⟩
  · intro e s1 h
    have h1 : Insert atof fuel st s = Outcome.thrown e s1 := by
      simp only [RecordManager.Insert, StatementOutcome.onTable.injEq] at h
      exact h
    exact ⟨(Insert_thrown h1).1, (Insert_thrown h1).2.1⟩
  · intro ks hks i v hv
    obtain ⟨a, ha, hk⟩ := Insert.tkey_values_get atof _ _ _ hks i v hv
    exact ⟨_, a, hk, ha, TKey.ReadValue_key_type atof _ _ _, TKey.ReadValue_length atof _ _ _⟩
  · intro hempty hids hR hlen
    obtain ⟨ks, _, hdone⟩ := Insert_empty_accepts atof fuel st s hempty hids hR hlen
    refine ⟨Insert.intoNew ks s, ?_, ?_, ?_⟩
    · simp only [RecordManager.Insert, hdone]
    · rw [(Insert.intoNew_tbl ks s).1, hempty.2.2]
      rfl
    · obtain ⟨c, _, hc, _⟩ := Insert.intoNew_blocks_new ks s
      rw [hempty.2.2] at hc
      exact hc

theorem insert_checks_no_schema_witness :
    RecordManager.Insert atof0 1 insertMistyped none
      = StatementOutcome.noTable Exception.TableNotExist ∧
    (∃ s1, RecordManager.Insert atof0 1 insertMistyped (some emptyIdName)
        = StatementOutcome.onTable (Outcome.done s1) ∧
      s1.tbl.block_count = 1 ∧ (s1.blocks 0).count = 1) ∧
    (∃ e s1, RecordManager.Insert atof0 1 (insertIdName [49] bob) (some tAlice)
        = StatementOutcome.onTable (Outcome.thrown e s1) ∧
      e = Exception.PrimaryKeyConflict ∧ s1 = tAlice) ∧
    (∃ ks k a, Insert.tkey_values atof0 insertMistyped.values emptyIdName.tbl.ats = some ks ∧
      insertMistyped.values[1]? = some { data_type := 0, value := cstr [49] } ∧
      ks[1]? = some k ∧ emptyIdName.tbl.ats[1]? = some a ∧ a.data_type = 2 ∧ a.length = 8 ∧
      k.key_type = 0 ∧ k.length = 4) :=
  ⟨(insert_checks_no_schema atof0 1 insertMistyped emptyIdName).1,
    (insert_checks_no_schema atof0 1 insertMistyped emptyIdName).2.2.2.2
      (by decide) (by decide) (by decide) (by decide),
    ⟨Exception.PrimaryKeyConflict, tAlice, rfl,
      (insert_checks_no_schema atof0 1 (insertIdName [49] bob) tAlice).2.2.1
        Exception.PrimaryKeyConflict tAlice rfl⟩,
    (by
      obtain ⟨k, a, hk, ha, ht, hl⟩ :=
        (insert_checks_no_schema atof0 1 insertMistyped emptyIdName).2.2.2.1
          ((Insert.tkey_values atof0 insertMistyped.values emptyIdName.tbl.ats).getD [])
          rfl 1 { data_type := 0, value := cstr [49] } rfl
      have e : a.data_type = 2 ∧ a.length = 8 := by
        have := Option.some.inj ha
        rw [← this]
        exact ⟨rfl, rfl⟩
      exact ⟨_, k, a, rfl, rfl, hk, ha, e.1, e.2, ht, by rw [hl]; rfl⟩)⟩



/-! ## The pool of frames -/

@[simp] theorem setFrame_heap_same (h : BlockHandle) (p : Nat) (f : Frame → Frame) :
    (h.setFrame p f).heap p = f (h.heap p) := by
  simp [BlockHandle.setFrame]

theorem setFrame_heap_other (h : BlockHandle) (p q : Nat) (f : Frame → Frame) (hq : q ≠ p) :
    (h.setFrame p f).heap q = h.heap q := by
  simp [BlockHandle.setFrame, hq]

/-- The loop of `Add`, entered with `k` frames linked behind frame 0 and
`current` at the last of them, links the frames `k + 1 .. N` behind it. -/
theorem BlockHandle.Add.loop_spec (N : Nat) :
    ∀ (fuel : Nat) (h : BlockHandle) (k : Nat),
      h.bsize = (N : Int) → h.bcount = (k : Int) → h.brk = k + 1 → h.first_block = some 0 →
      (∀ i, i < k → (h.heap i).next = some (i + 1)) → (h.heap k).next = none →
      k ≤ N → N - k ≤ fuel →
      ∃ h1, BlockHandle.Add.loop fuel h k = some (h1, N) ∧ h1.bsize = (N : Int) ∧
        h1.bcount = (N : Int) ∧ h1.first_block = some 0 ∧
        (∀ i, i < N → (h1.heap i).next = some (i + 1)) ∧ (h1.heap N).next = none := by
  intro fuel
  induction fuel with
  | zero =>
    intro h k hs hc _ hf hlink hlast hk hfuel
    have hkN : k = N := by omega
    subst hkN
    refine ⟨h, ?_, hs, hc, hf, hlink, hlast⟩
    simp [BlockHandle.Add.loop, hs, hc]
  | succ fuel ih =>
    intro h k hs hc hb hf hlink hlast hk hfuel
    by_cases hlt : k < N
    · have hcond : h.bcount < h.bsize := by rw [hs, hc]; exact_mod_cast hlt
      simp only [BlockHandle.Add.loop, if_pos hcond]
      rw [hb]
      apply ih _ (k + 1)
      · exact hs
      · show h.bcount + 1 = ((k + 1 : Nat) : Int)
        rw [hc]; push_cast; rfl
      · rfl
      · exact hf
      · intro i hi
        have hik : i ≠ k + 1 := by omega
        by_cases hi2 : i = k
        · subst hi2
          simp [BlockHandle.setFrame]
        · have := hlink i (by omega)
          simp [BlockHandle.setFrame, hi2, hik, this]
      · simp [BlockHandle.setFrame, hlast, Frame.new]
      · omega
      · omega
    · have hkN : k = N := by omega
      subst hkN
      refine ⟨h, ?_, hs, hc, hf, hlink, hlast⟩
      simp [BlockHandle.Add.loop, hs, hc]

theorem BlockHandle.Add_spec (N : Nat) (h : BlockHandle) (hs : h.bsize = (N : Int))
    (hc : h.bcount = 0) (hb : h.brk = 1) (hf : h.first_block = some 0)
    (hlast : (h.heap 0).next = none) :
    ∃ h1, h.Add (some 0) = some (h1, some N) ∧ h1.bsize = (N : Int) ∧
      h1.bcount = (N : Int) ∧ h1.first_block = some 0 ∧
      (∀ i, i < N → (h1.heap i).next = some (i + 1)) ∧ (h1.heap N).next = none := by
  obtain ⟨h1, hl, hrest⟩ := BlockHandle.Add.loop_spec N (h.bsize - h.bcount).toNat h 0 hs
    (by rw [hc]; rfl) (by rw [hb]) hf (fun i hi => absurd hi (Nat.not_lt_zero i)) hlast
    (Nat.zero_le N) (by rw [hs, hc]; simp)
  refine ⟨h1, ?_, hrest⟩
  unfold BlockHandle.Add
  simp only [hl]

/-- A newly constructed handle: 300 frames, at the addresses 1 to 300, linked
in that order behind the frame at address 0. -/
theorem BlockHandle.new_spec (p : String) :
    ∃ h, BlockHandle.new p = some h ∧ h.bsize = 300 ∧ h.bcount = 300 ∧
      h.first_block = some 0 ∧ (∀ i, i < 300 → (h.heap i).next = some (i + 1)) ∧
      (h.heap 300).next = none := by
  obtain ⟨h1, hl, hs, hc, hf, hlink, hlast⟩ := BlockHandle.Add_spec 300
    { first_block := some 0, bsize := 300, bcount := 0, path := p,
      heap := fun _ => Frame.new 0, brk := 1 } (by simp) (by simp) (by simp) (by simp)
    (by simp [Frame.new])
  refine ⟨h1, ?_, by simpa using hs, by simpa using hc, hf, hlink, hlast⟩
  unfold BlockHandle.new
  simp only [hl]

/-- With `j < N` frames taken, `GetUsableBlock` returns the frame at address
`j + 1`. -/
theorem BlockHandle.GetUsableBlock_step (N : Nat) (h : BlockHandle) (j : Nat) (hj : j < N)
    (hinv : h.poolAfter N j) :
    ∃ h1, h.GetUsableBlock = some (some (j + 1), h1) ∧ h1.poolAfter N (j + 1) := by
  obtain ⟨hc, hf, hhead, hlink, hlast⟩ := hinv
  rw [if_pos hj] at hhead
  have hc0 : h.bcount ≠ 0 := by rw [hc]; omega
  have hnext : (h.heap (j + 1)).next = if j + 1 < N then some (j + 1 + 1) else none := by
    by_cases h1 : j + 1 < N
    · rw [if_pos h1]; exact hlink (j + 1) (by omega) h1
    · rw [if_neg h1]
      have : j + 1 = N := by omega
      rw [this]
      exact hlast hj
  simp only [BlockHandle.GetUsableBlock, if_neg hc0, hf, hhead]
  refine ⟨_, rfl, ?_, ?_, ?_, ?_, ?_⟩
  · show h.bcount - 1 = (N : Int) - ((j + 1 : Nat) : Int)
    rw [hc]; push_cast; omega
  · exact hf
  · have h0 : (0 : Nat) ≠ j + 1 := by omega
    simp only [BlockHandle.setFrame, if_neg h0, if_true]
    exact hnext
  · intro i hi hiN
    have h1 : i ≠ j + 1 := by omega
    have h2 : i ≠ 0 := by omega
    simp only [BlockHandle.setFrame, if_neg h1, if_neg h2]
    exact hlink i (by omega) hiN
  · intro hjN
    have h1 : N ≠ j + 1 := by omega
    have h2 : N ≠ 0 := by omega
    simp only [BlockHandle.setFrame, if_neg h1, if_neg h2]
    exact hlast hj

/-- With `j` frames taken, the next `n` calls return the frames at the
addresses `j + 1, ..., j + n`, as long as `j + n ≤ N`. -/
theorem BlockHandle.GetUsableBlocks_spec (N : Nat) :
    ∀ (n : Nat) (h : BlockHandle) (j : Nat), j + n ≤ N → h.poolAfter N j →
      ∃ h1, BlockHandle.GetUsableBlocks n h
          = some ((List.range n).map (fun i => some (j + 1 + i)), h1) ∧
        h1.poolAfter N (j + n) := by
  intro n
  induction n with
  | zero => intro h j _ hinv; exact ⟨h, rfl, hinv⟩
  | succ n ih =>
    intro h j hjn hinv
    obtain ⟨h1, hget, hinv1⟩ := BlockHandle.GetUsableBlock_step N h j (by omega) hinv
    obtain ⟨h2, hrest, hinv2⟩ := ih h1 (j + 1) (by omega) hinv1
    have hjn2 : j + 1 + n = j + (n + 1) := by omega
    rw [hjn2] at hinv2
    refine ⟨h2, ?_, hinv2⟩
    simp only [BlockHandle.GetUsableBlocks, hget, hrest, List.range_succ_eq_map, List.map_cons,
      List.map_map]
    congr 2
    apply congrArg
    apply List.map_congr_left
    intro i _
    simp only [Function.comp]
    congr 1
    omega

/-- With all `N` frames taken, `GetUsableBlock` returns NULL. -/
theorem BlockHandle.GetUsableBlock_empty (N : Nat) (h : BlockHandle)
    (hinv : h.poolAfter N N) : h.GetUsableBlock = some (none, h) := by
  have hc : h.bcount = 0 := by rw [hinv.1]; omega
  simp only [BlockHandle.GetUsableBlock, if_pos hc]

/-- C20. A newly constructed `BlockHandle` holds exactly 300 available frames:
`bcount()` is 300, the first 300 calls of `GetUsableBlock` return 300 pointers
that are not NULL and pairwise distinct, and the 301st call returns NULL. -/
theorem new_handle_has_300_frames (p : String) :
    ∃ h, BlockHandle.new p = some h ∧ h.bcount = 300 ∧
      ∃ ps h1, BlockHandle.GetUsableBlocks 300 h = some (ps, h1) ∧ ps.length = 300 ∧
        (∀ q ∈ ps, q ≠ none) ∧ ps.Nodup ∧
        ∃ h2, h1.GetUsableBlock = some (none, h2) := by
  obtain ⟨h, hnew, hs, hc, hf, hlink, hlast⟩ := BlockHandle.new_spec p
  have hinv : h.poolAfter 300 0 :=
    ⟨by rw [hc]; rfl, hf, by rw [if_pos (by omega)]; exact hlink 0 (by omega),
      fun i _ hi => hlink i hi, fun _ => hlast⟩
  obtain ⟨h1, hget, hinv1⟩ := BlockHandle.GetUsableBlocks_spec 300 300 h 0 (by omega) hinv
  refine ⟨h, hnew, hc, _, h1, hget, by simp, ?_, ?_, h1, ?_⟩
  · intro q hq
    obtain ⟨i, _, rfl⟩ := List.mem_map.1 hq
    exact Option.some_ne_none _
  · apply List.Nodup.map _ (List.nodup_range 300)
    intro a b hab
    simp only [Option.some.injEq] at hab
    omega
  · exact BlockHandle.GetUsableBlock_empty 300 h1 (by simpa using hinv1)


/-! ## DeleteRecord -/

theorem DeleteRecord_isSome (s : DB) {b : Int} (o : Int) (hb : b ≠ -1) :
    ∃ s1, DeleteRecord s b o = some s1 := by
  unfold DeleteRecord
  rw [GetBlockInfo_of_ne hb]
  simp only
  split
  · exact ⟨_, rfl⟩
  · exact ⟨_, rfl⟩

theorem setBlock_content_of_header (s : DB) (n m : Int) (f : BlockInfo → BlockInfo)
    (hf : ∀ x, (f x).content = x.content) :
    ((s.setBlock n f).blocks m).content = (s.blocks m).content := by
  rw [setBlock_blocks]
  split
  · rename_i h; rw [hf, h]
  · rfl

theorem setBlock_count_of_header (s : DB) (n m : Int) (f : BlockInfo → BlockInfo)
    (hf : ∀ x, (f x).count = x.count) :
    ((s.setBlock n f).blocks m).count = (s.blocks m).count := by
  rw [setBlock_blocks]
  split
  · rename_i h; rw [hf, h]
  · rfl

/-- What `DeleteRecord` does to the payloads, the record counts and the table:
the last record of the block is copied over slot `o`, the count of the block
goes down by one, and no other payload, no other count and no field of the
table but `first_rubbish_num` changes. -/
theorem DeleteRecord_payload {s s1 : DB} {b o : Int} (h : DeleteRecord s b o = some s1) :
    b ≠ -1 ∧ s1.tbl.ats = s.tbl.ats ∧ s1.tbl.record_length = s.tbl.record_length ∧
      s1.tbl.first_block_num = s.tbl.first_block_num ∧
      (s1.blocks b).count = (s.blocks b).count - 1 ∧
      (s1.blocks b).content = memcpy (s.blocks b).content (o * s.tbl.record_length)
        (fun i => (s.blocks b).content
          (((s.blocks b).count - 1) * s.tbl.record_length + (i : Int)))
        s.tbl.record_length.toNat ∧
      ∀ m, m ≠ b → (s1.blocks m).content = (s.blocks m).content ∧
        (s1.blocks m).count = (s.blocks m).count := by
  unfold DeleteRecord at h
  unfold GetBlockInfo at h
  split at h
  · cases h
  · rename_i bp hbp
    split at hbp
    · cases hbp
    · rename_i hne
      refine ⟨hne, ?_⟩
      simp only at h
      split at h
      · have h := Option.some.inj h
        have key : ∀ m, (s1.blocks m).content = ((s.setBlock b (fun b =>
              { b with
                content := memcpy b.content (o * s.tbl.record_length)
                  (fun i => b.content ((b.count - 1) * s.tbl.record_length + (i : Int)))
                  s.tbl.record_length.toNat
                count := b.count - 1 })).blocks m).content ∧
            (s1.blocks m).count = ((s.setBlock b (fun b =>
              { b with
                content := memcpy b.content (o * s.tbl.record_length)
                  (fun i => b.content ((b.count - 1) * s.tbl.record_length + (i : Int)))
                  s.tbl.record_length.toNat
                count := b.count - 1 })).blocks m).count := by
          intro m
          rw [← h]
          simp only
          split <;> split <;> split <;>
            simp only [setBlock_content_of_header, setBlock_count_of_header, implies_true,
              and_self]
        refine ⟨?_, ?_, ?_, ?_, ?_, ?_⟩
        · rw [← h]; simp only; split <;> split <;> split <;> rfl
        · rw [← h]; simp only; split <;> split <;> split <;> rfl
        · rw [← h]; simp only; split <;> split <;> split <;> rfl
        · rw [(key b).2, setBlock_blocks_same]
        · rw [(key b).1, setBlock_blocks_same]
        · intro m hm
          rw [(key m).1, (key m).2, setBlock_blocks_other _ _ _ _ hm]
          exact ⟨rfl, rfl⟩
      · cases h
        refine ⟨rfl, rfl, rfl, ?_, ?_, ?_⟩
        · simp only [setBlock_blocks_same]
        · simp only [setBlock_blocks_same]
        · intro m hm
          rw [setBlock_blocks_other _ _ _ _ hm]
          exact ⟨rfl, rfl⟩

/-- Two payloads that hold the same bytes at two offsets give the same record
there. -/
theorem GetRecord.keys_shift (ats : List Attribute) :
    ∀ (c c1 : Int → Byte) (off off1 : Int),
      (∀ k : Nat, k < attrsLength ats → c1 (off1 + (k : Int)) = c (off + (k : Int))) →
      GetRecord.keys c1 ats off1 = GetRecord.keys c ats off := by
  induction ats with
  | nil => intro c c1 off off1 _; rfl
  | cons a as ih =>
    intro c c1 off off1 h
    have ha : attrsLength (a :: as) = a.length + attrsLength as := by
      simp [attrsLength]
    simp only [GetRecord.keys]
    have hr : readBytes c1 off1 a.length = readBytes c off a.length := by
      unfold readBytes
      apply tabulate_congr
      intro k _ hk
      exact h k (by omega)
    rw [hr, ih c c1 (off + (a.length : Int)) (off1 + (a.length : Int))]
    intro k hk
    have := h (a.length + k) (by omega)
    rw [Int.add_assoc, Int.add_assoc]
    exact_mod_cast this

theorem perm_swap_last {α : Type} (x : α) :
    ∀ (L : List α) (o : Nat) (ho : o < L.length),
      (L ++ [x]).Perm (L.get ⟨o, ho⟩ :: L.set o x) := by
  intro L
  induction L with
  | nil => intro o ho; exact absurd ho (Nat.not_lt_zero o)
  | cons a L ih =>
    intro o ho
    cases o with
    | zero =>
      simp only [List.cons_append, List.get_eq_getElem, List.getElem_cons_zero, List.set_cons_zero]
      exact List.Perm.cons a (List.perm_append_singleton x L)
    | succ k =>
      simp only [List.cons_append, List.get_eq_getElem, List.getElem_cons_succ,
        List.set_cons_succ]
      have hk : k < L.length := by simp only [List.length_cons] at ho; omega
      exact ((ih k hk).cons a).trans (List.Perm.swap _ _ _)

/-- C26. For a block `b` with `c` records and a slot `0 ≤ o < c`,
`DeleteRecord(b, o)` returns with the record count `c - 1`, slot `o` holding
the record that was in slot `c - 1`, and every other slot unchanged; so the
records of the slots below the old count are, up to their order, the record
that was in slot `o` and the records of the slots below the new count. The
record length is at least the sum of the attribute lengths. -/
theorem DeleteRecord_swaps_last_record (s : DB) (b o : Int) (hb : b ≠ -1)
    (ho0 : 0 ≤ o) (ho : o < (s.blocks b).count)
    (hlen : (attrsLength s.tbl.ats : Int) ≤ s.tbl.record_length) :
    ∃ s1, DeleteRecord s b o = some s1 ∧
      (s1.blocks b).count = (s.blocks b).count - 1 ∧
      slotKeys s1 b o = slotKeys s b ((s.blocks b).count - 1) ∧
      (∀ i : Int, i ≠ o → slotKeys s1 b i = slotKeys s b i) ∧
      ((List.range (s.blocks b).count.toNat).map (fun (j : Nat) => slotKeys s b (j : Int))).Perm
        (slotKeys s b o ::
          (List.range ((s.blocks b).count - 1).toNat).map
            (fun (j : Nat) => slotKeys s1 b (j : Int))) := by
  obtain ⟨s1, hdel⟩ := DeleteRecord_isSome s o hb
  obtain ⟨_, hats, hR, _, hcount, hcontent, _⟩ := DeleteRecord_payload hdel
  have hRnat : ((s.tbl.record_length.toNat : Nat) : Int) = s.tbl.record_length := by omega
  have hslot : slotKeys s1 b o = slotKeys s b ((s.blocks b).count - 1) := by
    unfold slotKeys
    rw [hats, hR, hcontent]
    apply GetRecord.keys_shift
    intro k hk
    exact memcpy_inside _ _ _ _ k (by omega)
  have hother : ∀ i : Int, i ≠ o → slotKeys s1 b i = slotKeys s b i := by
    intro i hi
    unfold slotKeys
    rw [hats, hR, hcontent]
    apply GetRecord.keys_congr
    intro x h1 h2
    apply memcpy_outside
    have := slot_disjoint s.tbl.record_length o i (x - i * s.tbl.record_length)
      s.tbl.record_length.toNat (by omega) hi (by omega) (by omega)
    have e : i * s.tbl.record_length + (x - i * s.tbl.record_length) = x := by ring
    rw [e] at this
    exact this
  refine ⟨s1, hdel, hcount, hslot, hother, ?_⟩
  obtain ⟨n, hn⟩ : ∃ n : Nat, (s.blocks b).count = (n : Int) + 1 :=
    ⟨((s.blocks b).count - 1).toNat, by omega⟩
  obtain ⟨p, hp⟩ : ∃ p : Nat, o = (p : Int) := ⟨o.toNat, by omega⟩
  subst hp
  have hc1 : (s.blocks b).count.toNat = n + 1 := by omega
  have hc2 : ((s.blocks b).count - 1).toNat = n := by omega
  have hlast : (s.blocks b).count - 1 = (n : Int) := by omega
  rw [hc1, hc2, List.range_succ, List.map_append, List.map_singleton]
  rw [hlast] at hslot
  by_cases hpn : p < n
  · have hlenL : p < ((List.range n).map (fun (j : Nat) => slotKeys s b (j : Int))).length := by
      simp only [List.length_map, List.length_range]
      exact hpn
    have hperm := perm_swap_last (slotKeys s b (n : Int))
      ((List.range n).map (fun (j : Nat) => slotKeys s b (j : Int))) p hlenL
    have hget : ((List.range n).map (fun (j : Nat) => slotKeys s b (j : Int))).get ⟨p, hlenL⟩
        = slotKeys s b (p : Int) := by
      simp only [List.get_eq_getElem, List.getElem_map, List.getElem_range]
    have hset : ((List.range n).map (fun (j : Nat) => slotKeys s b (j : Int))).set p
          (slotKeys s b (n : Int))
        = (List.range n).map (fun (j : Nat) => slotKeys s1 b (j : Int)) := by
      apply List.ext_getElem
      · simp only [List.length_set, List.length_map]
      · intro j h1 h2
        simp only [List.getElem_set, List.getElem_map, List.getElem_range]
        split
        · rename_i hj
          rw [← hj, hslot]
        · rename_i hj
          exact (hother (j : Int) (by omega)).symm
    rw [hget, hset] at hperm
    exact hperm
  · have hpn2 : p = n := by omega
    subst hpn2
    have hsame : (List.range p).map (fun (j : Nat) => slotKeys s1 b (j : Int))
        = (List.range p).map (fun (j : Nat) => slotKeys s b (j : Int)) := by
      apply List.map_congr_left
      intro j hj
      have := List.mem_range.1 hj
      exact hother (j : Int) (by omega)
    rw [hsame]
    exact List.perm_append_singleton _ _

theorem DeleteRecord_swaps_last_record_witness :
    ∃ s1, DeleteRecord tAliceBobCarol 0 0 = some s1 ∧ (s1.blocks 0).count = 2 ∧
      slotKeys s1 0 0 = [{ key_type := 0, length := 4, key := [3, 0, 0, 0] },
        { key_type := 2, length := 8, key := [99, 97, 114, 111, 108, 0, 0, 0] }] :=
  have h := DeleteRecord_swaps_last_record tAliceBobCarol 0 0 (by decide) (by decide)
    (by decide) (by decide)
  match h with
  | ⟨s1, h1, h2, h3, _⟩ => ⟨s1, h1, by rw [h2]; decide, by rw [h3]; decide⟩

/-- C25. When `DeleteRecord` removes the only record of a block `b` that is not
the head of the free list, it returns with `b` at the head of the free list:
`first_rubbish_num = b`, `b` has the record count 0, `prev = -1` and `next`
the former `first_rubbish_num` (-1 when the free list was empty), and the
former head of the free list, if there is one, has `prev = b`. -/
theorem DeleteRecord_prepends_to_free_list (s : DB) (b o : Int) (hb : b ≠ -1)
    (hlast : (s.blocks b).count = 1) (hfree : s.tbl.first_rubbish_num ≠ b) :
    ∃ s1, DeleteRecord s b o = some s1 ∧ s1.tbl.first_rubbish_num = b ∧
      (s1.blocks b).count = 0 ∧ (s1.blocks b).prev = -1 ∧
      (s1.blocks b).next = s.tbl.first_rubbish_num ∧
      (s.tbl.first_rubbish_num ≠ -1 → (s1.blocks s.tbl.first_rubbish_num).prev = b) := by
  obtain ⟨s1, hdel⟩ := DeleteRecord_isSome s o hb
  obtain ⟨_, _, _, _, hcount, _, _⟩ := DeleteRecord_payload hdel
  obtain ⟨_, hfr, _⟩ := DeleteRecord_last hdel hlast
  refine ⟨s1, hdel, hfr, by rw [hcount, hlast]; rfl, ?_⟩
  have hbf : b ≠ s.tbl.first_rubbish_num := fun h => hfree h.symm
  unfold DeleteRecord at hdel
  rw [GetBlockInfo_of_ne hb] at hdel
  simp only [setBlock_blocks_same, hlast, sub_self, if_true] at hdel
  by_cases hp : (s.blocks b).prev = -1 <;> by_cases hn : (s.blocks b).next = -1 <;>
    by_cases hf : s.tbl.first_rubbish_num = -1 <;>
    simp only [hp, hn, hf, ne_eq, not_true_eq_false, not_false_eq_true, if_true, if_false,
      setBlock_tbl] at hdel <;>
    have hdel := Option.some.inj hdel <;>
    subst hdel <;>
    simp [setBlock_blocks, hfree, hbf, hf]

theorem DeleteRecord_prepends_to_free_list_witness :
    ∃ s1, DeleteRecord uDeletedBelowThree 1 0 = some s1 ∧ s1.tbl.first_rubbish_num = 1 ∧
      (s1.blocks 1).count = 0 ∧ (s1.blocks 1).prev = -1 ∧ (s1.blocks 1).next = 0 ∧
      (s1.blocks 0).prev = 1 :=
  have h := DeleteRecord_prepends_to_free_list uDeletedBelowThree 1 0 (by decide) (by decide)
    (by decide)
  match h with
  | ⟨s1, h1, h2, h3, h4, h5, h6⟩ => ⟨s1, h1, h2, h3, h4, h5, h6 (by decide)⟩

/-- C24 (the code departs from the claim). In the table `u` with the rows 1, 2,
3 the head of the live list is block 1, which holds row 3 only, and its
successor is block 0. `DeleteRecord(1, 0)` empties block 1 and puts it on the
free list, but `first_block_num` is still 1 and the `next` of block 1 is now
-1: block 1 is still the block reached from `first_block_num`, and block 0
with the rows 1 and 2 is no longer reached. -/
theorem DeleteRecord_keeps_emptied_head :
    uThree.tbl.first_block_num = 1 ∧ (uThree.blocks 1).count = 1 ∧
      (uThree.blocks 1).next = 0 ∧ (uThree.blocks 0).count = 2 ∧
      DeleteRecord uThree 1 0 = some uThreeLessThree ∧
      uThreeLessThree.tbl.first_block_num = 1 ∧
      uThreeLessThree.tbl.first_rubbish_num = 1 ∧
      (uThreeLessThree.blocks 1).count = 0 ∧
      walk uThreeLessThree 2 uThreeLessThree.tbl.first_block_num = [1] :=
  ⟨by decide, by decide, by decide, by decide, rfl, by decide, by decide, by decide, by decide⟩


/-! ## A live list that does not end -/

theorem Insert.findUseful_cycle {s : DB} {max_count b : Int} (hb : b ≠ -1)
    (hc : (s.blocks b).count = max_count) (hn : (s.blocks b).next = b) :
    ∀ (fuel : Nat) (lastub : Option Int),
      Insert.findUseful s max_count fuel b lastub = Useful.timeout := by
  intro fuel
  induction fuel with
  | zero => intro lastub; simp only [Insert.findUseful, if_neg hb]
  | succ fuel ih =>
    intro lastub
    simp only [Insert.findUseful, if_neg hb, hc, if_true, hn]
    exact ih _

/-- When the head of the live list is a full block whose `next` is the block
itself, the search loop of `Insert` does not end: no amount of fuel lets a
statement without a primary-key value return. -/
theorem Insert_timeout_of_cycle (atof : List Byte → Nat) (st : SQLInsert) (s : DB)
    (hR : s.tbl.record_length ≠ 0) (hlen : st.values.length ≤ s.tbl.ats.length)
    (hpk : Insert.pk_index st s.tbl = -1) (hb : s.tbl.first_block_num ≠ -1)
    (hc : (s.blocks s.tbl.first_block_num).count = s.tbl.max_count)
    (hn : (s.blocks s.tbl.first_block_num).next = s.tbl.first_block_num) :
    ∀ fuel, Insert atof fuel st s = Outcome.timeout := by
  intro fuel
  obtain ⟨ks, hks⟩ := Insert.tkey_values_isSome atof st.values s.tbl.ats hlen
  have hfind := Insert.findUseful_cycle hb hc hn fuel none
  unfold Table.max_count at hfind
  unfold Insert Insert.run
  rw [if_neg hR]
  simp only [hks, hpk, ne_eq, not_true_eq_false, if_false, Insert.place, hfind]

/-- C23 (the code departs from the claim). From the empty table `u`, without
index, the statements `INSERT 1`, `DELETE WHERE id = 1`, `INSERT 2`,
`INSERT 3`, `INSERT 4`, `DELETE WHERE id = 4` all return, and leave
`first_block_num = 0` with the `next` of block 0 equal to 0: no list of blocks
leads from `first_block_num` to -1. After `INSERT 5` and `INSERT 6` have
filled block 0, the search loop of `INSERT 7` never ends, whatever the fuel. -/
theorem live_list_cycle_after_delete :
    emptyIdPad.isEmptyTable ∧ emptyIdPad.tbl.ids = [] ∧
      Insert atof0 3 (insertIdPad [49]) emptyIdPad = Outcome.done vOne ∧
      Delete atof0 deleteIdOne vOne = Outcome.done vEmptied ∧
      Insert atof0 3 (insertIdPad [50]) vEmptied = Outcome.done vTwo ∧
      Insert atof0 3 (insertIdPad [51]) vTwo = Outcome.done vTwoThree ∧
      Insert atof0 3 (insertIdPad [52]) vTwoThree = Outcome.done vFour ∧
      Delete atof0 deleteIdFour vFour = Outcome.done vCyclic ∧
      vCyclic.tbl.first_block_num = 0 ∧ (vCyclic.blocks 0).next = 0 ∧
      vCyclic.tbl.block_count = 1 ∧
      (∀ l, ¬ chainFrom vCyclic vCyclic.tbl.first_block_num l) ∧
      Insert atof0 3 (insertIdPad [53]) vCyclic = Outcome.done vFive ∧
      Insert atof0 3 (insertIdPad [54]) vFive = Outcome.done vFiveSix ∧
      ∀ fuel, Insert atof0 fuel (insertIdPad [55]) vFiveSix = Outcome.timeout := by
  refine ⟨by decide, by decide, rfl, rfl, rfl, rfl, rfl, rfl, by decide, by decide, by decide,
    ?_, rfl, rfl, ?_⟩
  · have h0 : vCyclic.tbl.first_block_num = 0 := by decide
    have h1 : (vCyclic.blocks 0).next = 0 := by decide
    rw [h0]
    intro l
    induction l with
    | nil =>
      intro h
      have h2 : (0 : Int) = -1 := h
      exact absurd h2 (by decide)
    | cons x l ih =>
      intro h
      have := h.2.2
      rw [h1] at this
      exact ih this
  · exact Insert_timeout_of_cycle atof0 (insertIdPad [55]) vFiveSix (by decide) (by decide)
      (by decide) (by decide) (by decide) (by decide)


/-! ## UpdateRecord -/

theorem indexOf?_of_nodup : ∀ (l : List Int) (k : Nat) (j : Int), l.Nodup → l[k]? = some j →
    l.indexOf? j = some k := by
  intro l
  induction l with
  | nil => intro k j _ h; simp at h
  | cons x l ih =>
    intro k j hnd h
    unfold List.indexOf? at *
    rw [List.findIdx?_cons]
    cases k with
    | zero =>
      simp only [List.getElem?_cons_zero, Option.some.injEq] at h
      subst h
      simp
    | succ k =>
      simp only [List.getElem?_cons_succ] at h
      have hne : x ≠ j := by
        intro e
        subst e
        exact (List.nodup_cons.1 hnd).1 (List.getElem?_mem h)
      have hb : (x == j) = false := by simpa using hne
      rw [hb]
      simp only [Bool.false_eq_true, if_false, zero_add]
      rw [List.findIdx?_succ, ih k j (List.nodup_cons.1 hnd).2 h]
      rfl

theorem indexOf?_eq_none (l : List Int) (j : Int) : l.indexOf? j = none ↔ j ∉ l := by
  unfold List.indexOf?
  rw [List.findIdx?_eq_none_iff]
  constructor
  · intro h hj
    have := h j hj
    simp at this
  · intro h x hx
    have : x ≠ j := fun e => h (e ▸ hx)
    simpa using this

/-- The key that `GetRecord` builds for an attribute whose bytes are the
buffer of a key that fits the attribute is that key. -/
theorem GetRecord.key_of_fits {v : TKey} {a : Attribute} {bs : List Byte} (hfit : keyFits v a)
    (hnum : a.data_type ≠ 2 → a.length = 4) (hbs : bs = v.key) :
    ({ TKey.new a.data_type a.length with
        key := bs ++ (TKey.new a.data_type a.length).key.drop a.length } : TKey) = v := by
  obtain ⟨ht, hl, hkl⟩ := hfit
  have hlen : (if a.data_type = 2 then a.length else 4) = a.length := by
    split
    · rfl
    · rename_i hne
      exact (hnum hne).symm
  subst hbs
  cases v with
  | mk kt kl kk =>
    simp only [TKey.new, hlen] at *
    subst ht
    subst hl
    simp

/-- The loop of `UpdateRecord` over the attributes from position `i`, whose
bytes start at `off`: it returns when every position listed in `indices` has a
value, it leaves the bytes outside the attributes alone, and the record read
back holds the listed value at a listed position and the old key elsewhere. -/
theorem UpdateRecord_loop_spec (indices : List Int) (values : List TKey) :
    ∀ (ats : List Attribute) (i off : Int) (c : Int → Byte),
      (∀ (j : Nat) (a : Attribute), ats[j]? = some a → ∀ k,
        indices.indexOf? (i + (j : Int)) = some k → ∃ v, values[k]? = some v ∧ keyFits v a) →
      (∀ a ∈ ats, a.data_type ≠ 2 → a.length = 4) →
      ∃ c1, UpdateRecord.loop indices values ats i off c = some c1 ∧
        (∀ x : Int, x < off ∨ off + (attrsLength ats : Int) ≤ x → c1 x = c x) ∧
        ∀ j : Nat, j < ats.length →
          (GetRecord.keys c1 ats off)[j]? =
            match indices.indexOf? (i + (j : Int)) with
            | some k => values[k]?
            | none => (GetRecord.keys c ats off)[j]? := by
  intro ats
  induction ats with
  | nil =>
    intro i off c _ _
    exact ⟨c, rfl, fun _ _ => rfl, fun j hj => absurd hj (Nat.not_lt_zero j)⟩
  | cons a as ih =>
    intro i off c H hnum
    have ha : attrsLength (a :: as) = a.length + attrsLength as := by
      simp [attrsLength]
    have hnum1 : ∀ x ∈ as, x.data_type ≠ 2 → x.length = 4 :=
      fun x hx => hnum x (List.mem_cons_of_mem _ hx)
    have hcast : ∀ j : Nat, i + ((j + 1 : Nat) : Int) = i + 1 + (j : Int) := by
      intro j; push_cast; ring
    have H1 : ∀ (j : Nat) (a1 : Attribute), as[j]? = some a1 → ∀ k,
        indices.indexOf? (i + 1 + (j : Int)) = some k →
        ∃ v, values[k]? = some v ∧ keyFits v a1 := by
      intro j a1 hj k hk
      rw [← hcast] at hk
      exact H (j + 1) a1 (by simpa using hj) k hk
    have hi0 : i + ((0 : Nat) : Int) = i := by simp
    simp only [UpdateRecord.loop]
    cases hidx : indices.indexOf? i with
    | none =>
      obtain ⟨c1, hl, hout, hkeys⟩ := ih (i + 1) (off + (a.length : Int)) c H1 hnum1
      refine ⟨c1, hl, ?_, ?_⟩
      · intro x hx
        apply hout
        rw [ha] at hx
        push_cast at hx
        omega
      · intro j hj
        cases j with
        | zero =>
          rw [hi0, hidx]
          simp only [GetRecord.keys, List.getElem?_cons_zero]
          rw [readBytes_congr c1 c off a.length (fun x h1 h2 => hout x (by omega))]
        | succ j =>
          rw [hcast]
          simp only [GetRecord.keys, List.getElem?_cons_succ]
          exact hkeys j (by simp only [List.length_cons] at hj; omega)
    | some k =>
      obtain ⟨v, hv, hfit⟩ := H 0 a (by simp) k (by rw [hi0]; exact hidx)
      simp only [hv]
      obtain ⟨c1, hl, hout, hkeys⟩ := ih (i + 1) (off + (a.length : Int))
        (memcpy c off (fun i => v.key.getD i 0) v.length) H1 hnum1
      have hvl : v.length = a.length := hfit.2.1
      refine ⟨c1, hl, ?_, ?_⟩
      · intro x hx
        rw [ha] at hx
        push_cast at hx
        rw [hout x (by omega)]
        apply memcpy_outside
        rw [hvl]
        omega
      · intro j hj
        cases j with
        | zero =>
          rw [hi0, hidx]
          simp only [GetRecord.keys, List.getElem?_cons_zero, hv, Option.some.injEq]
          apply GetRecord.key_of_fits hfit (hnum a (List.mem_cons_self _ _))
          rw [readBytes_congr c1 _ off a.length (fun x h1 h2 => hout x (by omega))]
          have := readBytes_memcpy c off v.key
          rw [hfit.2.2, ← hvl] at this
          rw [← hvl]
          exact this
        | succ j =>
          rw [hcast]
          simp only [GetRecord.keys, List.getElem?_cons_succ]
          rw [hkeys j (by simp only [List.length_cons] at hj; omega)]
          rw [GetRecord.keys_congr as (memcpy c off (fun i => v.key.getD i 0) v.length) c
            (off + (a.length : Int))]
          intro x h1 h2
          apply memcpy_outside
          rw [hvl]
          omega

/-- The key that `GetRecord` builds for attribute `j` is read at the offset of
the record plus the lengths of the attributes before `j`. -/
theorem GetRecord.keys_getElem? (c : Int → Byte) :
    ∀ (ats : List Attribute) (off : Int) (j : Nat) (a : Attribute), ats[j]? = some a →
      (GetRecord.keys c ats off)[j]? =
        some { TKey.new a.data_type a.length with
          key := readBytes c (off + (attrsLength (ats.take j) : Int)) a.length
            ++ (TKey.new a.data_type a.length).key.drop a.length } := by
  intro ats
  induction ats with
  | nil => intro off j a h; simp at h
  | cons x xs ih =>
    intro off j a h
    cases j with
    | zero =>
      simp only [List.getElem?_cons_zero, Option.some.injEq] at h
      subst h
      simp [GetRecord.keys, attrsLength]
    | succ j =>
      simp only [List.getElem?_cons_succ] at h
      simp only [GetRecord.keys, List.getElem?_cons_succ, List.take_succ_cons]
      rw [ih _ j a h]
      have e : attrsLength (x :: xs.take j) = x.length + attrsLength (xs.take j) := by
        simp [attrsLength]
      rw [e]
      push_cast
      rw [Int.add_assoc]

/-- C27. For a block `b`, a slot `o`, a list `indices` of distinct attribute
positions and a list `values` of as many keys, each fitting its attribute (same
type, same length), `UpdateRecord(b, o, indices, values)` returns, and
afterwards the record read from slot `o` holds `values[k]` at position
`indices[k]` and the former key at every position that is not listed; the bytes
of attribute `j` are the `length` bytes at payload offset `o * record_length`
plus the lengths of the attributes before `j` (the payload starts at byte 12 of
the block); the header of the block, every byte outside the attributes of slot
`o`, every other slot, every other block and the table are unchanged. Numeric
attributes have length 4 and a record is at least as long as its attributes. -/
theorem UpdateRecord_writes_listed_attributes (s : DB) (b o : Int) (indices : List Int)
    (values : List TKey) (hb : b ≠ -1) (hnd : indices.Nodup)
    (hlenIV : indices.length = values.length)
    (hfit : ∀ (k j : Nat) (v : TKey) (a : Attribute), indices[k]? = some (j : Int) →
      values[k]? = some v → s.tbl.ats[j]? = some a → keyFits v a)
    (hnum : ∀ a ∈ s.tbl.ats, a.data_type ≠ 2 → a.length = 4)
    (hlen : (attrsLength s.tbl.ats : Int) ≤ s.tbl.record_length) :
    ∃ s1, UpdateRecord s b o indices values = some s1 ∧
      (∀ (k j : Nat) (v : TKey), indices[k]? = some (j : Int) → values[k]? = some v →
        j < s.tbl.ats.length → (slotKeys s1 b o)[j]? = some v) ∧
      (∀ j : Nat, (j : Int) ∉ indices → (slotKeys s1 b o)[j]? = (slotKeys s b o)[j]?) ∧
      (∀ (k j : Nat) (v : TKey) (a : Attribute), indices[k]? = some (j : Int) →
        values[k]? = some v → s.tbl.ats[j]? = some a →
        readBytes (s1.blocks b).content
          (o * s.tbl.record_length + (attrsLength (s.tbl.ats.take j) : Int)) a.length = v.key) ∧
      (s1.blocks b).prev = (s.blocks b).prev ∧ (s1.blocks b).next = (s.blocks b).next ∧
      (s1.blocks b).count = (s.blocks b).count ∧
      (∀ x : Int, x < o * s.tbl.record_length ∨
          o * s.tbl.record_length + (attrsLength s.tbl.ats : Int) ≤ x →
        (s1.blocks b).content x = (s.blocks b).content x) ∧
      (∀ i : Int, i ≠ o → slotKeys s1 b i = slotKeys s b i) ∧
      (∀ m : Int, m ≠ b → s1.blocks m = s.blocks m) ∧ s1.tbl = s.tbl := by
  have H : ∀ (j : Nat) (a : Attribute), s.tbl.ats[j]? = some a → ∀ k,
      indices.indexOf? (0 + (j : Int)) = some k → ∃ v, values[k]? = some v ∧ keyFits v a := by
    intro j a hj k hk
    rw [Int.zero_add] at hk
    have hk1 : k < indices.length ∧ indices[k]? = some (j : Int) := by
      unfold List.indexOf? at hk
      obtain ⟨h1, h2, _⟩ := List.findIdx?_eq_some_iff_getElem.1 hk
      refine ⟨h1, ?_⟩
      rw [List.getElem?_eq_getElem h1]
      simpa using h2
    have hk2 : k < values.length := by omega
    exact ⟨values[k], List.getElem?_eq_getElem hk2,
      hfit k j _ a hk1.2 (List.getElem?_eq_getElem hk2) hj⟩
  obtain ⟨c1, hloop, hout, hkeys⟩ := UpdateRecord_loop_spec indices values s.tbl.ats 0
    (o * s.tbl.record_length) (s.blocks b).content H hnum
  have hupd : UpdateRecord s b o indices values
      = some (s.setBlock b (fun x => { x with content := c1 })) := by
    unfold UpdateRecord
    rw [GetBlockInfo_of_ne hb]
    simp only [hloop]
  have hslot : slotKeys (s.setBlock b (fun x => { x with content := c1 })) b o
      = GetRecord.keys c1 s.tbl.ats (o * s.tbl.record_length) := by
    simp only [slotKeys, setBlock_blocks_same, setBlock_tbl]
  have hlisted : ∀ (k j : Nat) (v : TKey), indices[k]? = some (j : Int) → values[k]? = some v →
      j < s.tbl.ats.length →
      (GetRecord.keys c1 s.tbl.ats (o * s.tbl.record_length))[j]? = some v := by
    intro k j v hk hv hj
    rw [hkeys j hj, Int.zero_add, indexOf?_of_nodup indices k (j : Int) hnd hk]
    exact hv
  refine ⟨_, hupd, ?_, ?_, ?_, ?_, ?_, ?_, ?_, ?_, ?_, ?_⟩
  · intro k j v hk hv hj
    rw [hslot]
    exact hlisted k j v hk hv hj
  · intro j hj
    rw [hslot]
    by_cases hjl : j < s.tbl.ats.length
    · rw [hkeys j hjl, Int.zero_add, (indexOf?_eq_none indices (j : Int)).2 hj]
      rfl
    · have h1 : (GetRecord.keys c1 s.tbl.ats (o * s.tbl.record_length)).length ≤ j := by
        rw [GetRecord.keys_length]; omega
      have h2 : (slotKeys s b o).length ≤ j := by
        unfold slotKeys
        rw [GetRecord.keys_length]; omega
      rw [List.getElem?_eq_none h1, List.getElem?_eq_none h2]
  · intro k j v a hk hv ha
    have hj : j < s.tbl.ats.length := by
      by_contra hcon
      rw [List.getElem?_eq_none (by omega)] at ha
      cases ha
    have h1 := hlisted k j v hk hv hj
    rw [GetRecord.keys_getElem? c1 s.tbl.ats _ j a ha] at h1
    have h2 := Option.some.inj h1
    have h3 : readBytes c1 (o * s.tbl.record_length + (attrsLength (s.tbl.ats.take j) : Int))
        a.length ++ (TKey.new a.data_type a.length).key.drop a.length = v.key := by
      rw [← h2]
    have hkl : v.key.length = a.length := (hfit k j v a hk hv ha).2.2
    have h4 := congrArg List.length h3
    rw [List.length_append, readBytes_length, hkl] at h4
    have h5 : (TKey.new a.data_type a.length).key.drop a.length = [] :=
      List.length_eq_zero.1 (by omega)
    rw [h5, List.append_nil] at h3
    simp only [setBlock_blocks_same]
    exact h3
  · simp only [setBlock_blocks_same]
  · simp only [setBlock_blocks_same]
  · simp only [setBlock_blocks_same]
  · intro x hx
    simp only [setBlock_blocks_same]
    exact hout x hx
  · intro i hi
    simp only [slotKeys, setBlock_blocks_same, setBlock_tbl]
    apply GetRecord.keys_congr
    intro x h1 h2
    apply hout
    have := slot_disjoint s.tbl.record_length o i (x - i * s.tbl.record_length)
      (attrsLength s.tbl.ats) hlen hi (by omega) (by omega)
    have e : i * s.tbl.record_length + (x - i * s.tbl.record_length) = x := by ring
    rw [e] at this
    exact this
  · intro m hm
    exact setBlock_blocks_other _ _ _ _ hm
  · rfl

theorem UpdateRecord_writes_listed_attributes_witness :
    ∃ s1, UpdateRecord tAliceBob 0 1 [1]
        [{ key_type := 2, length := 8, key := [99, 97, 114, 111, 108, 0, 0, 0] }] = some s1 ∧
      (slotKeys s1 0 1)[1]?
        = some { key_type := 2, length := 8, key := [99, 97, 114, 111, 108, 0, 0, 0] } ∧
      (slotKeys s1 0 1)[0]? = (slotKeys tAliceBob 0 1)[0]? ∧
      slotKeys s1 0 0 = slotKeys tAliceBob 0 0 :=
  have h := UpdateRecord_writes_listed_attributes tAliceBob 0 1 [1]
    [{ key_type := 2, length := 8, key := [99, 97, 114, 111, 108, 0, 0, 0] }]
    (by decide) (by decide) (by decide)
    (by
      intro k j v a hk hv ha
      cases k with
      | zero =>
        simp only [List.getElem?_cons_zero, Option.some.injEq] at hk hv
        have hj : j = 1 := by omega
        subst hj
        subst hv
        have ha2 : a = { attr_name := "name", data_type := 2, length := 8, attr_type := 0 } := by
          have h0 : tAliceBob.tbl.ats[1]?
              = some { attr_name := "name", data_type := 2, length := 8, attr_type := 0 } := by
            decide
          rw [h0] at ha
          exact (Option.some.inj ha).symm
        subst ha2
        exact ⟨rfl, rfl, rfl⟩
      | succ k => simp at hk)
    (by decide) (by decide)
  match h with
  | ⟨s1, h1, h2, h3, _, _, _, _, _, h4, _⟩ =>
    ⟨s1, h1, h2 0 1 _ rfl rfl (by decide), h3 0 (by decide), h4 0 (by decide)⟩


/-! ## The index update of Insert -/

/-- C28 (the code departs from the claim). The table `x (id int, name char(8))`
has one index, on `name`, the attribute at position 1, and holds the row
(1, "alice"). `INSERT INTO x VALUES (2, "bob")` returns and writes the row to
slot 1 of block 0, but the entry it adds to the index has the key of the value
of attribute 0, the int 2, not "bob": the loop compares the attribute name of
index 0 with the attribute name of index `i`, equal at `i = 0`. On the empty
table the placement in a new block runs the second copy of the loop, which
compares with the name of index `i` and reads `ids_[1]`, out of range. -/
theorem insert_indexes_first_attribute :
    xAlice.tbl.ids = [idxName] ∧ xAlice.tbl.GetAttributeIndex idxName.attr_name = 1 ∧
      Insert atof0 2 (insertIdName [50] bob) xAlice = Outcome.done xAliceBob ∧
      slotKeys xAliceBob 0 1 = [{ key_type := 0, length := 4, key := [2, 0, 0, 0] }, keyBob] ∧
      (xAliceBob.trees 0).entries
        = [({ key_type := 0, length := 4, key := [2, 0, 0, 0] }, locator 0 1),
           (keyAlice, locator 0 0)] ∧
      (xAliceBob.trees 0).GetVal keyBob = -1 ∧
      Insert atof0 2 (insertIdName [49] alice) xEmpty = Outcome.undefined :=
  ⟨rfl, by decide, rfl, by decide, by decide, by decide, rfl⟩


/-! ## FreeBlock -/

theorem BlockHandle.GetUsableBlock_of (h : BlockHandle) (fb p : Nat) (hc : h.bcount ≠ 0)
    (hf : h.first_block = some fb) (hn : (h.heap fb).next = some p) :
    ∃ h1, h.GetUsableBlock = some (some p, h1) ∧ h1.first_block = some fb ∧
      h1.bcount = h.bcount - 1 ∧ (h1.heap p).age = 0 ∧ (h1.heap p).next = none := by
  simp only [BlockHandle.GetUsableBlock, if_neg hc, hf, hn]
  refine ⟨_, rfl, hf, rfl, ?_, ?_⟩
  · simp [BlockHandle.setFrame]
  · simp [BlockHandle.setFrame]

theorem BlockHandle.FreeBlock_empty (h : BlockHandle) (f : Nat) (hc : h.bcount = 0) :
    ∃ h1, h.FreeBlock (some f) = some h1 ∧ h1.first_block = some f ∧
      (h1.heap f).next = some f ∧ h1.bcount = 1 := by
  simp only [BlockHandle.FreeBlock, if_pos hc]
  refine ⟨_, rfl, rfl, ?_, ?_⟩
  · simp [BlockHandle.setFrame]
  · show h.bcount + 1 = 1
    rw [hc]; rfl

theorem BlockHandle.FreeBlock_nonempty (h : BlockHandle) (f fb : Nat) (hc : h.bcount ≠ 0)
    (hf : h.first_block = some fb) :
    ∃ h1, h.FreeBlock (some f) = some h1 ∧ h1.first_block = some fb ∧
      (h1.heap fb).next = some f ∧ h1.bcount = h.bcount + 1 := by
  simp only [BlockHandle.FreeBlock, if_neg hc, hf]
  refine ⟨_, rfl, hf, ?_, rfl⟩
  simp [BlockHandle.setFrame]

/-- C30. In a state of a handle with `bcount ≥ 0` (0 included) and
`first_block_` not NULL, `FreeBlock(f)` of a frame `f` returns with `bcount`
one higher, and the call of `GetUsableBlock` that follows returns `f` itself,
with age 0 and `next = NULL`, and `bcount` back at its former value. -/
theorem FreeBlock_then_GetUsableBlock (h : BlockHandle) (f : Nat) (hcount : 0 ≤ h.bcount)
    (hhead : h.first_block ≠ none) :
    ∃ h1 h2, h.FreeBlock (some f) = some h1 ∧ h1.bcount = h.bcount + 1 ∧
      h1.GetUsableBlock = some (some f, h2) ∧ (h2.heap f).age = 0 ∧
      (h2.heap f).next = none ∧ h2.bcount = h.bcount := by
  by_cases hc : h.bcount = 0
  · obtain ⟨h1, hfree, hf1, hn1, hc1⟩ := BlockHandle.FreeBlock_empty h f hc
    obtain ⟨h2, hget, _, hc2, hage, hnext⟩ :=
      BlockHandle.GetUsableBlock_of h1 f f (by rw [hc1]; decide) hf1 hn1
    exact ⟨h1, h2, hfree, by rw [hc1, hc]; rfl, hget, hage, hnext, by rw [hc2, hc1, hc]; rfl⟩
  · obtain ⟨fb, hfb⟩ : ∃ fb, h.first_block = some fb := by
      cases hf : h.first_block with
      | none => exact absurd hf hhead
      | some fb => exact ⟨fb, rfl⟩
    obtain ⟨h1, hfree, hf1, hn1, hc1⟩ := BlockHandle.FreeBlock_nonempty h f fb hc hfb
    obtain ⟨h2, hget, _, hc2, hage, hnext⟩ :=
      BlockHandle.GetUsableBlock_of h1 fb f (by rw [hc1]; omega) hf1 hn1
    exact ⟨h1, h2, hfree, hc1, hget, hage, hnext, by rw [hc2, hc1]; omega⟩

theorem FreeBlock_then_GetUsableBlock_witness :
    (∃ h1 h2, handleEmpty.FreeBlock (some 7) = some h1 ∧ h1.bcount = handleEmpty.bcount + 1 ∧
      h1.GetUsableBlock = some (some 7, h2) ∧ (h2.heap 7).age = 0 ∧
      (h2.heap 7).next = none ∧ h2.bcount = handleEmpty.bcount) ∧
    (∃ h1 h2, handleOne.FreeBlock (some 7) = some h1 ∧ h1.bcount = handleOne.bcount + 1 ∧
      h1.GetUsableBlock = some (some 7, h2) ∧ (h2.heap 7).age = 0 ∧
      (h2.heap 7).next = none ∧ h2.bcount = handleOne.bcount) :=
  ⟨FreeBlock_then_GetUsableBlock handleEmpty 7 (by decide) (by decide),
    FreeBlock_then_GetUsableBlock handleOne 7 (by decide) (by decide)⟩

/-- C21 (the code departs from the claim). After a handle is constructed and
its 300 frames, at the addresses 1 to 300, are taken by 300 calls of
`GetUsableBlock`, `first_block_` still points to the frame at address 0, which
no call returned. `FreeBlock` of the frame at address 1 then finds
`bcount_ == 0` and makes that frame the head, linked to itself, and the next
`GetUsableBlock` returns the frame `first_block_` points to, and leaves
`first_block_` pointing to it with `bcount_ = 0`. -/
theorem freed_frame_becomes_head (p : String) :
    ∃ h ps h1 h2 h3, BlockHandle.new p = some h ∧
      BlockHandle.GetUsableBlocks 300 h = some (ps, h1) ∧ some 1 ∈ ps ∧ some 0 ∉ ps ∧
      h1.first_block = some 0 ∧ h1.bcount = 0 ∧
      h1.FreeBlock (some 1) = some h2 ∧ h2.first_block = some 1 ∧ h2.bcount = 1 ∧
      h2.GetUsableBlock = some (some 1, h3) ∧ h3.first_block = some 1 ∧ h3.bcount = 0 := by
  obtain ⟨h, hnew, hs, hc, hf, hlink, hlast⟩ := BlockHandle.new_spec p
  have hinv : h.poolAfter 300 0 :=
    ⟨by rw [hc]; rfl, hf, by rw [if_pos (by omega)]; exact hlink 0 (by omega),
      fun i _ hi => hlink i hi, fun _ => hlast⟩
  obtain ⟨h1, hget, hinv1⟩ := BlockHandle.GetUsableBlocks_spec 300 300 h 0 (by omega) hinv
  have hc1 : h1.bcount = 0 := by rw [hinv1.1]; omega
  obtain ⟨h2, hfree, hf2, hn2, hc2⟩ := BlockHandle.FreeBlock_empty h1 1 hc1
  obtain ⟨h3, hget3, hf3, hc3, _, _⟩ :=
    BlockHandle.GetUsableBlock_of h2 1 1 (by rw [hc2]; decide) hf2 hn2
  refine ⟨h, _, h1, h2, h3, hnew, hget, ?_, ?_, hinv1.2.1, hc1, hfree, hf2, hc2, hget3, hf3,
    by rw [hc3, hc2]; rfl⟩
  · exact List.mem_map.2 ⟨0, List.mem_range.2 (by omega), rfl⟩
  · intro hmem
    obtain ⟨i, _, hi⟩ := List.mem_map.1 hmem
    simp only [Option.some.injEq] at hi
    omega


/-! ## The catalog archive -/

theorem Attribute_serialize_roundTrips (a : Attribute) :
    ∃ l, RoundTrips Attribute.serialize a l := by
  refine ⟨[Item.str a.attr_name, Item.int a.data_type, Item.int (a.length : Int),
    Item.int a.attr_type], ?_, ?_⟩
  · intro pre
    simp [Attribute.serialize, Archive.int, Archive.str]
  · intro rest x0
    simp [Attribute.serialize, Archive.int, Archive.str]

theorem Index_serialize_roundTrips (x : Index) : ∃ l, RoundTrips Index.serialize x l := by
  refine ⟨[Item.int x.max_count, Item.str x.attr_name, Item.str x.name,
    Item.int (x.key_len : Int), Item.int x.key_type, Item.int x.rank, Item.int x.rubbish,
    Item.int x.root, Item.int x.leaf_head, Item.int x.key_count, Item.int x.level,
    Item.int x.node_count], ?_, ?_⟩
  · intro pre
    simp [Index.serialize, Archive.int, Archive.str]
  · intro rest x0
    simp [Index.serialize, Archive.int, Archive.str]

theorem Archive_items_roundTrips {α : Type} (elem : Archive → α → Option (α × Archive))
    (dflt : α) :
    ∀ xs : List α, (∀ x ∈ xs, ∃ l, RoundTrips elem x l) →
      ∃ l, (∀ pre, Archive.saveItems elem xs { loading := false, items := pre }
            = some (xs, { loading := false, items := pre ++ l })) ∧
        (∀ rest, Archive.loadItems elem dflt xs.length { loading := true, items := l ++ rest }
            = some (xs, { loading := true, items := rest })) := by
  intro xs
  induction xs with
  | nil =>
    intro _
    exact ⟨[], fun pre => by simp [Archive.saveItems], fun rest => by simp [Archive.loadItems]⟩
  | cons x xs ih =>
    intro h
    obtain ⟨lx, hx1, hx2⟩ := h x (List.mem_cons_self _ _)
    obtain ⟨l, h1, h2⟩ := ih (fun y hy => h y (List.mem_cons_of_mem _ hy))
    refine ⟨lx ++ l, ?_, ?_⟩
    · intro pre
      simp only [Archive.saveItems, hx1 pre, h1 (pre ++ lx), List.append_assoc]
    · intro rest
      simp only [List.length_cons, Archive.loadItems, List.append_assoc, hx2 (l ++ rest) dflt,
        h2 rest]

theorem Archive_vector_roundTrips {α : Type} (elem : Archive → α → Option (α × Archive))
    (dflt : α) (xs : List α) (h : ∀ x ∈ xs, ∃ l, RoundTrips elem x l) :
    ∃ l, RoundTrips (Archive.vector elem dflt) xs l := by
  obtain ⟨l, h1, h2⟩ := Archive_items_roundTrips elem dflt xs h
  refine ⟨Item.int (xs.length : Int) :: l, ?_, ?_⟩
  · intro pre
    simp only [Archive.vector, Archive.int, Bool.false_eq_true, if_false, h1]
    simp
  · intro rest x0
    simp only [Archive.vector, Archive.int, if_true, List.cons_append, Int.toNat_ofNat, h2]

theorem Table_serialize_roundTrips (t : Table) : ∃ l, RoundTrips Table.serialize t l := by
  obtain ⟨la, ha1, ha2⟩ := Archive_vector_roundTrips Attribute.serialize Attribute.default t.ats
    (fun a _ => Attribute_serialize_roundTrips a)
  obtain ⟨li, hi1, hi2⟩ := Archive_vector_roundTrips Index.serialize Index.default t.ids
    (fun x _ => Index_serialize_roundTrips x)
  refine ⟨[Item.str t.tb_name, Item.int t.record_length, Item.int t.first_block_num,
    Item.int t.first_rubbish_num, Item.int t.block_count] ++ la ++ li, ?_, ?_⟩
  · intro pre
    simp only [Table.serialize, Archive.int, Archive.str, Bool.false_eq_true, if_false, ha1,
      hi1]
    simp
  · intro rest x0
    simp only [Table.serialize, Archive.int, Archive.str, if_true, List.cons_append,
      List.nil_append, List.append_assoc, ha2, hi2]

theorem Database_serialize_roundTrips (d : Database) :
    ∃ l, RoundTrips Database.serialize d l := by
  obtain ⟨lt, ht1, ht2⟩ := Archive_vector_roundTrips Table.serialize Table.default d.tbs
    (fun t _ => Table_serialize_roundTrips t)
  refine ⟨Item.str d.db_name :: lt, ?_, ?_⟩
  · intro pre
    simp only [Database.serialize, Archive.str, Bool.false_eq_true, if_false, ht1]
    simp
  · intro rest x0
    simp only [Database.serialize, Archive.str, if_true, List.cons_append, ht2]

/-- C22. Catalog serialization round-trips. `CatalogManager::serialize` on a
new output archive returns for every catalog, and on an input archive holding
the values it wrote it returns, for any catalog object, that object with the
databases of the saved catalog, equal member by member: database names, tables
with their names, `record_length`, `first_block_num`, `first_rubbish_num`,
`block_count`, attributes and indexes with all twelve members; the archive is
read to its end. The member `path_` of the catalog manager is not archived and
stays. -/
theorem catalog_round_trip (cm cm0 : CatalogManager) :
    ∃ file, cm.serialize { loading := false, items := [] }
        = some (cm, { loading := false, items := file }) ∧
      cm0.serialize { loading := true, items := file }
        = some ({ cm0 with dbs := cm.dbs }, { loading := true, items := [] }) := by
  obtain ⟨l, h1, h2⟩ := Archive_vector_roundTrips Database.serialize Database.default cm.dbs
    (fun d _ => Database_serialize_roundTrips d)
  refine ⟨l, ?_, ?_⟩
  · simp only [CatalogManager.serialize, h1, List.nil_append]
  · have := h2 [] cm0.dbs
    rw [List.append_nil] at this
    simp only [CatalogManager.serialize, this]


/-! ## Select through an index -/

/-- C31 (the code departs from the claim). A frame made by `BlockInfo(0)` is
not dirty; after `set_dirty(false)` the accessor `dirty()` returns true, and
`set_dirty(false)` on a dirty frame leaves it dirty: `set_dirty` stores `true`
for every frame and every argument. -/
theorem set_dirty_ignores_argument :
    (Frame.new 0).dirty = false ∧ ((Frame.new 0).set_dirty false).dirty = true ∧
      (((Frame.new 0).set_dirty true).set_dirty false).dirty = true ∧
      ∀ (f : Frame) (d : Bool), (f.set_dirty d).dirty = true :=
  ⟨rfl, rfl, rfl, fun _ _ => rfl⟩

theorem asInt_range (k : List Byte) : -2147483648 ≤ asInt k ∧ asInt k < 2147483648 := by
  unfold asInt word32
  split <;> omega

theorem storeInt_outside (data : Nat → Byte) (off : Nat) (num : Int) (i : Nat)
    (h : i < off ∨ off + 4 ≤ i) : storeInt data off num i = data i := by
  unfold storeInt
  rw [if_neg (by omega)]

theorem loadInt_storeInt (data : Nat → Byte) (off : Nat) (num : Int)
    (h1 : -2147483648 ≤ num) (h2 : num < 2147483648) :
    loadInt (storeInt data off num) off = num := by
  have h := asInt_int32Bytes num h1 h2
  unfold loadInt storeInt
  have e0 : off ≤ off ∧ off < off + 4 := by omega
  have e1 : off ≤ off + 1 ∧ off + 1 < off + 4 := by omega
  have e2 : off ≤ off + 2 ∧ off + 2 < off + 4 := by omega
  have e3 : off ≤ off + 3 ∧ off + 3 < off + 4 := by omega
  rw [if_pos e0, if_pos e1, if_pos e2, if_pos e3, Nat.sub_self, Nat.add_sub_cancel_left,
    Nat.add_sub_cancel_left, Nat.add_sub_cancel_left]
  unfold int32Bytes at h ⊢
  simp only [List.getD_cons_zero, List.getD_cons_succ]
  exact h

theorem loadInt_storeInt_other (data : Nat → Byte) (off off1 : Nat) (num : Int)
    (h : off1 + 4 ≤ off ∨ off + 4 ≤ off1) :
    loadInt (storeInt data off num) off1 = loadInt data off1 := by
  unfold loadInt
  rw [storeInt_outside data off num off1 (by omega),
    storeInt_outside data off num (off1 + 1) (by omega),
    storeInt_outside data off num (off1 + 2) (by omega),
    storeInt_outside data off num (off1 + 3) (by omega)]

/-- C32. The header accessors address three independent 32-bit fields at the
byte offsets 0 (prev), 4 (next) and 8 (record count), and the payload starts
at offset 12. For every buffer and every `int` value: each getter returns the
value its setter stored; each of `SetPrevBlockNum`, `SetNextBlockNum`,
`SetRecordCount` and `DecreaseRecordCount` leaves every byte outside its own
four bytes as it was, so the other two fields read as before; and
`DecreaseRecordCount` lowers the record count by exactly one (a count above
the least `int`). -/
theorem header_fields_independent (data : Nat → Byte) (num : Int)
    (h1 : -2147483648 ≤ num) (h2 : num < 2147483648) :
    BlockInfo.GetPrevBlockNum (BlockInfo.SetPrevBlockNum data num) = num ∧
    BlockInfo.GetNextBlockNum (BlockInfo.SetNextBlockNum data num) = num ∧
    BlockInfo.GetRecordCount (BlockInfo.SetRecordCount data num) = num ∧
    (∀ i, 4 ≤ i → BlockInfo.SetPrevBlockNum data num i = data i) ∧
    (∀ i, i < 4 ∨ 8 ≤ i → BlockInfo.SetNextBlockNum data num i = data i) ∧
    (∀ i, i < 8 ∨ 12 ≤ i → BlockInfo.SetRecordCount data num i = data i) ∧
    (∀ i, i < 8 ∨ 12 ≤ i → BlockInfo.DecreaseRecordCount data i = data i) ∧
    BlockInfo.GetNextBlockNum (BlockInfo.SetPrevBlockNum data num)
      = BlockInfo.GetNextBlockNum data ∧
    BlockInfo.GetRecordCount (BlockInfo.SetPrevBlockNum data num)
      = BlockInfo.GetRecordCount data ∧
    BlockInfo.GetPrevBlockNum (BlockInfo.SetNextBlockNum data num)
      = BlockInfo.GetPrevBlockNum data ∧
    BlockInfo.GetRecordCount (BlockInfo.SetNextBlockNum data num)
      = BlockInfo.GetRecordCount data ∧
    BlockInfo.GetPrevBlockNum (BlockInfo.SetRecordCount data num)
      = BlockInfo.GetPrevBlockNum data ∧
    BlockInfo.GetNextBlockNum (BlockInfo.SetRecordCount data num)
      = BlockInfo.GetNextBlockNum data ∧
    BlockInfo.GetPrevBlockNum (BlockInfo.DecreaseRecordCount data)
      = BlockInfo.GetPrevBlockNum data ∧
    BlockInfo.GetNextBlockNum (BlockInfo.DecreaseRecordCount data)
      = BlockInfo.GetNextBlockNum data ∧
    (-2147483648 < BlockInfo.GetRecordCount data →
      BlockInfo.GetRecordCount (BlockInfo.DecreaseRecordCount data)
        = BlockInfo.GetRecordCount data - 1) ∧
    BlockInfo.GetContentAddress = 12 := by
  refine ⟨loadInt_storeInt data 0 num h1 h2, loadInt_storeInt data 4 num h1 h2,
    loadInt_storeInt data 8 num h1 h2, ?_, ?_, ?_, ?_, ?_, ?_, ?_, ?_, ?_, ?_, ?_, ?_, ?_, rfl⟩
  · intro i hi
    exact storeInt_outside data 0 num i (by omega)
  · intro i hi
    exact storeInt_outside data 4 num i (by omega)
  · intro i hi
    exact storeInt_outside data 8 num i (by omega)
  · intro i hi
    exact storeInt_outside data 8 _ i (by omega)
  · exact loadInt_storeInt_other data 0 4 num (by omega)
  · exact loadInt_storeInt_other data 0 8 num (by omega)
  · exact loadInt_storeInt_other data 4 0 num (by omega)
  · exact loadInt_storeInt_other data 4 8 num (by omega)
  · exact loadInt_storeInt_other data 8 0 num (by omega)
  · exact loadInt_storeInt_other data 8 4 num (by omega)
  · exact loadInt_storeInt_other data 8 0 _ (by omega)
  · exact loadInt_storeInt_other data 8 4 _ (by omega)
  · intro hc
    have hr := asInt_range [data 8, data (8 + 1), data (8 + 2), data (8 + 3)]
    have hc2 : -2147483648 < loadInt data 8 := hc
    exact loadInt_storeInt data 8 (loadInt data 8 - 1) (by omega) (by unfold loadInt; omega)

theorem header_fields_independent_witness :
    BlockInfo.GetPrevBlockNum headerBytes = -1 ∧ BlockInfo.GetNextBlockNum headerBytes = 5 ∧
      BlockInfo.GetRecordCount headerBytes = 3 ∧
      BlockInfo.GetNextBlockNum (BlockInfo.SetNextBlockNum headerBytes 9) = 9 ∧
      BlockInfo.GetPrevBlockNum (BlockInfo.SetNextBlockNum headerBytes 9) = -1 ∧
      BlockInfo.GetRecordCount (BlockInfo.DecreaseRecordCount headerBytes) = 2 :=
  have h := header_fields_independent headerBytes 9 (by decide) (by decide)
  ⟨by decide, by decide, by decide, h.2.1, by rw [h.2.2.2.2.2.2.2.2.2.1]; decide,
    by rw [h.2.2.2.2.2.2.2.2.2.2.2.2.2.2.2.1 (by decide)]; decide⟩

/-! ## The converse of a comparison of keys -/

theorem strncmp_swap : ∀ (n : Nat) (a b : List Nat), strncmp b a n = - strncmp a b n := by
  intro n
  induction n with
  | zero => intro a b; simp [strncmp]
  | succ n ih =>
    intro a b
    simp only [strncmp]
    by_cases h : a.headD 0 % 256 = b.headD 0 % 256
    · have h2 : b.headD 0 % 256 = a.headD 0 % 256 := h.symm
      simp only [h, ne_eq, not_true_eq_false, if_false]
      by_cases h0 : b.headD 0 % 256 = 0
      · rw [if_pos h0, if_pos h0]
        rfl
      · rw [if_neg h0, if_neg h0]
        exact ih a.tail b.tail
    · have h2 : ¬ b.headD 0 % 256 = a.headD 0 % 256 := fun e => h e.symm
      simp only [ne_eq, h, h2, not_false_eq_true, if_true]
      omega

theorem floatEq_comm (x y : Nat) : floatEq x y = floatEq y x := by
  unfold floatEq
  by_cases h : floatOrd x = floatOrd y
  · have h2 : floatOrd y = floatOrd x := h.symm
    simp only [h, decide_True, Bool.and_true]
    rw [Bool.and_comm]
  · have h2 : ¬ floatOrd y = floatOrd x := fun e => h e.symm
    simp [h, h2]

/-- C33 (the claim fails on the code). The int key of "97", bytes 97 0 0 0,
and the char(4) key of "a" read from memory holding 97 0 1 1: `a == b` switches
on the type of `b`, char, and compares strings, which are equal, while `b == a`
switches on the type of `a`, int, and compares 16842849 with 97; likewise
`a < b` is false and `b > a` is true. -/
theorem key_compare_mixed_types :
    intKey97.key = [97, 0, 0, 0] ∧ charKeyA4.key = [97, 0, 1, 1] ∧
      intKey97.eq charKeyA4 = true ∧ charKeyA4.eq intKey97 = false ∧
      intKey97.lt charKeyA4 = false ∧ charKeyA4.gt intKey97 = true := by
  decide

/-- C33 (amended). For all keys `a` and `b` of the same type tag and the same
length, `(a == b)` equals `(b == a)` and `(a < b)` equals `(b > a)`. -/
theorem key_compare_converse (a b : TKey) (ht : a.key_type = b.key_type)
    (hl : a.length = b.length) :
    a.eq b = b.eq a ∧ a.lt b = b.gt a := by
  have hs := strncmp_swap b.length a.key b.key
  constructor
  · unfold TKey.eq
    rw [ht, hl, hs]
    by_cases h0 : b.key_type = 0
    · simp only [h0, if_true]
      by_cases e : asInt a.key = asInt b.key
      · rw [e]
      · have e2 : ¬ asInt b.key = asInt a.key := fun x => e x.symm
        simp [e, e2]
    · by_cases h1 : b.key_type = 1
      · simp only [h1, if_true]
        split
        · rename_i hc; exact absurd hc (by decide)
        · exact floatEq_comm _ _
      · simp only [h0, h1, if_false]
        split
        · congr 1
          apply propext
          constructor <;> intro h <;> omega
        · rfl
  · unfold TKey.lt TKey.gt
    rw [ht, hl, hs]
    by_cases h0 : b.key_type = 0
    · simp only [h0, if_true]
    · by_cases h1 : b.key_type = 1
      · simp only [h1, if_true]
      · simp only [h0, h1, if_false]
        split
        · congr 1
          apply propext
          constructor <;> intro h <;> omega
        · rfl

theorem key_compare_converse_witness :
    charKeyA.eq charKeyB = charKeyB.eq charKeyA ∧ charKeyA.lt charKeyB = charKeyB.gt charKeyA :=
  key_compare_converse charKeyA charKeyB (by decide) (by decide)

end MiniDB
